import Mathlib

/-!
# GraphRanker: red-black ranking tree, binary min-heap and shortest-path sum

A shallow embedding of `main.c`.  Heap-allocated tree nodes live in an explicit
store addressed by natural numbers; a pointer is an `Option Nat` (`none` is `NULL`).
Every function that dereferences a pointer returns an `Option`, and `none` stands
for a dereference of `NULL` (or for an exhausted loop budget).  `while` loops and
pointer recursion carry an explicit budget `fuel`.  Values of type `int` are integers; the
additions of `Djikstra`, which can leave the range of `int` on inputs that fit it, are reduced
to 32 bits by `int32`.
-/

namespace GraphRanker

/-! ## Data model -/

/-- The enumeration `Colour` of the source. -/
inductive Colour where
  | RED
  | BLACK
deriving DecidableEq, Repr

/-- The record `struct node` of the source: parent, right and left links, key, colour, index. -/
structure node where
  p : Option Nat
  r : Option Nat
  l : Option Nat
  Key : Int
  color : Colour
  index : Int
deriving DecidableEq, Repr

/-- The store of tree nodes together with the global `root` pointer.
`next` is the address the following `malloc` returns. -/
structure Mem where
  cell : Nat → node
  next : Nat
  root : Option Nat

/-- Overwrite the record stored at address `a`. -/
def Mem.set (m : Mem) (a : Nat) (v : node) : Mem :=
  { m with cell := fun b => if b = a then v else m.cell b }

/-- The assignment `a -> p = q`. -/
def Mem.setP (m : Mem) (a : Nat) (q : Option Nat) : Mem :=
  m.set a { m.cell a with p := q }

/-- The assignment `a -> r = q`. -/
def Mem.setR (m : Mem) (a : Nat) (q : Option Nat) : Mem :=
  m.set a { m.cell a with r := q }

/-- The assignment `a -> l = q`. -/
def Mem.setL (m : Mem) (a : Nat) (q : Option Nat) : Mem :=
  m.set a { m.cell a with l := q }

/-- The assignment `a -> color = c`. -/
def Mem.setColor (m : Mem) (a : Nat) (c : Colour) : Mem :=
  m.set a { m.cell a with color := c }

/-- The record a fresh store holds everywhere. -/
def node0 : node := ⟨none, none, none, 0, Colour.RED, 0⟩

/-- The store at program start: no node allocated, `root = NULL`. -/
def Mem.empty : Mem := ⟨fun _ => node0, 0, none⟩

/-! ## Tree insertion -/

/-- The descent loop of `insert`: `Curr` walks down from `T`, `Pre` trails it. -/
def insertLoop (m : Mem) (X : Nat) : Nat → Option Nat → Option Nat → Option (Option Nat)
  | 0, _, _ => none
  | _ + 1, none, Pre => some Pre
  | fuel + 1, some c, _ =>
    if (m.cell X).Key < (m.cell c).Key then insertLoop m X fuel (m.cell c).l (some c)
    else insertLoop m X fuel (m.cell c).r (some c)

/-- The function `insert(T, X)`: plain binary-search-tree insertion of node `X` below `T`;
returns the store and the returned tree pointer. -/
def insert (fuel : Nat) (m : Mem) (T : Option Nat) (X : Nat) : Option (Mem × Option Nat) :=
  match T with
  | none => some (m, some X)
  | some _ =>
    match insertLoop m X fuel T none with
    | some (some Pre) =>
      let m1 := m.setP X (some Pre)
      if (m1.cell X).Key < (m1.cell Pre).Key then some (m1.setL Pre (some X), T)
      else some (m1.setR Pre (some X), T)
    | _ => none

/-- The function `LeftRotate(X)`; it assigns the global `root` when `X` has no parent. -/
def LeftRotate (m : Mem) (X : Nat) : Option Mem :=
  match (m.cell X).r with
  | none => none
  | some Dx =>
    let m1 := m.setR X (m.cell Dx).l
    let m2 := match (m1.cell Dx).l with
      | some dl => m1.setP dl (some X)
      | none => m1
    let m3 := m2.setP Dx (m2.cell X).p
    let m4 := match (m3.cell X).p with
      | none => { m3 with root := some Dx }
      | some xp =>
        if some X = (m3.cell xp).l then m3.setL xp (some Dx) else m3.setR xp (some Dx)
    let m5 := m4.setL Dx (some X)
    some (m5.setP X (some Dx))

/-- The function `RightRotate(X)`; it assigns the global `root` when `X` has no parent. -/
def RightRotate (m : Mem) (X : Nat) : Option Mem :=
  match (m.cell X).l with
  | none => none
  | some Sx =>
    let m1 := m.setL X (m.cell Sx).r
    let m2 := match (m1.cell Sx).r with
      | some sr => m1.setP sr (some X)
      | none => m1
    let m3 := m2.setP Sx (m2.cell X).p
    let m4 := match (m3.cell X).p with
      | none => { m3 with root := some Sx }
      | some xp =>
        if some X = (m3.cell xp).r then m3.setR xp (some Sx) else m3.setL xp (some Sx)
    let m5 := m4.setR Sx (some X)
    some (m5.setP X (some Sx))

/-- The tail of the "uncle is black" branch when the parent is a left child:
swap the colours of `New -> p` and `New -> p -> p`, then `RightRotate(New -> p -> p)`.
The colour assignments leave every link as it is, so the links are read once. -/
def swapRotateRight (m : Mem) (New : Nat) : Option Mem :=
  match (m.cell New).p with
  | none => none
  | some P =>
    match (m.cell P).p with
    | none => none
    | some G =>
      let app := (m.cell P).color
      let m1 := m.setColor P (m.cell G).color
      RightRotate (m1.setColor G app) G

/-- The mirror image of `swapRotateRight`, ending in `LeftRotate(New -> p -> p)`. -/
def swapRotateLeft (m : Mem) (New : Nat) : Option Mem :=
  match (m.cell New).p with
  | none => none
  | some P =>
    match (m.cell P).p with
    | none => none
    | some G =>
      let app := (m.cell P).color
      let m1 := m.setColor P (m.cell G).color
      LeftRotate (m1.setColor G app) G

/-- The `while` loop of `RBinsert_and_repair`.  `root` is the function's parameter, a copy
of the global pointer taken at the call; the rotations assign the global `m.root`. -/
def repairLoop : Nat → Mem → Option Nat → Nat → Option Mem
  | 0, _, _, _ => none
  | fuel + 1, m, root, New =>
    if some New ≠ root ∧ (m.cell New).color ≠ Colour.BLACK then
      match (m.cell New).p with
      | none => none
      | some P =>
        if (m.cell P).color = Colour.RED then
          match (m.cell P).p with
          | none => none
          | some G =>
            if some P = (m.cell G).l then
              match (m.cell G).r with
              | some Y =>
                if (m.cell Y).color = Colour.RED then
                  repairLoop fuel (((m.setColor P Colour.BLACK).setColor G Colour.RED).setColor Y
                    Colour.BLACK) root G
                else if some New = (m.cell P).r then
                  (LeftRotate m P).bind fun m1 =>
                    (swapRotateRight m1 P).bind fun m2 => repairLoop fuel m2 root P
                else (swapRotateRight m New).bind fun m2 => repairLoop fuel m2 root New
              | none =>
                if some New = (m.cell P).r then
                  (LeftRotate m P).bind fun m1 =>
                    (swapRotateRight m1 P).bind fun m2 => repairLoop fuel m2 root P
                else (swapRotateRight m New).bind fun m2 => repairLoop fuel m2 root New
            else
              match (m.cell G).l with
              | some Y =>
                if (m.cell Y).color = Colour.RED then
                  repairLoop fuel (((m.setColor P Colour.BLACK).setColor G Colour.RED).setColor Y
                    Colour.BLACK) root G
                else if some New = (m.cell P).l then
                  (RightRotate m P).bind fun m1 =>
                    (swapRotateLeft m1 P).bind fun m2 => repairLoop fuel m2 root P
                else (swapRotateLeft m New).bind fun m2 => repairLoop fuel m2 root New
              | none =>
                if some New = (m.cell P).l then
                  (RightRotate m P).bind fun m1 =>
                    (swapRotateLeft m1 P).bind fun m2 => repairLoop fuel m2 root P
                else (swapRotateLeft m New).bind fun m2 => repairLoop fuel m2 root New
        else some m
    else some m

/-- The function `RBinsert_and_repair(root, New)`: the loop, then `root -> color = BLACK`
on the parameter `root`. -/
def RBinsert_and_repair (fuel : Nat) (m : Mem) (root : Option Nat) (New : Nat) : Option Mem :=
  match repairLoop fuel m root New with
  | none => none
  | some m1 =>
    match root with
    | none => none
    | some r => some (m1.setColor r Colour.BLACK)

/-- The insertion block of `main`: allocate `added`, fill its fields, then
`root = insert(root, added); RBinsert_and_repair(root, added)`.
The loops get one step more than the number of allocated nodes. -/
def addNode (m : Mem) (sum count : Int) : Option Mem :=
  let added := m.next
  let m1 : Mem := { (m.set added ⟨none, none, none, sum, Colour.RED, count⟩) with next := m.next + 1 }
  match insert (m1.next + 1) m1 m1.root added with
  | none => none
  | some (m2, T) =>
    let m3 : Mem := { m2 with root := T }
    RBinsert_and_repair (m3.next + 1) m3 m3.root added

/-- Insert a list of `(Key, index)` pairs one after the other. -/
def addAll : Mem → List (Int × Int) → Option Mem
  | m, [] => some m
  | m, (k, i) :: rest => (addNode m k i).bind fun m1 => addAll m1 rest

/-- The stream of `(cost, sequenceId)` pairs of a list of query costs: the `j`-th cost with
identifier `j`. -/
def stream (cs : List Int) : List (Int × Int) :=
  cs.zip ((List.range cs.length).map Int.ofNat)

/-- Insert the costs `cs`, the `j`-th one carrying index `j`, starting from the empty store. -/
def build (cs : List Int) : Option Mem :=
  addAll Mem.empty (stream cs)

/-! ## Rank query -/

/-- The function `min_val(T)`: follow left links from `T` as long as there is one. -/
def min_val (m : Mem) : Nat → Option Nat → Option Nat
  | 0, _ => none
  | _ + 1, none => none
  | fuel + 1, some Curr =>
    match (m.cell Curr).l with
    | none => some Curr
    | some c => min_val m fuel (some c)

/-- The climbing loop of `successor`:
`while (y != NULL && y -> r == minimo) { minimo = y; y = y -> p; }`; returns the final `y`. -/
def climb (m : Mem) : Nat → Nat → Option Nat → Option (Option Nat)
  | 0, _, _ => none
  | _ + 1, _, none => some none
  | fuel + 1, minimo, some y =>
    if (m.cell y).r = some minimo then climb m fuel y (m.cell y).p else some (some y)

/-- The function `successor(minimo, Contatore)` with the global `K`: the key of the node reached
from `minimo` by `K - Contatore` in-order successor steps.  `h` bounds the inner loops,
the first numeric argument bounds the recursion. -/
def successor (K : Int) (m : Mem) (h : Nat) : Nat → Option Nat → Int → Option Int
  | 0, _, _ => none
  | _ + 1, none, _ => none
  | fuel + 1, some minimo, Contatore =>
    if Contatore = K then some (m.cell minimo).Key
    else
      match (m.cell minimo).r with
      | some c =>
        match min_val m h (some c) with
        | none => none
        | some y => successor K m h fuel (some y) (Contatore + 1)
      | none =>
        match climb m h minimo (m.cell minimo).p with
        | none => none
        | some y => successor K m h fuel y (Contatore + 1)

/-- The two lines `min = min_val(root); val_max = successor(min, contatore)` of `main`,
with `contatore = 1`. -/
def rankQuery (K : Int) (m : Mem) : Option Int :=
  match min_val m (m.next + 1) m.root with
  | none => none
  | some mn => successor K m (m.next + 1) (m.next + 1) (some mn) 1

/-! ## Printing -/

/-- The digit loop `while (Somma > 0) { array[i] = Somma % 10; i++; Somma = Somma / 10; }`.
`cap` is the number of free slots left in `array[10]`; the digits written so far are kept
most significant first, the order in which the second loop prints them. -/
def digitsLoop : Nat → Int → List Int → Option (List Int)
  | cap, Somma, acc =>
    if Somma > 0 then
      match cap with
      | 0 => none
      | cap + 1 => digitsLoop cap (Somma / 10) (Somma % 10 :: acc)
    else some acc

/-- The characters `putchar_unlocked(array[i] + '0')` writes for the digits of a nonzero
`Somma`. -/
def printDigits (Somma : Int) : Option (List Char) :=
  (digitsLoop 10 Somma []).map fun ds => ds.map fun d => Char.ofNat (d.toNat + 48)

/-- The body of `output_print` between the two recursive calls, on the node record `T`:
state is the global `ContrStmp` and the characters written so far. -/
def printNode (K : Int) (T : node) (st : Int × List Char) : Option (Int × List Char) :=
  if st.1 = 0 then
    if T.index = 0 then some (st.1 + 1, st.2 ++ [Char.ofNat 48])
    else (printDigits T.index).map fun ds => (st.1 + 1, st.2 ++ ds)
  else if st.1 < K then
    if T.index = 0 then some (st.1, st.2 ++ [Char.ofNat 32, Char.ofNat 48])
    else (printDigits T.index).map fun ds => (st.1 + 1, st.2 ++ Char.ofNat 32 :: ds)
  else some st

/-- The function `output_print(T)` with the globals `K` and `ContrStmp`. -/
def output_print (K : Int) (m : Mem) : Nat → Option Nat → Int × List Char →
    Option (Int × List Char)
  | 0, _, _ => none
  | _ + 1, none, st => some st
  | fuel + 1, some T, st =>
    match output_print K m fuel (m.cell T).l st with
    | none => none
    | some st1 =>
      match printNode K (m.cell T) st1 with
      | none => none
      | some st2 => output_print K m fuel (m.cell T).r st2

/-- The print command of `main`: `ContrStmp = 0; output_print(root);` (the final newline is
left out).  Returns the characters written. -/
def printCommand (K : Int) (m : Mem) : Option (List Char) :=
  (output_print K m (m.next + 1) m.root (0, [])).map fun st => st.2

/-- The print command of `main` as a step on the tree store and the global `ContrStmp`:
`ContrStmp = 0; output_print(root); printf("\n");`.  The value `ContrStmp` had before is
overwritten; `output_print` assigns no field of any node, so the store comes back as given.
Returns the characters written and the state after the command. -/
def printStep (K : Int) (s : Mem × Int) : Option (List Char × (Mem × Int)) :=
  (output_print K s.1 (s.1.next + 1) s.1.root (0, [])).map fun st =>
    (st.2 ++ [Char.ofNat 10], (s.1, st.1))

/-! ## Retention policy of `main` -/

/-- The locals `val_max` and `count` of `main` together with the tree store. -/
structure State where
  mem : Mem
  val_max : Int
  count : Int

/-- The state of `main` before the first command. -/
def State.init : State := ⟨Mem.empty, 1200000, 0⟩

/-- What `main` does with the cost `sum` of one query, after `Djikstra` has returned it. -/
def query (K : Int) (st : State) (sum : Int) : Option State :=
  if K < 20000 then
    match (if st.count < K then addNode st.mem sum st.count else some st.mem) with
    | none => none
    | some m1 =>
      match (if st.count ≥ K ∧ sum < st.val_max then
          (addNode m1 sum st.count).bind fun m2 => (rankQuery K m2).map fun v => (m2, v)
        else some (m1, st.val_max)) with
      | none => none
      | some (m2, v) =>
        if st.count + 1 = K then (rankQuery K m2).map fun v1 => ⟨m2, v1, st.count + 1⟩
        else some ⟨m2, v, st.count + 1⟩
  else
    (addNode st.mem sum st.count).map fun m1 => ⟨m1, st.val_max, st.count + 1⟩

/-- Process a stream of query costs in order. -/
def queries (K : Int) : State → List Int → Option State
  | st, [] => some st
  | st, c :: cs => (query K st c).bind fun st1 => queries K st1 cs

/-! ## Binary min-heap -/

/-- The record `Node` of the source: a heap entry. -/
structure Node where
  dist : Int
  index : Int
deriving DecidableEq, Repr

/-- The heap array `A` (slot `0` is never used) together with the global `HeapSize`. -/
structure Heap where
  A : Nat → Node
  HeapSize : Nat

/-- The entries of the heap slots `1 .. n`, in slot order. -/
def slots (A : Nat → Node) (n : Nat) : List Node := (List.range' 1 n).map A

/-- Exchange the slots `i` and `j` of an array. -/
def swapSlots (A : Nat → Node) (i j : Nat) : Nat → Node :=
  fun k => if k = i then A j else if k = j then A i else A k

/-- The loop of `Min_Heapify2(A, key)`:
`while ((key > 1) && (A[key/2].dist > A[key].dist)) { swap; key = key/2; }`. -/
def Min_Heapify2 (A : Nat → Node) : Nat → Nat → Option (Nat → Node)
  | 0, _ => none
  | fuel + 1, key =>
    if key > 1 ∧ (A (key / 2)).dist > (A key).dist then
      Min_Heapify2 (swapSlots A (key / 2) key) fuel (key / 2)
    else some A

/-- The function `InsertMAX(A, a)` on an array of `N` slots: the write past the last slot
is a failure.  Its loop is the loop of `Min_Heapify2`, word for word. -/
def InsertMAX (N : Nat) (h : Heap) (a : Node) : Option Heap :=
  let hs := h.HeapSize + 1
  if hs < N then
    (Min_Heapify2 (fun k => if k = hs then a else h.A k) (hs + 1) hs).map fun A1 => ⟨A1, hs⟩
  else none

/-- The function `Min_Heapify(A, key)` with the global `HeapSize`. -/
def Min_Heapify (HeapSize : Nat) : Nat → (Nat → Node) → Nat → Option (Nat → Node)
  | 0, _, _ => none
  | fuel + 1, A, key =>
    let l := 2 * key
    let r := 2 * key + 1
    let posmin := if l ≤ HeapSize ∧ (A l).dist < (A key).dist then l else key
    let posmin1 := if r ≤ HeapSize ∧ (A r).dist < (A posmin).dist then r else posmin
    if posmin1 ≠ key then Min_Heapify HeapSize fuel (swapSlots A posmin1 key) posmin1
    else some A

/-- The function `Cancella_Min(A)`: the extracted entry (or the sentinel `(-1, -1)`) and the
heap left behind. -/
def Cancella_Min (h : Heap) : Option (Node × Heap) :=
  if h.HeapSize < 1 then some (⟨-1, -1⟩, h)
  else
    let max : Node := ⟨(h.A 1).dist, (h.A 1).index⟩
    let A1 : Nat → Node := fun k => if k = 1 then h.A h.HeapSize else h.A k
    (Min_Heapify (h.HeapSize - 1) (h.HeapSize + 1) A1 1).map fun A2 =>
      (max, ⟨A2, h.HeapSize - 1⟩)

/-- The scan of `ModificaHeap`: returns the array and the value of `i` when the loop ends. -/
def scanLoop (HeapSize : Nat) (distance Index : Int) :
    Nat → (Nat → Node) → Nat → Bool → Option ((Nat → Node) × Nat)
  | 0, _, _, _ => none
  | fuel + 1, A, i, Flag =>
    if i ≤ HeapSize ∧ Flag ≠ true then
      if (A i).index = Index then
        scanLoop HeapSize distance Index fuel
          (fun k => if k = i then ⟨distance, (A i).index⟩ else A k) (i + 1) true
      else scanLoop HeapSize distance Index fuel A (i + 1) Flag
    else some (A, i)

/-- The function `ModificaHeap(A, distance, Index)`. -/
def ModificaHeap (h : Heap) (distance Index : Int) : Option Heap :=
  match scanLoop h.HeapSize distance Index (h.HeapSize + 2) h.A 1 false with
  | none => none
  | some (A1, i) => (Min_Heapify2 A1 (i + 1) (i - 1)).map fun A2 => ⟨A2, h.HeapSize⟩

/-! ## Shortest-path sum -/

/-- The arrays `Visited`, `Distances` and the heap, as `Djikstra` updates them. -/
structure DState where
  Visited : Nat → Bool
  Distances : Nat → Int
  heap : Heap

/-- The value of an `int` addition of the source: the exact result reduced to 32 bits in two's
complement, which is what the compiled program computes when the addition overflows. -/
def int32 (x : Int) : Int := (x + 2147483648) % 4294967296 - 2147483648

/-- The body of the `for` loop of `Djikstra` for the node `i`, with `u` the extracted entry.
The sum `u.dist + Table[u.index][i]` is an `int` addition. -/
def relaxStep (N : Nat) (Table : Nat → Nat → Int) (u : Node) (s : DState) (i : Nat) :
    Option DState :=
  let w := Table u.index.toNat i
  if s.Visited i ≠ true ∧ s.Distances i ≠ 0 ∧ w ≠ 0 ∧ s.Distances i > int32 (u.dist + w) then
    (ModificaHeap s.heap (int32 (u.dist + w)) i).map fun h1 =>
      ⟨s.Visited, fun k => if k = i then int32 (u.dist + w) else s.Distances k, h1⟩
  else if s.Distances i = 0 ∧ w ≠ 0 ∧ s.Visited i ≠ true then
    (InsertMAX N s.heap ⟨int32 (u.dist + w), i⟩).map fun h1 =>
      ⟨s.Visited, fun k => if k = i then int32 (u.dist + w) else s.Distances k, h1⟩
  else some s

/-- The loop `for (int i = 1; i < Nnodes; i++)` of `Djikstra`. -/
def relaxAll (N : Nat) (Table : Nat → Nat → Int) (u : Node) (s : DState) : Option DState :=
  (List.range' 1 (N - 1)).foldlM (relaxStep N Table u) s

/-- The `while (u.dist != -1)` loop of `Djikstra`, entered with the entry `u` just extracted.
The running `sum` is an `int`. -/
def djikstraLoop (N : Nat) (Table : Nat → Nat → Int) :
    Nat → DState → Node → Int → Option Int
  | 0, _, _, _ => none
  | fuel + 1, s, u, sum =>
    if u.dist ≠ -1 then
      let s1 : DState :=
        ⟨fun k => if k = u.index.toNat then true else s.Visited k, s.Distances, s.heap⟩
      match relaxAll N Table u s1 with
      | none => none
      | some s2 =>
        match Cancella_Min s2.heap with
        | none => none
        | some (u1, h1) =>
          djikstraLoop N Table fuel ⟨s2.Visited, s2.Distances, h1⟩ u1 (int32 (sum + u.dist))
    else some sum

/-- The function `Djikstra(Visited, Table, Distances, A)` with the global `Nnodes = N`. -/
def Djikstra (N : Nat) (Table : Nat → Nat → Int) (s : DState) : Option Int :=
  match Cancella_Min s.heap with
  | none => none
  | some (u, h1) => djikstraLoop N Table (N + 1) ⟨s.Visited, s.Distances, h1⟩ u 0

/-- The seeding loop of `init_heaps` on a parsed line `baseline` of `N` numbers:
`Distances[y] = Result; if (Distances[y] != 0) InsertMAX(A, (Distances[y], y))` for `y` from 1. -/
def seedStep (N : Nat) (baseline : Nat → Int) (s : DState) (y : Nat) : Option DState :=
  let D : Nat → Int := fun k => if k = y then baseline y else s.Distances k
  if D y ≠ 0 then
    (InsertMAX N s.heap ⟨D y, y⟩).map fun h1 => ⟨s.Visited, D, h1⟩
  else some ⟨s.Visited, D, s.heap⟩

/-- The function `init_heaps(Distances, A)` on a parsed line: `Distances[0]` first, then the
seeding loop. -/
def init_heaps (N : Nat) (baseline : Nat → Int) (s : DState) : Option DState :=
  (List.range' 1 (N - 1)).foldlM (seedStep N baseline)
    ⟨s.Visited, fun k => if k = 0 then baseline 0 else s.Distances k, s.heap⟩

/-- One query of `main` up to the call of `Djikstra`: `HeapSize = 0`, `Visited[i] = FALSE`
for `i` in `1 .. N-1` (`Visited[0]` is `TRUE` since program start), `init_heaps`, then
`Djikstra` on the parsed table.  The arrays `s` are whatever the previous query left. -/
def shortestPathSum (N : Nat) (baseline : Nat → Int) (Table : Nat → Nat → Int) (s : DState) :
    Option Int :=
  let s0 : DState :=
    ⟨fun k => if 1 ≤ k ∧ k < N then false else if k = 0 then true else s.Visited k,
      s.Distances, ⟨s.heap.A, 0⟩⟩
  match init_heaps N baseline s0 with
  | none => none
  | some s1 => Djikstra N Table s1

/-! ## The query with checked heap slots and monitored heap calls

A second embedding of the heap functions and of the query, for the safety properties.  The
code is the one above; in addition every read or write of a heap slot outside `1 .. N-1`
yields `none`, and a monitor makes a heap call that breaks the calling discipline yield
`none`: an `InsertMAX` of a node id that was inserted or extracted before in this query, a
`ModificaHeap` for an id that is not in the heap with a strictly larger distance. -/

/-- The shape of a binary tree whose nodes are store addresses. -/
inductive Sh where
  | nil : Sh
  | node (l : Sh) (a : Nat) (r : Sh) : Sh

/-- The pointer to the top node of a shape. -/
def Sh.ptr : Sh → Option Nat
  | .nil => none
  | .node _ a _ => some a

/-- The addresses of a shape in in-order. -/
def Sh.addrs : Sh → List Nat
  | .nil => []
  | .node l a r => l.addrs ++ a :: r.addrs

/-- The number of nodes on the longest downward path. -/
def Sh.height : Sh → Nat
  | .nil => 0
  | .node l _ r => max l.height r.height + 1

/-- The store `m` holds the shape `s` below the parent pointer `par`: every link of every
node of `s` is the one the shape prescribes. -/
def Repr (m : Mem) : Option Nat → Sh → Prop
  | _, .nil => True
  | par, .node l a r =>
    (m.cell a).p = par ∧ (m.cell a).l = l.ptr ∧ (m.cell a).r = r.ptr ∧
      Repr m (some a) l ∧ Repr m (some a) r

/-- One step of a path from a node up to the root: the node `a` above the hole and the
subtree on the other side. -/
inductive Frame where
  | L (a : Nat) (sib : Sh) : Frame
  | R (sib : Sh) (a : Nat) : Frame

/-- The address of the node of a frame. -/
def Frame.addr : Frame → Nat
  | .L a _ => a
  | .R _ a => a

/-- Put a shape in the hole of a frame. -/
def Frame.fill : Frame → Sh → Sh
  | .L a sib, s => .node s a sib
  | .R sib a, s => .node sib a s

/-- Put a shape in the hole of a path, innermost frame first. -/
def plug : List Frame → Sh → Sh
  | [], s => s
  | f :: rest, s => plug rest (f.fill s)

/-- The parent pointer of the hole of a path. -/
def ctxPar : List Frame → Option Nat
  | [] => none
  | f :: _ => some f.addr

/-- The pointer to the top of a plugged path, given the pointer to what is in the hole. -/
def ctxTop : List Frame → Option Nat → Option Nat
  | [], h => h
  | f :: rest, _ => ctxTop rest (some f.addr)

/-- The addresses of a path that come before the hole in in-order. -/
def ctxLeft : List Frame → List Nat
  | [] => []
  | .L _ _ :: rest => ctxLeft rest
  | .R sib a :: rest => ctxLeft rest ++ (sib.addrs ++ [a])

/-- The addresses of a path that come after the hole in in-order. -/
def ctxRight : List Frame → List Nat
  | [] => []
  | .L a sib :: rest => (a :: sib.addrs) ++ ctxRight rest
  | .R _ _ :: rest => ctxRight rest

/-- The store holds the path `ctx` around a hole whose content has pointer `h`. -/
def ReprCtx (m : Mem) : List Frame → Option Nat → Prop
  | [], _ => True
  | .L a sib :: rest, h =>
    (m.cell a).p = ctxPar rest ∧ (m.cell a).l = h ∧ (m.cell a).r = sib.ptr ∧
      Repr m (some a) sib ∧ ReprCtx m rest (some a)
  | .R sib a :: rest, h =>
    (m.cell a).p = ctxPar rest ∧ (m.cell a).l = sib.ptr ∧ (m.cell a).r = h ∧
      Repr m (some a) sib ∧ ReprCtx m rest (some a)

/-- Two stores have the same links at address `a`. -/
def LinksEq (m m1 : Mem) (a : Nat) : Prop :=
  (m1.cell a).p = (m.cell a).p ∧ (m1.cell a).l = (m.cell a).l ∧ (m1.cell a).r = (m.cell a).r

/-- Two stores have the same key, colour and index at every address. -/
def DataEq (m m1 : Mem) : Prop :=
  ∀ z, (m1.cell z).Key = (m.cell z).Key ∧ (m1.cell z).color = (m.cell z).color ∧
    (m1.cell z).index = (m.cell z).index

/-- The store holds the shape `t` as the tree below the global `root`, every address once. -/
structure WF (m : Mem) (t : Sh) : Prop where
  repr : Repr m none t
  root : m.root = t.ptr
  nodup : t.addrs.Nodup

/-- Two stores have the same key and index at every address. -/
def KeysEq (m m1 : Mem) : Prop :=
  ∀ z, (m1.cell z).Key = (m.cell z).Key ∧ (m1.cell z).index = (m.cell z).index

/-- The top node of a shape is black; a missing node counts as black. -/
def isBlack (m : Mem) : Sh → Prop
  | .nil => True
  | .node _ a _ => (m.cell a).color = Colour.BLACK

/-- No red node of the shape has a red child. -/
def RR (m : Mem) : Sh → Prop
  | .nil => True
  | .node l a r =>
    ((m.cell a).color = Colour.RED → isBlack m l ∧ isBlack m r) ∧ RR m l ∧ RR m r

/-- The subtree hanging off a frame. -/
def Frame.sib : Frame → Sh
  | .L _ s => s
  | .R s _ => s

/-- The innermost node of a path is black; an empty path counts as black. -/
def topBlack (m : Mem) : List Frame → Prop
  | [] => True
  | f :: _ => (m.cell f.addr).color = Colour.BLACK

/-- No red node of the path has a red child, the child in the hole left aside. -/
def CtxRR (m : Mem) : List Frame → Prop
  | [] => True
  | f :: rest =>
    RR m f.sib ∧ ((m.cell f.addr).color = Colour.RED → isBlack m f.sib ∧ topBlack m rest) ∧
      CtxRR m rest

/-- What the repair loop guarantees about the store `m1` it returns, for a start store `m`
holding `t` and the stale root pointer `rootp`. -/
def Post (m : Mem) (t : Sh) (rootp : Option Nat) (m1 : Mem) : Prop :=
  ∃ t1, WF m1 t1 ∧ t1.addrs = t.addrs ∧ m1.next = m.next ∧ KeysEq m m1 ∧ RR m1 t1 ∧
    (m1.root = rootp ∨ isBlack m1 t1)

/-- The in-order keys of a shape are non-decreasing. -/
def Ordered (m : Mem) (s : Sh) : Prop :=
  s.addrs.Pairwise fun x y => (m.cell x).Key ≤ (m.cell y).Key

/-- The comparison that sent the descent into the hole of a frame. -/
def dirOK (m : Mem) (k : Int) : Frame → Prop
  | .L a _ => k < (m.cell a).Key
  | .R _ a => ¬ k < (m.cell a).Key

/-- The invariant of the ranking tree: the store holds a shape below `root`, every node
allocated, no red node with a red child, the root black, the keys in order. -/
structure Inv (m : Mem) (t : Sh) : Prop where
  wf : WF m t
  bound : ∀ a ∈ t.addrs, a < m.next
  rr : RR m t
  black : isBlack m t
  ord : Ordered m t

/-- The addresses of the tree below `T` in in-order, following the `l` and `r` links. -/
def inorder (m : Mem) : Nat → Option Nat → Option (List Nat)
  | 0, _ => none
  | _ + 1, none => some []
  | fuel + 1, some T =>
    match inorder m fuel (m.cell T).l, inorder m fuel (m.cell T).r with
    | some xs, some ys => some (xs ++ T :: ys)
    | _, _ => none

/-- The `(Key, index)` pairs stored at a list of addresses. -/
def pairsOf (m : Mem) (l : List Nat) : List (Int × Int) :=
  l.map fun a => ((m.cell a).Key, (m.cell a).index)

/-- The `(Key, index)` pairs of the tree in in-order. -/
def treePairs (m : Mem) : Option (List (Int × Int)) :=
  (inorder m (m.next + 1) m.root).map (pairsOf m)

/-- The number of black nodes on every path from `T` down to a missing child, one number per
path, leftmost path first. -/
def blackCounts (m : Mem) : Nat → Option Nat → Option (List Nat)
  | 0, _ => none
  | _ + 1, none => some [0]
  | fuel + 1, some T =>
    match blackCounts m fuel (m.cell T).l, blackCounts m fuel (m.cell T).r with
    | some xs, some ys =>
      some ((xs ++ ys).map fun n => if (m.cell T).color = Colour.BLACK then n + 1 else n)
    | _, _ => none

/-- The number of nodes on the longest path from `T` down to a leaf. -/
def treeHeight (m : Mem) : Nat → Option Nat → Option Nat
  | 0, _ => none
  | _ + 1, none => some 0
  | fuel + 1, some T =>
    match treeHeight m fuel (m.cell T).l, treeHeight m fuel (m.cell T).r with
    | some a, some b => some (max a b + 1)
    | _, _ => none

/-- The black counts of the tree a list of costs builds. -/
def builtBlackCounts (cs : List Int) : Option (List Nat) :=
  (build cs).bind fun m => blackCounts m (m.next + 1) m.root

/-- The height of the tree a list of costs builds. -/
def builtHeight (cs : List Int) : Option Nat :=
  (build cs).bind fun m => treeHeight m (m.next + 1) m.root

/-- The characters one print command writes after the stream `cs` of query costs. -/
def printedAfter (K : Int) (cs : List Int) : Option (List Char) :=
  (queries K State.init cs).bind fun st => printCommand K st.mem

/-- The decimal digits the source writes for one identifier: `0` for zero, the digit loops
otherwise. -/
def showIndex (i : Int) : Option (List Char) :=
  if i = 0 then some [Char.ofNat 48] else printDigits i

/-- The characters of a list of identifiers, a blank before each one. -/
def renderTail : List Int → Option (List Char)
  | [] => some []
  | i :: rest =>
    match showIndex i, renderTail rest with
    | some a, some b => some (Char.ofNat 32 :: a ++ b)
    | _, _ => none

/-- The characters of a list of identifiers separated by single blanks. -/
def render : List Int → Option (List Char)
  | [] => some []
  | i :: rest =>
    match showIndex i, renderTail rest with
    | some a, some b => some (a ++ b)
    | _, _ => none

/-- Run the body of `output_print` over a list of addresses, in order. -/
def printFold (K : Int) (m : Mem) : List Nat → Int × List Char → Option (Int × List Char)
  | [], st => some st
  | a :: rest, st =>
    match printNode K (m.cell a) st with
    | none => none
    | some st1 => printFold K m rest st1

/-- Cost ascending, ties broken by ascending identifier. -/
def lexLE (p q : Int × Int) : Prop :=
  p.1 < q.1 ∨ (p.1 = q.1 ∧ p.2 ≤ q.2)

instance lexLE_decidable : DecidableRel lexLE :=
  fun p q => inferInstanceAs (Decidable (p.1 < q.1 ∨ (p.1 = q.1 ∧ p.2 ≤ q.2)))

instance lexLE_total : IsTotal (Int × Int) lexLE :=
  ⟨fun p q => by unfold lexLE; omega⟩

instance lexLE_trans : IsTrans (Int × Int) lexLE :=
  ⟨fun p q r => by unfold lexLE; omega⟩

instance lexLE_antisymm : IsAntisymm (Int × Int) lexLE :=
  ⟨fun p q h1 h2 => by
    unfold lexLE at h1 h2
    exact Prod.ext (by omega) (by omega)⟩

/-- The invariant of the main loop after the stream `cs`: the tree invariant, the counter, the
in-order pairs sorted, the first `K` of them the first `K` of the whole sorted stream, and the
threshold equal to the `K`-th smallest stored cost once it is in use. -/
def MInv (K : Nat) (cs : List Int) (st : State) : Prop :=
  ∃ t, Inv st.mem t ∧ st.count = (cs.length : Int) ∧
    (pairsOf st.mem t.addrs).Sorted lexLE ∧
    (∀ p ∈ pairsOf st.mem t.addrs, p.2 < (cs.length : Int)) ∧
    (pairsOf st.mem t.addrs).take K = ((stream cs).insertionSort lexLE).take K ∧
    min K cs.length ≤ t.addrs.length ∧
    ((K : Int) < 20000 → K ≤ cs.length →
      ((pairsOf st.mem t.addrs)[K - 1]?).map Prod.fst = some st.val_max)

/-- Every slot from `2` to `n` holds a distance at least the one of its parent slot. -/
def HeapOrd (A : Nat → Node) (n : Nat) : Prop :=
  ∀ k, 2 ≤ k → k ≤ n → (A (k / 2)).dist ≤ (A k).dist

/-- A path from the implicit source, listed from its last node back to its first node: the
first node is reached by a present baseline edge, every further node by a present edge of
`Table` from the node before it, and every node lies in `1 .. N-1`. -/
def validPath (N : Nat) (baseline : Nat → Int) (Table : Nat → Nat → Int) : List Nat → Prop
  | [] => False
  | [v] => 1 ≤ v ∧ v < N ∧ baseline v ≠ 0
  | v :: w :: rest => 1 ≤ v ∧ v < N ∧ Table w v ≠ 0 ∧ validPath N baseline Table (w :: rest)

/-- The weight of a path listed from its last node back to its first node. -/
def pathWeight (baseline : Nat → Int) (Table : Nat → Nat → Int) : List Nat → Int
  | [] => 0
  | [v] => baseline v
  | v :: w :: rest => Table w v + pathWeight baseline Table (w :: rest)

/-- The value `δ` is the shortest-path distance of the node `i`: `none` when no path from the
source ends in `i`, and `some d` when a path of weight `d` ends in `i` and no path that ends
in `i` weighs less. -/
def IsDist (N : Nat) (baseline : Nat → Int) (Table : Nat → Nat → Int) (i : Nat) :
    Option Int → Prop
  | none => ∀ p, validPath N baseline Table p → p.head? ≠ some i
  | some d =>
    (∃ p, validPath N baseline Table p ∧ p.head? = some i ∧ pathWeight baseline Table p = d) ∧
      ∀ p, validPath N baseline Table p → p.head? = some i → d ≤ pathWeight baseline Table p

/-- The state of `Djikstra` while the edges that leave the visited node `x` towards the nodes
below `j` have been relaxed: the heap is ordered and holds exactly the unvisited nodes with a
non-zero tentative distance; a non-zero tentative distance is the weight of a path; the
distance of a visited node is minimal; the tentative distances respect every baseline edge and
every relaxed edge that leaves a visited node. -/
structure PInv (N : Nat) (baseline : Nat → Int) (Table : Nat → Nat → Int) (s : DState)
    (x j : Nat) : Prop where
  heapOrd : HeapOrd s.heap.A s.heap.HeapSize
  nodup : ((slots s.heap.A s.heap.HeapSize).map Node.index).Nodup
  inHeap : ∀ e ∈ slots s.heap.A s.heap.HeapSize, ∃ i, 1 ≤ i ∧ i < N ∧
    e = ⟨s.Distances i, (i : Int)⟩ ∧ s.Visited i = false ∧ s.Distances i ≠ 0
  heapAll : ∀ i, 1 ≤ i → i < N → s.Visited i = false → s.Distances i ≠ 0 →
    (⟨s.Distances i, (i : Int)⟩ : Node) ∈ slots s.heap.A s.heap.HeapSize
  nonneg : ∀ i, 1 ≤ i → i < N → 0 ≤ s.Distances i
  real : ∀ i, 1 ≤ i → i < N → s.Distances i ≠ 0 →
    ∃ p, validPath N baseline Table p ∧ p.head? = some i ∧
      pathWeight baseline Table p = s.Distances i
  opt : ∀ i, 1 ≤ i → i < N → s.Visited i = true → s.Distances i ≠ 0 ∧
    ∀ p, validPath N baseline Table p → p.head? = some i →
      s.Distances i ≤ pathWeight baseline Table p
  front0 : ∀ i, 1 ≤ i → i < N → s.Visited i = false → baseline i ≠ 0 →
    s.Distances i ≠ 0 ∧ s.Distances i ≤ baseline i
  front : ∀ u i, 1 ≤ u → u < N → 1 ≤ i → i < N → s.Visited u = true → s.Visited i = false →
    Table u i ≠ 0 → (u = x → i < j) →
    s.Distances i ≠ 0 ∧ s.Distances i ≤ s.Distances u + Table u i

/-- The state at the head of the `while` loop of `Djikstra`, with `u` the entry just
extracted: either `u` is the sentinel and the heap is empty, or `u` is the entry of an
unvisited node `y` and the state is consistent once `y` is marked visited. -/
def Head (N : Nat) (baseline : Nat → Int) (Table : Nat → Nat → Int) (s : DState)
    (u : Node) : Prop :=
  (u.dist = -1 ∧ s.heap.HeapSize = 0 ∧ ∃ x, PInv N baseline Table s x N) ∨
  ∃ y, 1 ≤ y ∧ y < N ∧ u = ⟨s.Distances y, (y : Int)⟩ ∧ s.Visited y = false ∧
    PInv N baseline Table
      ⟨fun k => if k = y then true else s.Visited k, s.Distances, s.heap⟩ y 1

/-- The number of unvisited nodes among `1 .. N-1`. -/
def unvisited (N : Nat) (s : DState) : Nat :=
  ((Finset.Ico 1 N).filter fun i => s.Visited i = false).card

/-- The sum of the distances of the visited nodes among `1 .. N-1`. -/
def visitedSum (N : Nat) (s : DState) : Int :=
  ∑ i in Finset.Ico 1 N, if s.Visited i = true then s.Distances i else 0

/-- The state of the seeding loop of `init_heaps` before the node `y`: the heap is ordered and
holds exactly the entries `(baseline i, i)` of the nodes `i` below `y` with a non-zero
baseline, the distances of the nodes below `y` are their baselines, and the nodes
`1 .. N-1` are unvisited. -/
structure SeedInv (N : Nat) (baseline : Nat → Int) (s : DState) (y : Nat) : Prop where
  heapOrd : HeapOrd s.heap.A s.heap.HeapSize
  nodup : ((slots s.heap.A s.heap.HeapSize).map Node.index).Nodup
  size : s.heap.HeapSize + 1 ≤ y
  inHeap : ∀ e ∈ slots s.heap.A s.heap.HeapSize, ∃ i, 1 ≤ i ∧ i < y ∧
    e = ⟨baseline i, (i : Int)⟩ ∧ baseline i ≠ 0
  heapAll : ∀ i, 1 ≤ i → i < y → baseline i ≠ 0 →
    (⟨baseline i, (i : Int)⟩ : Node) ∈ slots s.heap.A s.heap.HeapSize
  dist : ∀ i, 1 ≤ i → i < y → s.Distances i = baseline i
  unvis : ∀ i, 1 ≤ i → i < N → s.Visited i = false

/-- The key of the root and the key of its left child in the tree a list of costs builds. -/
def rootAndLeftKeys (cs : List Int) : Option (Int × Int) :=
  (build cs).bind fun m => m.root.bind fun r =>
    (m.cell r).l.map fun c => ((m.cell r).Key, (m.cell c).Key)

/-- The heaps that a sequence of `InsertMAX`, `Cancella_Min` and `ModificaHeap` calls reaches
from an empty heap on an array of `N` slots, when every inserted node id is new to the heap
and every `ModificaHeap` call gives a distance not larger than the one of its target. -/
inductive Reach (N : Nat) : Heap → Prop
  | start (A : Nat → Node) : Reach N ⟨A, 0⟩
  | ins {h h1 : Heap} (a : Node) : Reach N h →
      (∀ e ∈ slots h.A h.HeapSize, e.index ≠ a.index) → InsertMAX N h a = some h1 → Reach N h1
  | del {h h1 : Heap} (u : Node) : Reach N h → Cancella_Min h = some (u, h1) → Reach N h1
  | upd {h h1 : Heap} (d idx : Int) : Reach N h →
      (∀ e ∈ slots h.A h.HeapSize, e.index = idx → d ≤ e.dist) →
      ModificaHeap h d idx = some h1 → Reach N h1

/-- The heap that `InsertMAX` of `(7, 1)` and then of `(3, 2)` builds from the empty heap. -/
def twoEntryHeap : Heap :=
  ⟨swapSlots (fun k => if k = 2 then ⟨3, 2⟩ else if k = 1 then ⟨7, 1⟩ else ⟨0, 0⟩) 1 2, 2⟩

/-- The number of ids other than `0` in a list. -/
def nonzeros : List Int → Int
  | [] => 0
  | i :: rest => (if i = 0 then 0 else 1) + nonzeros rest

/-- The value of `ContrStmp` once one print command has written the ids `ids`: the first id
counts, and after it every id other than `0`. -/
def countAfter : List Int → Int
  | [] => 0
  | _ :: rest => 1 + nonzeros rest

/-! ## Theorems -/

theorem addrs_plug (ctx : List Frame) (s : Sh) :
    (plug ctx s).addrs = ctxLeft ctx ++ s.addrs ++ ctxRight ctx := by
  induction ctx generalizing s with
  | nil => simp [plug, ctxLeft, ctxRight]
  | cons f rest ih =>
    cases f <;> simp [plug, ctxLeft, ctxRight, ih, Frame.fill, Sh.addrs]

theorem ptr_plug (ctx : List Frame) (s : Sh) : (plug ctx s).ptr = ctxTop ctx s.ptr := by
  induction ctx generalizing s with
  | nil => rfl
  | cons f rest ih => cases f <;> (rw [plug, ih]; rfl)

theorem Repr_plug (m : Mem) (ctx : List Frame) (s : Sh) :
    Repr m none (plug ctx s) ↔ ReprCtx m ctx s.ptr ∧ Repr m (ctxPar ctx) s := by
  induction ctx generalizing s with
  | nil => simp [plug, ReprCtx, ctxPar]
  | cons f rest ih =>
    cases f <;> simp [plug, ReprCtx, ctxPar, ih, Frame.fill, Repr, Sh.ptr, Frame.addr] <;> tauto

theorem Repr_congr {m m1 : Mem} {s : Sh} (h : ∀ a ∈ s.addrs, LinksEq m m1 a) (par : Option Nat) :
    Repr m par s → Repr m1 par s := by
  induction s generalizing par with
  | nil => intro _; trivial
  | node l a r ihl ihr =>
    intro ⟨h1, h2, h3, h4, h5⟩
    have ha := h a (by simp [Sh.addrs])
    refine ⟨ha.1.trans h1, ha.2.1.trans h2, ha.2.2.trans h3, ?_, ?_⟩
    · exact ihl (fun z hz => h z (by simp [Sh.addrs, hz])) _ h4
    · exact ihr (fun z hz => h z (by simp [Sh.addrs, hz])) _ h5

theorem ReprCtx_congr {m m1 : Mem} {ctx : List Frame}
    (h : ∀ a ∈ ctxLeft ctx ++ ctxRight ctx, LinksEq m m1 a) (hole : Option Nat) :
    ReprCtx m ctx hole → ReprCtx m1 ctx hole := by
  induction ctx generalizing hole with
  | nil => intro _; trivial
  | cons f rest ih =>
    cases f with
    | L a sib =>
      intro ⟨h1, h2, h3, h4, h5⟩
      have ha := h a (by simp [ctxRight])
      refine ⟨ha.1.trans h1, ha.2.1.trans h2, ha.2.2.trans h3, ?_, ?_⟩
      · exact Repr_congr (fun z hz => h z (by simp [ctxRight, hz])) _ h4
      · exact ih (fun z hz => h z (by
          simp only [ctxLeft, ctxRight, List.mem_append, List.mem_cons] at hz ⊢; tauto)) _ h5
    | R sib a =>
      intro ⟨h1, h2, h3, h4, h5⟩
      have ha := h a (by simp [ctxLeft])
      refine ⟨ha.1.trans h1, ha.2.1.trans h2, ha.2.2.trans h3, ?_, ?_⟩
      · exact Repr_congr (fun z hz => h z (by simp [ctxLeft, hz])) _ h4
      · exact ih (fun z hz => h z (by
          simp only [ctxLeft, ctxRight, List.mem_append, List.mem_cons] at hz ⊢; tauto)) _ h5

@[simp] theorem setP_p (m : Mem) (a b : Nat) (q : Option Nat) :
    ((m.setP a q).cell b).p = if b = a then q else (m.cell b).p := by
  by_cases h : b = a <;> simp [Mem.setP, Mem.set, h]

@[simp] theorem setP_l (m : Mem) (a b : Nat) (q : Option Nat) :
    ((m.setP a q).cell b).l = (m.cell b).l := by
  by_cases h : b = a <;> simp [Mem.setP, Mem.set, h]

@[simp] theorem setP_r (m : Mem) (a b : Nat) (q : Option Nat) :
    ((m.setP a q).cell b).r = (m.cell b).r := by
  by_cases h : b = a <;> simp [Mem.setP, Mem.set, h]

@[simp] theorem setP_Key (m : Mem) (a b : Nat) (q : Option Nat) :
    ((m.setP a q).cell b).Key = (m.cell b).Key := by
  by_cases h : b = a <;> simp [Mem.setP, Mem.set, h]

@[simp] theorem setP_color (m : Mem) (a b : Nat) (q : Option Nat) :
    ((m.setP a q).cell b).color = (m.cell b).color := by
  by_cases h : b = a <;> simp [Mem.setP, Mem.set, h]

@[simp] theorem setP_index (m : Mem) (a b : Nat) (q : Option Nat) :
    ((m.setP a q).cell b).index = (m.cell b).index := by
  by_cases h : b = a <;> simp [Mem.setP, Mem.set, h]

@[simp] theorem setP_root (m : Mem) (a : Nat) (q : Option Nat) : (m.setP a q).root = m.root := rfl

@[simp] theorem setP_next (m : Mem) (a : Nat) (q : Option Nat) : (m.setP a q).next = m.next := rfl

@[simp] theorem setL_p (m : Mem) (a b : Nat) (q : Option Nat) :
    ((m.setL a q).cell b).p = (m.cell b).p := by
  by_cases h : b = a <;> simp [Mem.setL, Mem.set, h]

@[simp] theorem setL_l (m : Mem) (a b : Nat) (q : Option Nat) :
    ((m.setL a q).cell b).l = if b = a then q else (m.cell b).l := by
  by_cases h : b = a <;> simp [Mem.setL, Mem.set, h]

@[simp] theorem setL_r (m : Mem) (a b : Nat) (q : Option Nat) :
    ((m.setL a q).cell b).r = (m.cell b).r := by
  by_cases h : b = a <;> simp [Mem.setL, Mem.set, h]

@[simp] theorem setL_Key (m : Mem) (a b : Nat) (q : Option Nat) :
    ((m.setL a q).cell b).Key = (m.cell b).Key := by
  by_cases h : b = a <;> simp [Mem.setL, Mem.set, h]

@[simp] theorem setL_color (m : Mem) (a b : Nat) (q : Option Nat) :
    ((m.setL a q).cell b).color = (m.cell b).color := by
  by_cases h : b = a <;> simp [Mem.setL, Mem.set, h]

@[simp] theorem setL_index (m : Mem) (a b : Nat) (q : Option Nat) :
    ((m.setL a q).cell b).index = (m.cell b).index := by
  by_cases h : b = a <;> simp [Mem.setL, Mem.set, h]

@[simp] theorem setL_root (m : Mem) (a : Nat) (q : Option Nat) : (m.setL a q).root = m.root := rfl

@[simp] theorem setL_next (m : Mem) (a : Nat) (q : Option Nat) : (m.setL a q).next = m.next := rfl

@[simp] theorem setR_p (m : Mem) (a b : Nat) (q : Option Nat) :
    ((m.setR a q).cell b).p = (m.cell b).p := by
  by_cases h : b = a <;> simp [Mem.setR, Mem.set, h]

@[simp] theorem setR_l (m : Mem) (a b : Nat) (q : Option Nat) :
    ((m.setR a q).cell b).l = (m.cell b).l := by
  by_cases h : b = a <;> simp [Mem.setR, Mem.set, h]

@[simp] theorem setR_r (m : Mem) (a b : Nat) (q : Option Nat) :
    ((m.setR a q).cell b).r = if b = a then q else (m.cell b).r := by
  by_cases h : b = a <;> simp [Mem.setR, Mem.set, h]

@[simp] theorem setR_Key (m : Mem) (a b : Nat) (q : Option Nat) :
    ((m.setR a q).cell b).Key = (m.cell b).Key := by
  by_cases h : b = a <;> simp [Mem.setR, Mem.set, h]

@[simp] theorem setR_color (m : Mem) (a b : Nat) (q : Option Nat) :
    ((m.setR a q).cell b).color = (m.cell b).color := by
  by_cases h : b = a <;> simp [Mem.setR, Mem.set, h]

@[simp] theorem setR_index (m : Mem) (a b : Nat) (q : Option Nat) :
    ((m.setR a q).cell b).index = (m.cell b).index := by
  by_cases h : b = a <;> simp [Mem.setR, Mem.set, h]

@[simp] theorem setR_root (m : Mem) (a : Nat) (q : Option Nat) : (m.setR a q).root = m.root := rfl

@[simp] theorem setR_next (m : Mem) (a : Nat) (q : Option Nat) : (m.setR a q).next = m.next := rfl

@[simp] theorem setColor_p (m : Mem) (a b : Nat) (c : Colour) :
    ((m.setColor a c).cell b).p = (m.cell b).p := by
  by_cases h : b = a <;> simp [Mem.setColor, Mem.set, h]

@[simp] theorem setColor_l (m : Mem) (a b : Nat) (c : Colour) :
    ((m.setColor a c).cell b).l = (m.cell b).l := by
  by_cases h : b = a <;> simp [Mem.setColor, Mem.set, h]

@[simp] theorem setColor_r (m : Mem) (a b : Nat) (c : Colour) :
    ((m.setColor a c).cell b).r = (m.cell b).r := by
  by_cases h : b = a <;> simp [Mem.setColor, Mem.set, h]

@[simp] theorem setColor_Key (m : Mem) (a b : Nat) (c : Colour) :
    ((m.setColor a c).cell b).Key = (m.cell b).Key := by
  by_cases h : b = a <;> simp [Mem.setColor, Mem.set, h]

@[simp] theorem setColor_color (m : Mem) (a b : Nat) (c : Colour) :
    ((m.setColor a c).cell b).color = if b = a then c else (m.cell b).color := by
  by_cases h : b = a <;> simp [Mem.setColor, Mem.set, h]

@[simp] theorem setColor_index (m : Mem) (a b : Nat) (c : Colour) :
    ((m.setColor a c).cell b).index = (m.cell b).index := by
  by_cases h : b = a <;> simp [Mem.setColor, Mem.set, h]

@[simp] theorem setColor_root (m : Mem) (a : Nat) (c : Colour) : (m.setColor a c).root = m.root := rfl

@[simp] theorem setColor_next (m : Mem) (a : Nat) (c : Colour) : (m.setColor a c).next = m.next := rfl

theorem DataEq_refl (m : Mem) : DataEq m m := fun _ => ⟨rfl, rfl, rfl⟩

theorem DataEq_trans {m m1 m2 : Mem} (h1 : DataEq m m1) (h2 : DataEq m1 m2) : DataEq m m2 :=
  fun z => ⟨(h2 z).1.trans (h1 z).1, (h2 z).2.1.trans (h1 z).2.1, (h2 z).2.2.trans (h1 z).2.2⟩

theorem LeftRotate_data {m m1 : Mem} {X : Nat} (h : LeftRotate m X = some m1) :
    DataEq m m1 ∧ m1.next = m.next := by
  unfold LeftRotate at h
  split at h
  · cases h
  · simp only [Option.some.injEq] at h
    subst h
    refine ⟨fun z => ?_, ?_⟩
    · simp only [setP_Key, setL_Key, setP_color, setL_color, setP_index, setL_index]
      split <;> split <;> (try split) <;> simp
    · simp only [setP_next, setL_next]
      split <;> split <;> (try split) <;> simp

theorem RightRotate_data {m m1 : Mem} {X : Nat} (h : RightRotate m X = some m1) :
    DataEq m m1 ∧ m1.next = m.next := by
  unfold RightRotate at h
  split at h
  · cases h
  · simp only [Option.some.injEq] at h
    subst h
    refine ⟨fun z => ?_, ?_⟩
    · simp only [setP_Key, setR_Key, setP_color, setR_color, setP_index, setR_index]
      split <;> split <;> (try split) <;> simp
    · simp only [setP_next, setR_next]
      split <;> split <;> (try split) <;> simp

theorem LeftRotate_pt {m : Mem} {X Dx : Nat} (hXr : (m.cell X).r = some Dx) (hXD : X ≠ Dx)
    (hbX : (m.cell Dx).l ≠ some X) (hbD : (m.cell Dx).l ≠ some Dx)
    (hpX : (m.cell X).p ≠ some X) (hpD : (m.cell X).p ≠ some Dx)
    (hpb : ∀ z, (m.cell X).p = some z → (m.cell Dx).l ≠ some z) :
    ∃ m1, LeftRotate m X = some m1 ∧
      m1.root = (if (m.cell X).p = none then some Dx else m.root) ∧
      ∀ z, (m1.cell z).p = (if z = X then some Dx else if z = Dx then (m.cell X).p
              else if (m.cell Dx).l = some z then some X else (m.cell z).p) ∧
        (m1.cell z).l = (if z = Dx then some X
              else if (m.cell X).p = some z ∧ (m.cell z).l = some X then some Dx
              else (m.cell z).l) ∧
        (m1.cell z).r = (if z = X then (m.cell Dx).l
              else if (m.cell X).p = some z ∧ (m.cell z).l ≠ some X then some Dx
              else (m.cell z).r) := by
  unfold LeftRotate
  rw [hXr]
  have hDX : Dx ≠ X := Ne.symm hXD
  rcases hb : (m.cell Dx).l with _ | dl <;> rcases hp : (m.cell X).p with _ | q
  · refine ⟨_, rfl, by simp [hb, hp, hXD], fun z => ?_⟩
    simp only [setR_l, hb, setP_p, setR_p, hXD, if_false, hp, setL_l, setL_p, setP_l,
        setP_r, setL_r, setR_r, reduceCtorEq, false_and, and_false]
    by_cases hzX : z = X
    · subst hzX; simp [hXD, hb]
    · by_cases hzD : z = Dx
      · subst hzD; simp [hDX]
      · simp [hzX, hzD]
  · have hqX : q ≠ X := fun h => hpX (by rw [hp, h])
    have hqD : q ≠ Dx := fun h => hpD (by rw [hp, h])
    by_cases hq : (m.cell q).l = some X
    · refine ⟨_, rfl, by simp [hb, hp, hXD, hq], fun z => ?_⟩
      simp only [setR_l, hb, setP_p, setR_p, hXD, if_false, hp, setL_l, setL_p, setP_l,
        setP_r, setL_r, setR_r, reduceCtorEq, false_and, and_false, hq, if_true]
      by_cases hzX : z = X
      · subst hzX; simp [hXD, hb, hqX, Ne.symm hqX]
      · by_cases hzD : z = Dx
        · subst hzD; simp [hDX, hqD, Ne.symm hqD]
        · by_cases hzq : z = q
          · subst hzq; simp [hzX, hzD, hq]
          · simp [hzX, hzD, hzq, Ne.symm hzq]
    · have hq1 : ¬ some X = (m.cell q).l := fun h => hq h.symm
      refine ⟨_, rfl, by simp [hb, hp, hXD, hq, hq1], fun z => ?_⟩
      simp only [setR_l, hb, setP_p, setR_p, hXD, if_false, hp, setL_l, setL_p, setP_l,
        setP_r, setL_r, setR_r, reduceCtorEq, false_and, and_false, hq1]
      by_cases hzX : z = X
      · subst hzX; simp [hXD, hb, hqX, Ne.symm hqX]
      · by_cases hzD : z = Dx
        · subst hzD; simp [hDX, hqD, Ne.symm hqD]
        · by_cases hzq : z = q
          · subst hzq; simp [hzX, hzD, hq]
          · simp [hzX, hzD, hzq, Ne.symm hzq]
  · have hdX : dl ≠ X := fun h => hbX (by rw [hb, h])
    have hdD : dl ≠ Dx := fun h => hbD (by rw [hb, h])
    refine ⟨_, rfl, by simp [hb, hp, hXD, Ne.symm hdX], fun z => ?_⟩
    simp only [setR_l, hb, setP_p, setR_p, hXD, if_false, hp, setL_l, setL_p, setP_l,
        setP_r, setL_r, setR_r, reduceCtorEq, false_and, and_false, Ne.symm hdX]
    by_cases hzX : z = X
    · subst hzX; simp [hXD, hb]
    · by_cases hzD : z = Dx
      · subst hzD; simp [hDX]
      · by_cases hzd : z = dl
        · subst hzd; simp [hzX, hzD]
        · simp [hzX, hzD, hzd, Ne.symm hzd]
  · have hdX : dl ≠ X := fun h => hbX (by rw [hb, h])
    have hdD : dl ≠ Dx := fun h => hbD (by rw [hb, h])
    have hqX : q ≠ X := fun h => hpX (by rw [hp, h])
    have hqD : q ≠ Dx := fun h => hpD (by rw [hp, h])
    have hqd : q ≠ dl := fun h => hpb q hp (by rw [hb, h])
    by_cases hq : (m.cell q).l = some X
    · refine ⟨_, rfl, by simp [hb, hp, hXD, hq, Ne.symm hdX], fun z => ?_⟩
      simp only [setR_l, hb, setP_p, setR_p, hXD, if_false, hp, setL_l, setL_p, setP_l,
        setP_r, setL_r, setR_r, reduceCtorEq, false_and, and_false, hq, if_true, Ne.symm hdX]
      by_cases hzX : z = X
      · subst hzX; simp [hXD, hb, hqX, Ne.symm hqX]
      · by_cases hzD : z = Dx
        · subst hzD; simp [hDX, hqD, Ne.symm hqD]
        · by_cases hzq : z = q
          · subst hzq; simp [hzX, hzD, hq, hqd, Ne.symm hqd]
          · by_cases hzd : z = dl
            · subst hzd; simp [hzX, hzD, hzq, Ne.symm hzq]
            · simp [hzX, hzD, hzq, Ne.symm hzq, hzd, Ne.symm hzd]
    · have hq1 : ¬ some X = (m.cell q).l := fun h => hq h.symm
      refine ⟨_, rfl, by simp [hb, hp, hXD, hq, hq1, Ne.symm hdX], fun z => ?_⟩
      simp only [setR_l, hb, setP_p, setR_p, hXD, if_false, hp, setL_l, setL_p, setP_l,
        setP_r, setL_r, setR_r, reduceCtorEq, false_and, and_false, hq1, Ne.symm hdX]
      by_cases hzX : z = X
      · subst hzX; simp [hXD, hb, hqX, Ne.symm hqX]
      · by_cases hzD : z = Dx
        · subst hzD; simp [hDX, hqD, Ne.symm hqD]
        · by_cases hzq : z = q
          · subst hzq; simp [hzX, hzD, hq, hqd, Ne.symm hqd]
          · by_cases hzd : z = dl
            · subst hzd; simp [hzX, hzD, hzq, Ne.symm hzq]
            · simp [hzX, hzD, hzq, Ne.symm hzq, hzd, Ne.symm hzd]

theorem RightRotate_pt {m : Mem} {X Sx : Nat} (hXr : (m.cell X).l = some Sx) (hXD : X ≠ Sx)
    (hbX : (m.cell Sx).r ≠ some X) (hbD : (m.cell Sx).r ≠ some Sx)
    (hpX : (m.cell X).p ≠ some X) (hpD : (m.cell X).p ≠ some Sx)
    (hpb : ∀ z, (m.cell X).p = some z → (m.cell Sx).r ≠ some z) :
    ∃ m1, RightRotate m X = some m1 ∧
      m1.root = (if (m.cell X).p = none then some Sx else m.root) ∧
      ∀ z, (m1.cell z).p = (if z = X then some Sx else if z = Sx then (m.cell X).p
              else if (m.cell Sx).r = some z then some X else (m.cell z).p) ∧
        (m1.cell z).r = (if z = Sx then some X
              else if (m.cell X).p = some z ∧ (m.cell z).r = some X then some Sx
              else (m.cell z).r) ∧
        (m1.cell z).l = (if z = X then (m.cell Sx).r
              else if (m.cell X).p = some z ∧ (m.cell z).r ≠ some X then some Sx
              else (m.cell z).l) := by
  unfold RightRotate
  rw [hXr]
  have hDX : Sx ≠ X := Ne.symm hXD
  rcases hb : (m.cell Sx).r with _ | dl <;> rcases hp : (m.cell X).p with _ | q
  · refine ⟨_, rfl, by simp [hb, hp, hXD], fun z => ?_⟩
    simp only [setL_r, hb, setP_p, setL_p, hXD, if_false, hp, setR_r, setR_p, setP_r,
        setP_l, setR_l, setL_l, reduceCtorEq, false_and, and_false]
    by_cases hzX : z = X
    · subst hzX; simp [hXD, hb]
    · by_cases hzD : z = Sx
      · subst hzD; simp [hDX]
      · simp [hzX, hzD]
  · have hqX : q ≠ X := fun h => hpX (by rw [hp, h])
    have hqD : q ≠ Sx := fun h => hpD (by rw [hp, h])
    by_cases hq : (m.cell q).r = some X
    · refine ⟨_, rfl, by simp [hb, hp, hXD, hq], fun z => ?_⟩
      simp only [setL_r, hb, setP_p, setL_p, hXD, if_false, hp, setR_r, setR_p, setP_r,
        setP_l, setR_l, setL_l, reduceCtorEq, false_and, and_false, hq, if_true]
      by_cases hzX : z = X
      · subst hzX; simp [hXD, hb, hqX, Ne.symm hqX]
      · by_cases hzD : z = Sx
        · subst hzD; simp [hDX, hqD, Ne.symm hqD]
        · by_cases hzq : z = q
          · subst hzq; simp [hzX, hzD, hq]
          · simp [hzX, hzD, hzq, Ne.symm hzq]
    · have hq1 : ¬ some X = (m.cell q).r := fun h => hq h.symm
      refine ⟨_, rfl, by simp [hb, hp, hXD, hq, hq1], fun z => ?_⟩
      simp only [setL_r, hb, setP_p, setL_p, hXD, if_false, hp, setR_r, setR_p, setP_r,
        setP_l, setR_l, setL_l, reduceCtorEq, false_and, and_false, hq1]
      by_cases hzX : z = X
      · subst hzX; simp [hXD, hb, hqX, Ne.symm hqX]
      · by_cases hzD : z = Sx
        · subst hzD; simp [hDX, hqD, Ne.symm hqD]
        · by_cases hzq : z = q
          · subst hzq; simp [hzX, hzD, hq]
          · simp [hzX, hzD, hzq, Ne.symm hzq]
  · have hdX : dl ≠ X := fun h => hbX (by rw [hb, h])
    have hdD : dl ≠ Sx := fun h => hbD (by rw [hb, h])
    refine ⟨_, rfl, by simp [hb, hp, hXD, Ne.symm hdX], fun z => ?_⟩
    simp only [setL_r, hb, setP_p, setL_p, hXD, if_false, hp, setR_r, setR_p, setP_r,
        setP_l, setR_l, setL_l, reduceCtorEq, false_and, and_false, Ne.symm hdX]
    by_cases hzX : z = X
    · subst hzX; simp [hXD, hb]
    · by_cases hzD : z = Sx
      · subst hzD; simp [hDX]
      · by_cases hzd : z = dl
        · subst hzd; simp [hzX, hzD]
        · simp [hzX, hzD, hzd, Ne.symm hzd]
  · have hdX : dl ≠ X := fun h => hbX (by rw [hb, h])
    have hdD : dl ≠ Sx := fun h => hbD (by rw [hb, h])
    have hqX : q ≠ X := fun h => hpX (by rw [hp, h])
    have hqD : q ≠ Sx := fun h => hpD (by rw [hp, h])
    have hqd : q ≠ dl := fun h => hpb q hp (by rw [hb, h])
    by_cases hq : (m.cell q).r = some X
    · refine ⟨_, rfl, by simp [hb, hp, hXD, hq, Ne.symm hdX], fun z => ?_⟩
      simp only [setL_r, hb, setP_p, setL_p, hXD, if_false, hp, setR_r, setR_p, setP_r,
        setP_l, setR_l, setL_l, reduceCtorEq, false_and, and_false, hq, if_true, Ne.symm hdX]
      by_cases hzX : z = X
      · subst hzX; simp [hXD, hb, hqX, Ne.symm hqX]
      · by_cases hzD : z = Sx
        · subst hzD; simp [hDX, hqD, Ne.symm hqD]
        · by_cases hzq : z = q
          · subst hzq; simp [hzX, hzD, hq, hqd, Ne.symm hqd]
          · by_cases hzd : z = dl
            · subst hzd; simp [hzX, hzD, hzq, Ne.symm hzq]
            · simp [hzX, hzD, hzq, Ne.symm hzq, hzd, Ne.symm hzd]
    · have hq1 : ¬ some X = (m.cell q).r := fun h => hq h.symm
      refine ⟨_, rfl, by simp [hb, hp, hXD, hq, hq1, Ne.symm hdX], fun z => ?_⟩
      simp only [setL_r, hb, setP_p, setL_p, hXD, if_false, hp, setR_r, setR_p, setP_r,
        setP_l, setR_l, setL_l, reduceCtorEq, false_and, and_false, hq1, Ne.symm hdX]
      by_cases hzX : z = X
      · subst hzX; simp [hXD, hb, hqX, Ne.symm hqX]
      · by_cases hzD : z = Sx
        · subst hzD; simp [hDX, hqD, Ne.symm hqD]
        · by_cases hzq : z = q
          · subst hzq; simp [hzX, hzD, hq, hqd, Ne.symm hqd]
          · by_cases hzd : z = dl
            · subst hzd; simp [hzX, hzD, hzq, Ne.symm hzq]
            · simp [hzX, hzD, hzq, Ne.symm hzq, hzd, Ne.symm hzd]

theorem ptr_node (l r : Sh) (a : Nat) : (Sh.node l a r).ptr = some a := rfl

theorem cnt_mem {l : List Nat} {z : Nat} (h : z ∈ l) : 1 ≤ l.count z :=
  List.count_pos_iff.2 h

theorem cnt_cons (x z : Nat) (l : List Nat) :
    (x :: l).count z = (if x = z then 1 else 0) + l.count z := by
  simp [List.count_cons, Nat.add_comm]

theorem cnt_ptr (s : Sh) (z : Nat) : s.ptr.toList.count z ≤ s.addrs.count z := by
  cases s with
  | nil => simp [Sh.ptr]
  | node l a r => simp [Sh.ptr, Sh.addrs, List.count_append, cnt_cons]; omega

theorem cnt_ctxPar (ctx : List Frame) (z : Nat) :
    (ctxPar ctx).toList.count z ≤ (ctxLeft ctx).count z + (ctxRight ctx).count z := by
  cases ctx with
  | nil => simp [ctxPar]
  | cons f rest =>
    cases f <;> simp [ctxPar, Frame.addr, ctxLeft, ctxRight, List.count_append, cnt_cons] <;>
      omega

theorem cnt_some {q : Option Nat} {z : Nat} (h : q = some z) : 1 ≤ q.toList.count z := by
  subst h; simp

theorem LeftRotate_spec {m : Mem} (ctx : List Frame) (a b c : Sh) (X Dx : Nat)
    (hr : Repr m none (plug ctx (.node a X (.node b Dx c))))
    (hroot : m.root = (plug ctx (.node a X (.node b Dx c))).ptr)
    (hnd : (plug ctx (.node a X (.node b Dx c))).addrs.Nodup) :
    ∃ m1, LeftRotate m X = some m1 ∧
      Repr m1 none (plug ctx (.node (.node a X b) Dx c)) ∧
      m1.root = (plug ctx (.node (.node a X b) Dx c)).ptr := by
  rw [Repr_plug] at hr
  obtain ⟨hctx, hX⟩ := hr
  simp only [Repr] at hX
  obtain ⟨hXp, hXl, hXr, ha, hDp, hDl, hDr, hb, hc⟩ := hX
  rw [addrs_plug] at hnd
  rw [ptr_plug] at hroot
  simp only [Sh.ptr] at hXr hroot
  have hcnt := fun z => List.nodup_iff_count_le_one.1 hnd z
  simp only [Sh.addrs, List.count_append, cnt_cons] at hcnt
  have hXD : X ≠ Dx := by
    rintro rfl; have h0 := hcnt X; rw [if_pos rfl] at h0; omega
  have hbX : (m.cell Dx).l ≠ some X := by
    rw [hDl]; intro h; have h0 := hcnt X; have := cnt_ptr b X; have := cnt_some h
    rw [if_pos rfl] at h0; omega
  have hbD : (m.cell Dx).l ≠ some Dx := by
    rw [hDl]; intro h; have h0 := hcnt Dx; have := cnt_ptr b Dx; have := cnt_some h
    rw [if_pos rfl] at h0; omega
  have hpX : (m.cell X).p ≠ some X := by
    rw [hXp]; intro h; have h0 := hcnt X; have := cnt_ctxPar ctx X; have := cnt_some h
    rw [if_pos rfl] at h0; omega
  have hpD : (m.cell X).p ≠ some Dx := by
    rw [hXp]; intro h; have h0 := hcnt Dx; have := cnt_ctxPar ctx Dx; have := cnt_some h
    rw [if_pos rfl] at h0; omega
  have hpb : ∀ z, (m.cell X).p = some z → (m.cell Dx).l ≠ some z := by
    rw [hXp, hDl]; intro z h h2; have := hcnt z; have := cnt_ctxPar ctx z; have := cnt_some h
    have := cnt_ptr b z; have := cnt_some h2
    omega
  obtain ⟨m1, hm1, hr1, hpt⟩ := LeftRotate_pt hXr hXD hbX hbD hpX hpD hpb
  have hfr : ∀ z, (if X = z then 1 else 0) + (if Dx = z then 1 else 0) + b.ptr.toList.count z +
      (ctxPar ctx).toList.count z = 0 → LinksEq m m1 z := by
    intro z h
    have h1 : z ≠ X := by rintro rfl; rw [if_pos rfl] at h; omega
    have h2 : z ≠ Dx := by rintro rfl; rw [if_pos rfl] at h; omega
    have h3 : (m.cell Dx).l ≠ some z := by
      rw [hDl]; intro h'; have := cnt_some h'; omega
    have h4 : (m.cell X).p ≠ some z := by
      rw [hXp]; intro h'; have := cnt_some h'; omega
    have := hpt z
    simp only [h1, h2, h3, h4, if_false, false_and] at this
    exact this
  have hXDx : Dx ≠ X := Ne.symm hXD
  have hX1 := hpt X
  have hD1 := hpt Dx
  have hpX' : ctxPar ctx ≠ some X := hXp ▸ hpX
  have hpD' : ctxPar ctx ≠ some Dx := hXp ▸ hpD
  simp only [hXD, hXDx, if_true, if_false, false_and, hXp, hXl, hDl, hDr, hpX', hpD'] at hX1 hD1
  have hbp := fun z => cnt_ptr b z
  refine ⟨m1, hm1, ?_, ?_⟩
  · rw [Repr_plug]
    refine ⟨?_, hD1.1, hD1.2.1, hD1.2.2, ⟨hX1.1, hX1.2.1, hX1.2.2, ?_, ?_⟩, ?_⟩
    · -- the path above
      cases ctx with
      | nil => trivial
      | cons f rest =>
        cases f with
        | L q sib =>
          obtain ⟨h1, h2, h3, h4, h5⟩ := hctx
          simp only [ptr_node] at h2 h3
          simp only [ctxPar, Frame.addr] at hXp hpX hpD hpb
          simp only [ctxPar, Frame.addr, Option.toList_some, ctxLeft, ctxRight, List.count_append,
            cnt_cons, List.count_nil] at hcnt hfr
          have hqX : q ≠ X := fun h => hpX (by rw [hXp, h])
          have hqD : q ≠ Dx := fun h => hpD (by rw [hXp, h])
          have hqb : (m.cell Dx).l ≠ some q := hpb q hXp
          have hq := hpt q
          simp only [hqX, hqD, hqb, if_false, hXp, h2, true_and, if_true, ne_eq,
            not_true, and_false] at hq
          refine ⟨hq.1.trans h1, hq.2.1, hq.2.2.trans h3, ?_, ?_⟩
          · refine Repr_congr (fun z hz => hfr z ?_) _ h4
            have h0 := hcnt z; have := cnt_mem hz; have := hbp z; omega
          · refine ReprCtx_congr (fun z hz => hfr z ?_) _ h5
            have h0 := hcnt z; have hm := cnt_mem hz; have := hbp z
            simp only [List.count_append] at hm; omega
        | R sib q =>
          obtain ⟨h1, h2, h3, h4, h5⟩ := hctx
          simp only [ptr_node] at h2 h3
          simp only [ctxPar, Frame.addr] at hXp hpX hpD hpb
          simp only [ctxPar, Frame.addr, Option.toList_some, ctxLeft, ctxRight, List.count_append,
            cnt_cons, List.count_nil] at hcnt hfr
          have hqX : q ≠ X := fun h => hpX (by rw [hXp, h])
          have hqD : q ≠ Dx := fun h => hpD (by rw [hXp, h])
          have hqb : (m.cell Dx).l ≠ some q := hpb q hXp
          have hsX : sib.ptr ≠ some X := by
            intro h; have h0 := hcnt X; have := cnt_ptr sib X; have := cnt_some h
            rw [if_pos rfl] at h0; omega
          have hq := hpt q
          simp only [hqX, hqD, hqb, if_false, hXp, h2, true_and, if_true, ne_eq,
            not_true, and_false, hsX, not_false_eq_true] at hq
          refine ⟨hq.1.trans h1, hq.2.1, hq.2.2, ?_, ?_⟩
          · refine Repr_congr (fun z hz => hfr z ?_) _ h4
            have h0 := hcnt z; have := cnt_mem hz; have := hbp z; omega
          · refine ReprCtx_congr (fun z hz => hfr z ?_) _ h5
            have h0 := hcnt z; have hm := cnt_mem hz; have := hbp z
            simp only [List.count_append] at hm; omega
    · -- subtree a
      refine Repr_congr (fun z hz => hfr z ?_) _ ha
      have h0 := hcnt z; have := cnt_mem hz; have := hbp z; have := cnt_ctxPar ctx z; omega
    · -- subtree b
      cases b with
      | nil => trivial
      | node bl ba br =>
        obtain ⟨h1, h2, h3, h4, h5⟩ := hb
        simp only [Sh.ptr] at hDl hbX hbD hpb
        simp only [Sh.addrs, Sh.ptr, Option.toList_some, List.count_append, cnt_cons,
          List.count_nil] at hcnt hfr
        have hbaX : ba ≠ X := fun h => hbX (by rw [hDl, h])
        have hbaD : ba ≠ Dx := fun h => hbD (by rw [hDl, h])
        have hbap : ¬ (m.cell X).p = some ba := fun h => hpb ba h hDl
        have hq := hpt ba
        simp only [hbaX, hbaD, hbap, if_false, hDl, if_true, false_and] at hq
        refine ⟨hq.1, hq.2.1.trans h2, hq.2.2.trans h3, ?_, ?_⟩
        · refine Repr_congr (fun z hz => hfr z ?_) _ h4
          have h0 := hcnt z; have := cnt_mem hz; have := cnt_ctxPar ctx z; omega
        · refine Repr_congr (fun z hz => hfr z ?_) _ h5
          have h0 := hcnt z; have := cnt_mem hz; have := cnt_ctxPar ctx z; omega
    · -- subtree c
      refine Repr_congr (fun z hz => hfr z ?_) _ hc
      have h0 := hcnt z; have := cnt_mem hz; have := hbp z; have := cnt_ctxPar ctx z; omega
  · rw [ptr_plug, hr1, hXp, hroot]
    cases ctx with
    | nil => simp [ctxPar, ctxTop, Sh.ptr]
    | cons f rest => simp [ctxPar, ctxTop]

theorem RightRotate_spec {m : Mem} (ctx : List Frame) (a b c : Sh) (X Sx : Nat)
    (hr : Repr m none (plug ctx (.node (.node c Sx b) X a)))
    (hroot : m.root = (plug ctx (.node (.node c Sx b) X a)).ptr)
    (hnd : (plug ctx (.node (.node c Sx b) X a)).addrs.Nodup) :
    ∃ m1, RightRotate m X = some m1 ∧
      Repr m1 none (plug ctx (.node c Sx (.node b X a))) ∧
      m1.root = (plug ctx (.node c Sx (.node b X a))).ptr := by
  rw [Repr_plug] at hr
  obtain ⟨hctx, hX⟩ := hr
  simp only [Repr] at hX
  obtain ⟨hXp, hXr, hXl, ⟨hDp, hDr, hDl, hc, hb⟩, ha⟩ := hX
  rw [addrs_plug] at hnd
  rw [ptr_plug] at hroot
  simp only [ptr_node] at hXr hroot
  have hcnt := fun z => List.nodup_iff_count_le_one.1 hnd z
  simp only [Sh.addrs, List.count_append, cnt_cons] at hcnt
  have hXD : X ≠ Sx := by
    rintro rfl; have h0 := hcnt X; rw [if_pos rfl] at h0; omega
  have hbX : (m.cell Sx).r ≠ some X := by
    rw [hDl]; intro h; have h0 := hcnt X; have := cnt_ptr b X; have := cnt_some h
    rw [if_pos rfl] at h0; omega
  have hbD : (m.cell Sx).r ≠ some Sx := by
    rw [hDl]; intro h; have h0 := hcnt Sx; have := cnt_ptr b Sx; have := cnt_some h
    rw [if_pos rfl] at h0; omega
  have hpX : (m.cell X).p ≠ some X := by
    rw [hXp]; intro h; have h0 := hcnt X; have := cnt_ctxPar ctx X; have := cnt_some h
    rw [if_pos rfl] at h0; omega
  have hpD : (m.cell X).p ≠ some Sx := by
    rw [hXp]; intro h; have h0 := hcnt Sx; have := cnt_ctxPar ctx Sx; have := cnt_some h
    rw [if_pos rfl] at h0; omega
  have hpb : ∀ z, (m.cell X).p = some z → (m.cell Sx).r ≠ some z := by
    rw [hXp, hDl]; intro z h h2; have := hcnt z; have := cnt_ctxPar ctx z; have := cnt_some h
    have := cnt_ptr b z; have := cnt_some h2
    omega
  obtain ⟨m1, hm1, hr1, hpt⟩ := RightRotate_pt hXr hXD hbX hbD hpX hpD hpb
  have hfr : ∀ z, (if X = z then 1 else 0) + (if Sx = z then 1 else 0) + b.ptr.toList.count z +
      (ctxPar ctx).toList.count z = 0 → LinksEq m m1 z := by
    intro z h
    have h1 : z ≠ X := by rintro rfl; rw [if_pos rfl] at h; omega
    have h2 : z ≠ Sx := by rintro rfl; rw [if_pos rfl] at h; omega
    have h3 : (m.cell Sx).r ≠ some z := by
      rw [hDl]; intro h'; have := cnt_some h'; omega
    have h4 : (m.cell X).p ≠ some z := by
      rw [hXp]; intro h'; have := cnt_some h'; omega
    have := hpt z
    simp only [h1, h2, h3, h4, if_false, false_and] at this
    exact ⟨this.1, this.2.2, this.2.1⟩
  have hXDx : Sx ≠ X := Ne.symm hXD
  have hX1 := hpt X
  have hD1 := hpt Sx
  have hpX' : ctxPar ctx ≠ some X := hXp ▸ hpX
  have hpD' : ctxPar ctx ≠ some Sx := hXp ▸ hpD
  simp only [hXD, hXDx, if_true, if_false, false_and, hXp, hXl, hDl, hDr, hpX', hpD'] at hX1 hD1
  have hbp := fun z => cnt_ptr b z
  refine ⟨m1, hm1, ?_, ?_⟩
  · rw [Repr_plug]
    refine ⟨?_, hD1.1, hD1.2.2, hD1.2.1, ?_, ⟨hX1.1, hX1.2.2, hX1.2.1, ?_, ?_⟩⟩
    · -- the path above
      cases ctx with
      | nil => trivial
      | cons f rest =>
        cases f with
        | R sib q =>
          obtain ⟨h1, h3, h2, h4, h5⟩ := hctx
          simp only [ptr_node] at h2 h3
          simp only [ctxPar, Frame.addr] at hXp hpX hpD hpb
          simp only [ctxPar, Frame.addr, Option.toList_some, ctxLeft, ctxRight, List.count_append,
            cnt_cons, List.count_nil] at hcnt hfr
          have hqX : q ≠ X := fun h => hpX (by rw [hXp, h])
          have hqD : q ≠ Sx := fun h => hpD (by rw [hXp, h])
          have hqb : (m.cell Sx).r ≠ some q := hpb q hXp
          have hq := hpt q
          simp only [hqX, hqD, hqb, if_false, hXp, h2, true_and, if_true, ne_eq,
            not_true, and_false] at hq
          refine ⟨hq.1.trans h1, hq.2.2.trans h3, hq.2.1, ?_, ?_⟩
          · refine Repr_congr (fun z hz => hfr z ?_) _ h4
            have h0 := hcnt z; have := cnt_mem hz; have := hbp z; omega
          · refine ReprCtx_congr (fun z hz => hfr z ?_) _ h5
            have h0 := hcnt z; have hm := cnt_mem hz; have := hbp z
            simp only [List.count_append] at hm; omega
        | L q sib =>
          obtain ⟨h1, h3, h2, h4, h5⟩ := hctx
          simp only [ptr_node] at h2 h3
          simp only [ctxPar, Frame.addr] at hXp hpX hpD hpb
          simp only [ctxPar, Frame.addr, Option.toList_some, ctxLeft, ctxRight, List.count_append,
            cnt_cons, List.count_nil] at hcnt hfr
          have hqX : q ≠ X := fun h => hpX (by rw [hXp, h])
          have hqD : q ≠ Sx := fun h => hpD (by rw [hXp, h])
          have hqb : (m.cell Sx).r ≠ some q := hpb q hXp
          have hsX : sib.ptr ≠ some X := by
            intro h; have h0 := hcnt X; have := cnt_ptr sib X; have := cnt_some h
            rw [if_pos rfl] at h0; omega
          have hq := hpt q
          simp only [hqX, hqD, hqb, if_false, hXp, h2, true_and, if_true, ne_eq,
            not_true, and_false, hsX, not_false_eq_true] at hq
          refine ⟨hq.1.trans h1, hq.2.2, hq.2.1, ?_, ?_⟩
          · refine Repr_congr (fun z hz => hfr z ?_) _ h4
            have h0 := hcnt z; have := cnt_mem hz; have := hbp z; omega
          · refine ReprCtx_congr (fun z hz => hfr z ?_) _ h5
            have h0 := hcnt z; have hm := cnt_mem hz; have := hbp z
            simp only [List.count_append] at hm; omega
    · -- subtree c
      refine Repr_congr (fun z hz => hfr z ?_) _ hc
      have h0 := hcnt z; have := cnt_mem hz; have := hbp z; have := cnt_ctxPar ctx z; omega
    · -- subtree b
      cases b with
      | nil => trivial
      | node bl ba br =>
        obtain ⟨h1, h2, h3, h4, h5⟩ := hb
        simp only [ptr_node] at hDl hbX hbD hpb
        simp only [Sh.addrs, ptr_node, Option.toList_some, List.count_append, cnt_cons,
          List.count_nil] at hcnt hfr
        have hbaX : ba ≠ X := fun h => hbX (by rw [hDl, h])
        have hbaD : ba ≠ Sx := fun h => hbD (by rw [hDl, h])
        have hbap : ¬ (m.cell X).p = some ba := fun h => hpb ba h hDl
        have hq := hpt ba
        simp only [hbaX, hbaD, hbap, if_false, hDl, if_true, false_and] at hq
        refine ⟨hq.1, hq.2.2.trans h2, hq.2.1.trans h3, ?_, ?_⟩
        · refine Repr_congr (fun z hz => hfr z ?_) _ h4
          have h0 := hcnt z; have := cnt_mem hz; have := cnt_ctxPar ctx z; omega
        · refine Repr_congr (fun z hz => hfr z ?_) _ h5
          have h0 := hcnt z; have := cnt_mem hz; have := cnt_ctxPar ctx z; omega
    · -- subtree a
      refine Repr_congr (fun z hz => hfr z ?_) _ ha
      have h0 := hcnt z; have := cnt_mem hz; have := hbp z; have := cnt_ctxPar ctx z; omega
  · rw [ptr_plug, hr1, hXp, hroot]
    cases ctx with
    | nil => simp [ctxPar, ctxTop, Sh.ptr]
    | cons f rest => simp [ctxPar, ctxTop]

theorem colour_cases (c : Colour) : c = Colour.RED ∨ c = Colour.BLACK := by
  cases c <;> simp

theorem not_red {c : Colour} (h : c ≠ Colour.RED) : c = Colour.BLACK := by
  cases c <;> simp at h ⊢

theorem isBlack_plug_cons (m : Mem) (f : Frame) (rest : List Frame) (s s1 : Sh) :
    isBlack m (plug (f :: rest) s) ↔ isBlack m (plug (f :: rest) s1) := by
  induction rest generalizing f s s1 with
  | nil => cases f <;> simp [plug, Frame.fill, isBlack]
  | cons g rest ih =>
    have := ih g (f.fill s) (f.fill s1)
    simpa [plug] using this

theorem RR_plug (m : Mem) (ctx : List Frame) (s : Sh) :
    RR m (plug ctx s) ↔ RR m s ∧ CtxRR m ctx ∧ (topBlack m ctx ∨ isBlack m s) := by
  induction ctx generalizing s with
  | nil => simp [plug, CtxRR, topBlack]
  | cons f rest ih =>
    rw [plug, ih]
    rcases colour_cases (m.cell f.addr).color with hc | hc <;>
      cases f <;>
      simp only [Frame.fill, RR, CtxRR, topBlack, Frame.addr, Frame.sib, isBlack] at hc ⊢ <;>
      simp [hc] <;> tauto

theorem isBlack_congr {m m1 : Mem} {s : Sh}
    (h : ∀ a ∈ s.addrs, (m1.cell a).color = (m.cell a).color) : isBlack m s → isBlack m1 s := by
  cases s with
  | nil => intro _; trivial
  | node l a r => intro h1; exact (h a (by simp [Sh.addrs])).trans h1

theorem RR_congr {m m1 : Mem} {s : Sh}
    (h : ∀ a ∈ s.addrs, (m1.cell a).color = (m.cell a).color) : RR m s → RR m1 s := by
  induction s with
  | nil => intro _; trivial
  | node l a r ihl ihr =>
    intro ⟨h1, h2, h3⟩
    have hl : ∀ z ∈ l.addrs, (m1.cell z).color = (m.cell z).color :=
      fun z hz => h z (by simp [Sh.addrs, hz])
    have hr : ∀ z ∈ r.addrs, (m1.cell z).color = (m.cell z).color :=
      fun z hz => h z (by simp [Sh.addrs, hz])
    refine ⟨fun hc => ?_, ihl hl h2, ihr hr h3⟩
    rw [h a (by simp [Sh.addrs])] at hc
    exact ⟨isBlack_congr hl (h1 hc).1, isBlack_congr hr (h1 hc).2⟩

theorem topBlack_congr {m m1 : Mem} {ctx : List Frame}
    (h : ∀ a ∈ ctxLeft ctx ++ ctxRight ctx, (m1.cell a).color = (m.cell a).color) :
    topBlack m ctx → topBlack m1 ctx := by
  cases ctx with
  | nil => intro _; trivial
  | cons f rest =>
    cases f <;> intro h1 <;> simp only [topBlack, Frame.addr] at h1 ⊢ <;>
      rw [h _ (by simp [ctxLeft, ctxRight])] <;> exact h1

theorem CtxRR_congr {m m1 : Mem} {ctx : List Frame}
    (h : ∀ a ∈ ctxLeft ctx ++ ctxRight ctx, (m1.cell a).color = (m.cell a).color) :
    CtxRR m ctx → CtxRR m1 ctx := by
  induction ctx with
  | nil => intro _; trivial
  | cons f rest ih =>
    have hrest : ∀ z ∈ ctxLeft rest ++ ctxRight rest, (m1.cell z).color = (m.cell z).color := by
      intro z hz
      apply h z
      cases f <;> simp only [ctxLeft, ctxRight, List.mem_append, List.mem_cons] at hz ⊢ <;> tauto
    have hsib : ∀ z ∈ f.sib.addrs, (m1.cell z).color = (m.cell z).color := by
      intro z hz
      apply h z
      cases f <;> simp only [ctxLeft, ctxRight, List.mem_append, List.mem_cons, Frame.sib] at hz ⊢ <;>
        tauto
    have hf : (m1.cell f.addr).color = (m.cell f.addr).color := by
      apply h
      cases f <;> simp [ctxLeft, ctxRight, Frame.addr]
    intro ⟨h1, h2, h3⟩
    refine ⟨RR_congr hsib h1, fun hc => ?_, ih hrest h3⟩
    rw [hf] at hc
    exact ⟨isBlack_congr hsib (h2 hc).1, topBlack_congr hrest (h2 hc).2⟩

theorem Repr_setColor {m : Mem} {s : Sh} {par : Option Nat} (a : Nat) (c : Colour)
    (h : Repr m par s) : Repr (m.setColor a c) par s :=
  Repr_congr (fun z _ => ⟨by simp, by simp, by simp⟩) par h

theorem KeysEq_refl (m : Mem) : KeysEq m m := fun _ => ⟨rfl, rfl⟩

theorem KeysEq_trans {m m1 m2 : Mem} (h1 : KeysEq m m1) (h2 : KeysEq m1 m2) : KeysEq m m2 :=
  fun z => ⟨(h2 z).1.trans (h1 z).1, (h2 z).2.trans (h1 z).2⟩

theorem KeysEq_setColor (m : Mem) (a : Nat) (c : Colour) : KeysEq m (m.setColor a c) :=
  fun z => ⟨by simp, by simp⟩

theorem DataEq_keys {m m1 : Mem} (h : DataEq m m1) : KeysEq m m1 :=
  fun z => ⟨(h z).1, (h z).2.2⟩

theorem ptr_mem {s : Sh} {z : Nat} (h : s.ptr = some z) : z ∈ s.addrs := by
  cases s with
  | nil => simp [Sh.ptr] at h
  | node l a r => simp only [ptr_node, Option.some.injEq] at h; subst h; simp [Sh.addrs]

theorem Repr_ptr_p {m : Mem} {s : Sh} {par : Option Nat} {a : Nat} (h : Repr m par s)
    (ha : s.ptr = some a) : (m.cell a).p = par := by
  cases s with
  | nil => simp [Sh.ptr] at ha
  | node l b r => simp only [ptr_node, Option.some.injEq] at ha; subst ha; exact h.1

theorem isBlack_iff {m : Mem} {s : Sh} {a : Nat} (ha : s.ptr = some a) :
    isBlack m s ↔ (m.cell a).color = Colour.BLACK := by
  cases s with
  | nil => simp [Sh.ptr] at ha
  | node l b r => simp only [ptr_node, Option.some.injEq] at ha; subst ha; rfl

theorem ctxTop_cons (f : Frame) (rest : List Frame) (h : Option Nat) :
    ∃ b, ctxTop (f :: rest) h = some b ∧ b ∈ ctxLeft (f :: rest) ++ ctxRight (f :: rest) := by
  induction rest generalizing f h with
  | nil => cases f <;> simp [ctxTop, Frame.addr, ctxLeft, ctxRight]
  | cons g rest ih =>
    obtain ⟨b, hb, hm⟩ := ih g (some f.addr)
    refine ⟨b, by simpa [ctxTop] using hb, ?_⟩
    cases f <;> simp only [ctxLeft, ctxRight, List.mem_append, List.mem_cons] at hm ⊢ <;> tauto

theorem outerL {m : Mem} (ctx : List Frame) (s : Sh) {sibP sibG : Sh} (New P : Nat) {G : Nat}
    (hwf : WF m (plug ctx (.node (.node s P sibP) G sibG)))
    (hNew : s.ptr = some New)
    (hcP : (m.cell P).color = Colour.RED) (hcG : (m.cell G).color = Colour.BLACK)
    (hs : RR m s) (hsP : RR m sibP) (hbP : isBlack m sibP)
    (hsG : RR m sibG) (hbG : isBlack m sibG) (hctx : CtxRR m ctx)
    (hrb : ctx ≠ [] → isBlack m (plug ctx (.node (.node s P sibP) G sibG))) :
    ∃ m2, swapRotateRight m New = some m2 ∧
      WF m2 (plug ctx (.node s P (.node sibP G sibG))) ∧
      m2.next = m.next ∧ KeysEq m m2 ∧
      RR m2 (plug ctx (.node s P (.node sibP G sibG))) ∧
      isBlack m2 (plug ctx (.node s P (.node sibP G sibG))) ∧
      (m2.cell New).p = some P ∧ (m2.cell P).color = Colour.BLACK ∧
      (m2.cell New).color = (m.cell New).color := by
  obtain ⟨hr, hroot, hnd⟩ := hwf
  have hr0 := hr
  rw [Repr_plug] at hr0
  obtain ⟨-, hG⟩ := hr0
  simp only [Repr] at hG
  obtain ⟨hGp, hGl, hGr, ⟨hPp, hPl, hPr, hsr, hsPr⟩, hsGr⟩ := hG
  have hNp : (m.cell New).p = some P := by
    cases s with
    | nil => simp [Sh.ptr] at hNew
    | node l a r =>
      simp only [ptr_node, Option.some.injEq] at hNew; subst hNew; exact hsr.1
  have hcnt := fun z => List.nodup_iff_count_le_one.1 hnd z
  simp only [addrs_plug, Sh.addrs, List.count_append, cnt_cons] at hcnt
  have hPG : P ≠ G := by
    rintro rfl; have h0 := hcnt P; rw [if_pos rfl] at h0; omega
  have hNs := cnt_mem (ptr_mem hNew)
  have hNP : New ≠ P := by
    rintro rfl; have h0 := hcnt New; rw [if_pos rfl] at h0; omega
  have hNG : New ≠ G := by
    rintro rfl; have h0 := hcnt New; rw [if_pos rfl] at h0; omega
  -- the two colour assignments
  let m' := (m.setColor P (m.cell G).color).setColor G (m.cell P).color
  have hwf' : Repr m' none (plug ctx (.node (.node s P sibP) G sibG)) :=
    Repr_setColor _ _ (Repr_setColor _ _ hr)
  obtain ⟨m2, hm2, hr2, hroot2⟩ := RightRotate_spec _ _ _ _ _ _ hwf' hroot hnd
  obtain ⟨hd2, hn2⟩ := RightRotate_data hm2
  have hcol : ∀ z, (m2.cell z).color =
      if z = G then Colour.RED else if z = P then Colour.BLACK else (m.cell z).color := by
    intro z
    rw [(hd2 z).2.1]
    simp only [m', setColor_color, hcP, hcG]
  have hcol0 : ∀ z, (if P = z then 1 else 0) + (if G = z then 1 else 0) = 0 →
      (m2.cell z).color = (m.cell z).color := by
    intro z h
    have h1 : z ≠ P := by rintro rfl; rw [if_pos rfl] at h; omega
    have h2 : z ≠ G := by rintro rfl; rw [if_pos rfl] at h; omega
    rw [hcol z, if_neg h2, if_neg h1]
  have haddrs : (plug ctx (.node s P (.node sibP G sibG))).addrs =
      (plug ctx (.node (.node s P sibP) G sibG)).addrs := by
    simp [addrs_plug, Sh.addrs]
  refine ⟨m2, ?_, ⟨hr2, hroot2, haddrs ▸ hnd⟩, hn2, ?_, ?_, ?_, ?_, ?_, ?_⟩
  · unfold swapRotateRight
    rw [hNp]; simp only
    rw [hPp]
    exact hm2
  · exact KeysEq_trans (KeysEq_trans (KeysEq_setColor _ _ _) (KeysEq_setColor _ _ _)) (DataEq_keys hd2)
  · rw [RR_plug]
    refine ⟨⟨?_, ?_, ?_, ?_, ?_⟩, ?_, ?_⟩
    · intro h; rw [hcol P, if_neg hPG, if_pos rfl] at h; cases h
    · refine RR_congr (fun z hz => hcol0 z ?_) hs
      have h0 := hcnt z; have := cnt_mem hz; omega
    · intro _
      constructor
      · refine isBlack_congr (fun z hz => hcol0 z ?_) hbP
        have h0 := hcnt z; have := cnt_mem hz; omega
      · refine isBlack_congr (fun z hz => hcol0 z ?_) hbG
        have h0 := hcnt z; have := cnt_mem hz; omega
    · refine RR_congr (fun z hz => hcol0 z ?_) hsP
      have h0 := hcnt z; have := cnt_mem hz; omega
    · refine RR_congr (fun z hz => hcol0 z ?_) hsG
      have h0 := hcnt z; have := cnt_mem hz; omega
    · refine CtxRR_congr (fun z hz => hcol0 z ?_) hctx
      have h0 := hcnt z; have hm := cnt_mem hz
      simp only [List.count_append] at hm; omega
    · right
      show (m2.cell P).color = Colour.BLACK
      rw [hcol P, if_neg hPG, if_pos rfl]
  · cases ctx with
    | nil =>
      show (m2.cell P).color = Colour.BLACK
      rw [hcol P, if_neg hPG, if_pos rfl]
    | cons f rest =>
      have hb := hrb (by simp)
      obtain ⟨b, hb1, hb2⟩ := ctxTop_cons f rest (some P)
      rw [isBlack_iff (by rw [ptr_plug]; exact hb1)]
      rw [isBlack_iff (by rw [ptr_plug]; exact hb1)] at hb
      rw [hcol0 b, hb]
      have h0 := hcnt b; have hm := cnt_mem hb2
      simp only [List.count_append] at hm; omega
  · rw [Repr_plug] at hr2
    exact Repr_ptr_p hr2.2.2.2.2.1 hNew
  · rw [hcol P, if_neg hPG, if_pos rfl]
  · rw [hcol New, if_neg hNG, if_neg hNP]

theorem outerR {m : Mem} (ctx : List Frame) (s : Sh) {sibP sibG : Sh} (New P : Nat) {G : Nat}
    (hwf : WF m (plug ctx (.node sibG G (.node sibP P s))))
    (hNew : s.ptr = some New)
    (hcP : (m.cell P).color = Colour.RED) (hcG : (m.cell G).color = Colour.BLACK)
    (hs : RR m s) (hsP : RR m sibP) (hbP : isBlack m sibP)
    (hsG : RR m sibG) (hbG : isBlack m sibG) (hctx : CtxRR m ctx)
    (hrb : ctx ≠ [] → isBlack m (plug ctx (.node sibG G (.node sibP P s)))) :
    ∃ m2, swapRotateLeft m New = some m2 ∧
      WF m2 (plug ctx (.node (.node sibG G sibP) P s)) ∧
      m2.next = m.next ∧ KeysEq m m2 ∧
      RR m2 (plug ctx (.node (.node sibG G sibP) P s)) ∧
      isBlack m2 (plug ctx (.node (.node sibG G sibP) P s)) ∧
      (m2.cell New).p = some P ∧ (m2.cell P).color = Colour.BLACK ∧
      (m2.cell New).color = (m.cell New).color := by
  obtain ⟨hr, hroot, hnd⟩ := hwf
  have hr0 := hr
  rw [Repr_plug] at hr0
  obtain ⟨-, hG⟩ := hr0
  simp only [Repr] at hG
  obtain ⟨hGp, hGl, hGr, hsGr, ⟨hPp, hPl, hPr, hsPr, hsr⟩⟩ := hG
  have hNp : (m.cell New).p = some P := by
    cases s with
    | nil => simp [Sh.ptr] at hNew
    | node l a r =>
      simp only [ptr_node, Option.some.injEq] at hNew; subst hNew; exact hsr.1
  have hcnt := fun z => List.nodup_iff_count_le_one.1 hnd z
  simp only [addrs_plug, Sh.addrs, List.count_append, cnt_cons] at hcnt
  have hPG : P ≠ G := by
    rintro rfl; have h0 := hcnt P; rw [if_pos rfl] at h0; omega
  have hNs := cnt_mem (ptr_mem hNew)
  have hNP : New ≠ P := by
    rintro rfl; have h0 := hcnt New; rw [if_pos rfl] at h0; omega
  have hNG : New ≠ G := by
    rintro rfl; have h0 := hcnt New; rw [if_pos rfl] at h0; omega
  -- the two colour assignments
  let m' := (m.setColor P (m.cell G).color).setColor G (m.cell P).color
  have hwf' : Repr m' none (plug ctx (.node sibG G (.node sibP P s))) :=
    Repr_setColor _ _ (Repr_setColor _ _ hr)
  obtain ⟨m2, hm2, hr2, hroot2⟩ := LeftRotate_spec _ _ _ _ _ _ hwf' hroot hnd
  obtain ⟨hd2, hn2⟩ := LeftRotate_data hm2
  have hcol : ∀ z, (m2.cell z).color =
      if z = G then Colour.RED else if z = P then Colour.BLACK else (m.cell z).color := by
    intro z
    rw [(hd2 z).2.1]
    simp only [m', setColor_color, hcP, hcG]
  have hcol0 : ∀ z, (if P = z then 1 else 0) + (if G = z then 1 else 0) = 0 →
      (m2.cell z).color = (m.cell z).color := by
    intro z h
    have h1 : z ≠ P := by rintro rfl; rw [if_pos rfl] at h; omega
    have h2 : z ≠ G := by rintro rfl; rw [if_pos rfl] at h; omega
    rw [hcol z, if_neg h2, if_neg h1]
  have haddrs : (plug ctx (.node (.node sibG G sibP) P s)).addrs =
      (plug ctx (.node sibG G (.node sibP P s))).addrs := by
    simp [addrs_plug, Sh.addrs]
  refine ⟨m2, ?_, ⟨hr2, hroot2, haddrs ▸ hnd⟩, hn2, ?_, ?_, ?_, ?_, ?_, ?_⟩
  · unfold swapRotateLeft
    rw [hNp]; simp only
    rw [hPp]
    exact hm2
  · exact KeysEq_trans (KeysEq_trans (KeysEq_setColor _ _ _) (KeysEq_setColor _ _ _)) (DataEq_keys hd2)
  · rw [RR_plug]
    refine ⟨⟨?_, ⟨?_, ?_, ?_⟩, ?_⟩, ?_, ?_⟩
    · intro h; rw [hcol P, if_neg hPG, if_pos rfl] at h; cases h
    · intro _
      constructor
      · refine isBlack_congr (fun z hz => hcol0 z ?_) hbG
        have h0 := hcnt z; have := cnt_mem hz; omega
      · refine isBlack_congr (fun z hz => hcol0 z ?_) hbP
        have h0 := hcnt z; have := cnt_mem hz; omega
    · refine RR_congr (fun z hz => hcol0 z ?_) hsG
      have h0 := hcnt z; have := cnt_mem hz; omega
    · refine RR_congr (fun z hz => hcol0 z ?_) hsP
      have h0 := hcnt z; have := cnt_mem hz; omega
    · refine RR_congr (fun z hz => hcol0 z ?_) hs
      have h0 := hcnt z; have := cnt_mem hz; omega
    · refine CtxRR_congr (fun z hz => hcol0 z ?_) hctx
      have h0 := hcnt z; have hm := cnt_mem hz
      simp only [List.count_append] at hm; omega
    · right
      show (m2.cell P).color = Colour.BLACK
      rw [hcol P, if_neg hPG, if_pos rfl]
  · cases ctx with
    | nil =>
      show (m2.cell P).color = Colour.BLACK
      rw [hcol P, if_neg hPG, if_pos rfl]
    | cons f rest =>
      have hb := hrb (by simp)
      obtain ⟨b, hb1, hb2⟩ := ctxTop_cons f rest (some P)
      rw [isBlack_iff (by rw [ptr_plug]; exact hb1)]
      rw [isBlack_iff (by rw [ptr_plug]; exact hb1)] at hb
      rw [hcol0 b, hb]
      have h0 := hcnt b; have hm := cnt_mem hb2
      simp only [List.count_append] at hm; omega
  · rw [Repr_plug] at hr2
    exact Repr_ptr_p hr2.2.2.2.2.2 hNew
  · rw [hcol P, if_neg hPG, if_pos rfl]
  · rw [hcol New, if_neg hNG, if_neg hNP]

theorem repairLoop_exit {m : Mem} {New P : Nat} {rootp : Option Nat} (fuel : Nat)
    (hp : (m.cell New).p = some P) (hc : (m.cell P).color = Colour.BLACK) :
    repairLoop (fuel + 1) m rootp New = some m := by
  unfold repairLoop
  simp [hp, hc]

theorem RR_of_data {m m1 : Mem} (h : DataEq m m1) {s : Sh} : RR m s → RR m1 s :=
  RR_congr (fun z _ => (h z).2.1)

theorem isBlack_of_data {m m1 : Mem} (h : DataEq m m1) {s : Sh} : isBlack m s → isBlack m1 s :=
  isBlack_congr (fun z _ => (h z).2.1)

theorem CtxRR_of_data {m m1 : Mem} (h : DataEq m m1) {ctx : List Frame} :
    CtxRR m ctx → CtxRR m1 ctx :=
  CtxRR_congr (fun z _ => (h z).2.1)

theorem rotL_case {m : Mem} {rest : List Frame} {fP : Frame} {s sibG : Sh} {New G : Nat}
    (rootp : Option Nat) (fuel : Nat)
    (hNew : s.ptr = some New)
    (hwf : WF m (plug (fP :: .L G sibG :: rest) s))
    (hcN : (m.cell New).color = Colour.RED) (hcP : (m.cell fP.addr).color = Colour.RED)
    (hcG : (m.cell G).color = Colour.BLACK)
    (hs : RR m s) (hctx : CtxRR m (fP :: .L G sibG :: rest)) (hbG : isBlack m sibG)
    (hrb : isBlack m (plug (fP :: .L G sibG :: rest) s)) :
    ∃ m1, (if some New = (m.cell fP.addr).r then
        (LeftRotate m fP.addr).bind fun m1 =>
          (swapRotateRight m1 fP.addr).bind fun m2 => repairLoop (fuel + 1) m2 rootp fP.addr
      else (swapRotateRight m New).bind fun m2 => repairLoop (fuel + 1) m2 rootp New) = some m1 ∧
      Post m (plug (fP :: .L G sibG :: rest) s) rootp m1 := by
  have hr0 := hwf.repr
  rw [Repr_plug] at hr0
  obtain ⟨hc0, hsr⟩ := hr0
  have hcnt := fun z => List.nodup_iff_count_le_one.1 hwf.nodup z
  obtain ⟨hsG, -, hctx'⟩ := hctx.2.2
  simp only [Frame.sib] at hsG
  cases fP with
  | L P sibP =>
    simp only [Frame.addr] at hcP ⊢
    obtain ⟨hsP, hP2, -⟩ := hctx
    simp only [Frame.sib, Frame.addr] at hsP hP2
    have hbP := (hP2 hcP).1
    simp only [addrs_plug, ctxLeft, ctxRight, Sh.addrs, List.count_append, cnt_cons] at hcnt
    have hPr : (m.cell P).r = sibP.ptr := hc0.2.2.1
    have hne : ¬ some New = (m.cell P).r := by
      rw [hPr]; intro h
      have h0 := hcnt New; have := cnt_mem (ptr_mem hNew); have := cnt_mem (ptr_mem h.symm)
      omega
    rw [if_neg hne]
    obtain ⟨m2, hm2, hwf2, hn2, hk2, hrr2, hb2, hp2, hcP2, -⟩ :=
      outerL rest _ _ _ hwf hNew hcP hcG hs hsP hbP hsG hbG hctx' (fun _ => hrb)
    refine ⟨m2, ?_, _, hwf2, ?_, hn2, hk2, hrr2, Or.inr hb2⟩
    · rw [hm2]; exact repairLoop_exit fuel hp2 hcP2
    · simp [addrs_plug, Sh.addrs, ctxLeft, ctxRight]
  | R sibP P =>
    simp only [Frame.addr] at hcP ⊢
    obtain ⟨hsP, hP2, -⟩ := hctx
    simp only [Frame.sib, Frame.addr] at hsP hP2
    have hbP := (hP2 hcP).1
    have hPr : (m.cell P).r = s.ptr := hc0.2.2.1
    have he : some New = (m.cell P).r := by rw [hPr, hNew]
    rw [if_pos he]
    cases s with
    | nil => simp [Sh.ptr] at hNew
    | node sl N sr =>
      simp only [ptr_node, Option.some.injEq] at hNew
      subst hNew
      obtain ⟨hs1, hs2, hs3⟩ := hs
      obtain ⟨m1, hm1, hr1, hroot1⟩ :=
        LeftRotate_spec (.L G sibG :: rest) sibP sl sr P N hwf.repr hwf.root hwf.nodup
      obtain ⟨hd1, hn1⟩ := LeftRotate_data hm1
      have hadd : (plug (.L G sibG :: rest) (.node (.node sibP P sl) N sr)).addrs =
          (plug (.R sibP P :: .L G sibG :: rest) (.node sl N sr)).addrs := by
        simp [addrs_plug, Sh.addrs, ctxLeft, ctxRight]
      have hwf1 : WF m1 (plug rest (.node (.node (.node sibP P sl) N sr) G sibG)) :=
        ⟨hr1, hroot1, hadd ▸ hwf.nodup⟩
      have hcN1 : (m1.cell N).color = Colour.RED := by rw [(hd1 N).2.1]; exact hcN
      have hcP1 : (m1.cell P).color = Colour.RED := by rw [(hd1 P).2.1]; exact hcP
      have hcG1 : (m1.cell G).color = Colour.BLACK := by rw [(hd1 G).2.1]; exact hcG
      have hs' : RR m1 (.node sibP P sl) :=
        RR_of_data hd1 ⟨fun _ => ⟨hbP, (hs1 hcN).1⟩, hsP, hs2⟩
      have hrb1 : rest ≠ [] → isBlack m1 (plug rest (.node (.node (.node sibP P sl) N sr) G sibG)) := by
        intro hne
        cases rest with
        | nil => exact absurd rfl hne
        | cons f rest2 =>
          rw [isBlack_plug_cons m1 f rest2 _ (.node (.node sibP P (.node sl N sr)) G sibG)]
          exact isBlack_of_data hd1 hrb
      obtain ⟨m2, hm2, hwf2, hn2, hk2, hrr2, hb2, hp2, hcP2, -⟩ :=
        outerL rest (.node sibP P sl) P N hwf1 rfl hcN1 hcG1 hs'
          (RR_of_data hd1 hs3) (isBlack_of_data hd1 (hs1 hcN).2) (RR_of_data hd1 hsG)
          (isBlack_of_data hd1 hbG) (CtxRR_of_data hd1 hctx') hrb1
      refine ⟨m2, ?_, _, hwf2, ?_, hn2.trans hn1, KeysEq_trans (DataEq_keys hd1) hk2, hrr2, Or.inr hb2⟩
      · rw [hm1]; simp only [Option.some_bind]
        rw [hm2]; simp only [Option.some_bind]
        exact repairLoop_exit fuel hp2 hcP2
      · simp [addrs_plug, Sh.addrs, ctxLeft, ctxRight]

theorem rotR_case {m : Mem} {rest : List Frame} {fP : Frame} {s sibG : Sh} {New G : Nat}
    (rootp : Option Nat) (fuel : Nat)
    (hNew : s.ptr = some New)
    (hwf : WF m (plug (fP :: .R sibG G :: rest) s))
    (hcN : (m.cell New).color = Colour.RED) (hcP : (m.cell fP.addr).color = Colour.RED)
    (hcG : (m.cell G).color = Colour.BLACK)
    (hs : RR m s) (hctx : CtxRR m (fP :: .R sibG G :: rest)) (hbG : isBlack m sibG)
    (hrb : isBlack m (plug (fP :: .R sibG G :: rest) s)) :
    ∃ m1, (if some New = (m.cell fP.addr).l then
        (RightRotate m fP.addr).bind fun m1 =>
          (swapRotateLeft m1 fP.addr).bind fun m2 => repairLoop (fuel + 1) m2 rootp fP.addr
      else (swapRotateLeft m New).bind fun m2 => repairLoop (fuel + 1) m2 rootp New) = some m1 ∧
      Post m (plug (fP :: .R sibG G :: rest) s) rootp m1 := by
  have hr0 := hwf.repr
  rw [Repr_plug] at hr0
  obtain ⟨hc0, hsr⟩ := hr0
  have hcnt := fun z => List.nodup_iff_count_le_one.1 hwf.nodup z
  obtain ⟨hsG, -, hctx'⟩ := hctx.2.2
  simp only [Frame.sib] at hsG
  cases fP with
  | R sibP P =>
    simp only [Frame.addr] at hcP ⊢
    obtain ⟨hsP, hP2, -⟩ := hctx
    simp only [Frame.sib, Frame.addr] at hsP hP2
    have hbP := (hP2 hcP).1
    simp only [addrs_plug, ctxLeft, ctxRight, Sh.addrs, List.count_append, cnt_cons] at hcnt
    have hPl : (m.cell P).l = sibP.ptr := hc0.2.1
    have hne : ¬ some New = (m.cell P).l := by
      rw [hPl]; intro h
      have h0 := hcnt New; have := cnt_mem (ptr_mem hNew); have := cnt_mem (ptr_mem h.symm)
      omega
    rw [if_neg hne]
    obtain ⟨m2, hm2, hwf2, hn2, hk2, hrr2, hb2, hp2, hcP2, -⟩ :=
      outerR rest _ _ _ hwf hNew hcP hcG hs hsP hbP hsG hbG hctx' (fun _ => hrb)
    refine ⟨m2, ?_, _, hwf2, ?_, hn2, hk2, hrr2, Or.inr hb2⟩
    · rw [hm2]; exact repairLoop_exit fuel hp2 hcP2
    · simp [addrs_plug, Sh.addrs, ctxLeft, ctxRight]
  | L P sibP =>
    simp only [Frame.addr] at hcP ⊢
    obtain ⟨hsP, hP2, -⟩ := hctx
    simp only [Frame.sib, Frame.addr] at hsP hP2
    have hbP := (hP2 hcP).1
    have hPl : (m.cell P).l = s.ptr := hc0.2.1
    have he : some New = (m.cell P).l := by rw [hPl, hNew]
    rw [if_pos he]
    cases s with
    | nil => simp [Sh.ptr] at hNew
    | node sl N sr =>
      simp only [ptr_node, Option.some.injEq] at hNew
      subst hNew
      obtain ⟨hs1, hs2, hs3⟩ := hs
      obtain ⟨m1, hm1, hr1, hroot1⟩ :=
        RightRotate_spec (.R sibG G :: rest) sibP sr sl P N hwf.repr hwf.root hwf.nodup
      obtain ⟨hd1, hn1⟩ := RightRotate_data hm1
      have hadd : (plug (.R sibG G :: rest) (.node sl N (.node sr P sibP))).addrs =
          (plug (.L P sibP :: .R sibG G :: rest) (.node sl N sr)).addrs := by
        simp [addrs_plug, Sh.addrs, ctxLeft, ctxRight]
      have hwf1 : WF m1 (plug rest (.node sibG G (.node sl N (.node sr P sibP)))) :=
        ⟨hr1, hroot1, hadd ▸ hwf.nodup⟩
      have hcN1 : (m1.cell N).color = Colour.RED := by rw [(hd1 N).2.1]; exact hcN
      have hcP1 : (m1.cell P).color = Colour.RED := by rw [(hd1 P).2.1]; exact hcP
      have hcG1 : (m1.cell G).color = Colour.BLACK := by rw [(hd1 G).2.1]; exact hcG
      have hs' : RR m1 (.node sr P sibP) :=
        RR_of_data hd1 ⟨fun _ => ⟨(hs1 hcN).2, hbP⟩, hs3, hsP⟩
      have hrb1 : rest ≠ [] → isBlack m1 (plug rest (.node sibG G (.node sl N (.node sr P sibP)))) := by
        intro hne
        cases rest with
        | nil => exact absurd rfl hne
        | cons f rest2 =>
          rw [isBlack_plug_cons m1 f rest2 _ (.node sibG G (.node (.node sl N sr) P sibP))]
          exact isBlack_of_data hd1 hrb
      obtain ⟨m2, hm2, hwf2, hn2, hk2, hrr2, hb2, hp2, hcP2, -⟩ :=
        outerR rest (.node sr P sibP) P N hwf1 rfl hcN1 hcG1 hs'
          (RR_of_data hd1 hs2) (isBlack_of_data hd1 (hs1 hcN).1) (RR_of_data hd1 hsG)
          (isBlack_of_data hd1 hbG) (CtxRR_of_data hd1 hctx') hrb1
      refine ⟨m2, ?_, _, hwf2, ?_, hn2.trans hn1, KeysEq_trans (DataEq_keys hd1) hk2, hrr2, Or.inr hb2⟩
      · rw [hm1]; simp only [Option.some_bind]
        rw [hm2]; simp only [Option.some_bind]
        exact repairLoop_exit fuel hp2 hcP2
      · simp [addrs_plug, Sh.addrs, ctxLeft, ctxRight]

theorem RR_fill (m : Mem) (f : Frame) (s : Sh) :
    RR m (f.fill s) ↔
      ((m.cell f.addr).color = Colour.RED → isBlack m s ∧ isBlack m f.sib) ∧ RR m s ∧
        RR m f.sib := by
  cases f with
  | L a sib => simp only [Frame.fill, RR, Frame.addr, Frame.sib]
  | R sib a => simp only [Frame.fill, RR, Frame.addr, Frame.sib]; tauto

theorem isBlack_fill (m : Mem) (f : Frame) (s : Sh) :
    isBlack m (f.fill s) ↔ (m.cell f.addr).color = Colour.BLACK := by
  cases f <;> rfl

theorem cnt_fill (f : Frame) (s : Sh) (z : Nat) :
    (f.fill s).addrs.count z =
      s.addrs.count z + (if f.addr = z then 1 else 0) + f.sib.addrs.count z := by
  cases f <;> simp only [Frame.fill, Sh.addrs, Frame.addr, Frame.sib, List.count_append, cnt_cons] <;>
    omega

theorem cnt_ctx_cons (f : Frame) (rest : List Frame) (z : Nat) :
    (ctxLeft (f :: rest)).count z + (ctxRight (f :: rest)).count z =
      (if f.addr = z then 1 else 0) + f.sib.addrs.count z +
        ((ctxLeft rest).count z + (ctxRight rest).count z) := by
  cases f <;>
    simp only [ctxLeft, ctxRight, Frame.addr, Frame.sib, List.count_append, cnt_cons,
      List.count_nil] <;>
    omega

theorem cnt_plug (ctx : List Frame) (s : Sh) (z : Nat) :
    (plug ctx s).addrs.count z =
      s.addrs.count z + ((ctxLeft ctx).count z + (ctxRight ctx).count z) := by
  rw [addrs_plug]; simp only [List.count_append]; omega

theorem recolor_case {m : Mem} {rest : List Frame} (fP fG : Frame) {s yl yr : Sh} {Y : Nat}
    (hwf : WF m (plug (fP :: fG :: rest) s))
    (hY : fG.sib = .node yl Y yr)
    (hs : RR m s) (hctx : CtxRR m (fP :: fG :: rest))
    (hrb : isBlack m (plug (fP :: fG :: rest) s)) :
    WF (((m.setColor fP.addr Colour.BLACK).setColor fG.addr Colour.RED).setColor Y Colour.BLACK)
        (plug rest (fG.fill (fP.fill s))) ∧
      ((((m.setColor fP.addr Colour.BLACK).setColor fG.addr Colour.RED).setColor Y
        Colour.BLACK).cell fG.addr).color = Colour.RED ∧
      RR (((m.setColor fP.addr Colour.BLACK).setColor fG.addr Colour.RED).setColor Y Colour.BLACK)
        (fG.fill (fP.fill s)) ∧
      CtxRR (((m.setColor fP.addr Colour.BLACK).setColor fG.addr Colour.RED).setColor Y Colour.BLACK)
        rest ∧
      (rest ≠ [] → isBlack
        (((m.setColor fP.addr Colour.BLACK).setColor fG.addr Colour.RED).setColor Y Colour.BLACK)
        (plug rest (fG.fill (fP.fill s)))) := by
  have hcnt : ∀ z, s.addrs.count z + ((if fP.addr = z then 1 else 0) + fP.sib.addrs.count z +
      ((if fG.addr = z then 1 else 0) + (yl.addrs.count z + ((if Y = z then 1 else 0) +
        yr.addrs.count z)) + ((ctxLeft rest).count z + (ctxRight rest).count z))) ≤ 1 := by
    intro z
    have := List.nodup_iff_count_le_one.1 hwf.nodup z
    rw [cnt_plug, cnt_ctx_cons, cnt_ctx_cons, hY] at this
    simpa only [Sh.addrs, List.count_append, cnt_cons] using this
  have hPG : fP.addr ≠ fG.addr := by
    intro h; have h0 := hcnt fP.addr; rw [if_pos rfl, if_pos h.symm] at h0; omega
  have hPY : fP.addr ≠ Y := by
    intro h; have h0 := hcnt fP.addr; rw [if_pos rfl, if_pos h.symm] at h0; omega
  have hGY : fG.addr ≠ Y := by
    intro h; have h0 := hcnt fG.addr; rw [if_pos rfl, if_pos h.symm] at h0; omega
  have hcol0 : ∀ z, (if fP.addr = z then 1 else 0) + (if fG.addr = z then 1 else 0) +
      (if Y = z then 1 else 0) = 0 →
      ((((m.setColor fP.addr Colour.BLACK).setColor fG.addr Colour.RED).setColor Y
        Colour.BLACK).cell z).color = (m.cell z).color := by
    intro z h
    have h1 : z ≠ fP.addr := by rintro rfl; rw [if_pos rfl] at h; omega
    have h2 : z ≠ fG.addr := by rintro rfl; rw [if_pos rfl] at h; omega
    have h3 : z ≠ Y := by rintro rfl; rw [if_pos rfl] at h; omega
    simp [h1, h2, h3]
  obtain ⟨hsP, hP2, hsG, hG2, hrest⟩ := hctx
  rw [hY] at hsG
  obtain ⟨-, hyl, hyr⟩ := hsG
  refine ⟨⟨Repr_setColor _ _ (Repr_setColor _ _ (Repr_setColor _ _ hwf.repr)), hwf.root,
    hwf.nodup⟩, by simp [hGY], ?_, ?_, ?_⟩
  · rw [RR_fill, RR_fill, hY]
    refine ⟨fun _ => ⟨?_, ?_⟩, ⟨fun h => ?_, ?_, ?_⟩, ?_, ?_, ?_⟩
    · rw [isBlack_fill]; simp [hPG, hPY]
    · simp [isBlack]
    · simp [hPG, hPY] at h
    · refine RR_congr (fun z hz => hcol0 z ?_) hs
      have h0 := hcnt z; have := cnt_mem hz; omega
    · refine RR_congr (fun z hz => hcol0 z ?_) hsP
      have h0 := hcnt z; have := cnt_mem hz; omega
    · intro h; simp at h
    · refine RR_congr (fun z hz => hcol0 z ?_) hyl
      have h0 := hcnt z; have := cnt_mem hz; omega
    · refine RR_congr (fun z hz => hcol0 z ?_) hyr
      have h0 := hcnt z; have := cnt_mem hz; omega
  · refine CtxRR_congr (fun z hz => hcol0 z ?_) hrest
    have h0 := hcnt z; have hm := cnt_mem hz
    simp only [List.count_append] at hm; omega
  · intro hne
    cases rest with
    | nil => exact absurd rfl hne
    | cons f rest2 =>
      obtain ⟨b, hb1, hb2⟩ := ctxTop_cons f rest2 (fG.fill (fP.fill s)).ptr
      have hb : isBlack m (plug (f :: rest2) (fG.fill (fP.fill s))) := hrb
      rw [isBlack_iff (by rw [ptr_plug]; exact hb1)] at hb ⊢
      rw [hcol0 b, hb]
      have h0 := hcnt b; have hm := cnt_mem hb2
      simp only [List.count_append] at hm; omega

theorem addr_L (a : Nat) (s : Sh) : (Frame.L a s).addr = a := rfl

theorem addr_R (a : Nat) (s : Sh) : (Frame.R s a).addr = a := rfl

theorem sib_L (a : Nat) (s : Sh) : (Frame.L a s).sib = s := rfl

theorem sib_R (a : Nat) (s : Sh) : (Frame.R s a).sib = s := rfl

theorem Post_of_recolor {m m' m1 : Mem} {t : Sh} {rootp : Option Nat}
    (hk : KeysEq m m') (hn : m'.next = m.next) (h : Post m' t rootp m1) : Post m t rootp m1 := by
  obtain ⟨t1, h1, h2, h3, h4, h5, h6⟩ := h
  exact ⟨t1, h1, h2, h3.trans hn, KeysEq_trans hk h4, h5, h6⟩

theorem ReprCtx_p {m : Mem} {f : Frame} {rest : List Frame} {h : Option Nat}
    (hr : ReprCtx m (f :: rest) h) : (m.cell f.addr).p = ctxPar rest := by
  cases f <;> exact hr.1

theorem repairLoop_spec : ∀ (fuel : Nat) (ctx : List Frame) (s : Sh) (m : Mem) (New : Nat),
    s.ptr = some New → WF m (plug ctx s) → (m.cell New).color = Colour.RED → RR m s →
    CtxRR m ctx → (ctx ≠ [] → isBlack m (plug ctx s)) → ctx.length < fuel →
    ∃ m1, repairLoop fuel m m.root New = some m1 ∧ Post m (plug ctx s) m.root m1 := by
  intro fuel
  induction fuel with
  | zero => intro ctx s m New _ _ _ _ _ _ h; omega
  | succ fuel ih =>
    intro ctx s m New hNew hwf hcN hs hctx hrb hlen
    cases ctx with
    | nil =>
      have hroot : m.root = some New := by rw [hwf.root]; exact hNew
      refine ⟨m, ?_, s, hwf, rfl, rfl, KeysEq_refl _, hs, Or.inl rfl⟩
      rw [repairLoop]; simp [hroot]
    | cons fP rest =>
      have hr0 := hwf.repr
      rw [Repr_plug] at hr0
      obtain ⟨hc0, hsr⟩ := hr0
      have hNp : (m.cell New).p = some fP.addr := Repr_ptr_p hsr hNew
      have hcnt := fun z => List.nodup_iff_count_le_one.1 hwf.nodup z
      have hne : some New ≠ m.root := by
        obtain ⟨b, hb1, hb2⟩ := ctxTop_cons fP rest s.ptr
        rw [hwf.root, ptr_plug, hb1]
        intro h
        simp only [Option.some.injEq] at h
        subst h
        have h0 := hcnt New; rw [cnt_plug] at h0
        have := cnt_mem (ptr_mem hNew); have hm := cnt_mem hb2
        simp only [List.count_append] at hm; omega
      have hNB : (m.cell New).color ≠ Colour.BLACK := by rw [hcN]; decide
      by_cases hcP : (m.cell fP.addr).color = Colour.RED
      · cases rest with
        | nil =>
          have := hrb (by simp)
          rw [plug, plug, isBlack_fill, hcP] at this
          cases this
        | cons fG rest' =>
          have hPp : (m.cell fP.addr).p = some fG.addr := ReprCtx_p hc0
          have hcG : (m.cell fG.addr).color = Colour.BLACK := (hctx.2.1 hcP).2
          have hrb' := hrb (by simp)
          obtain ⟨fuel0, rfl⟩ : ∃ k, fuel = k + 1 := ⟨fuel - 1, by simp at hlen; omega⟩
          rw [repairLoop]
          simp only [hne, hNB, ne_eq, not_false_eq_true, and_self, if_true, hNp, hcP, hPp]
          have hcnt2 : ∀ z, s.addrs.count z + ((if fP.addr = z then 1 else 0) +
              fP.sib.addrs.count z + ((if fG.addr = z then 1 else 0) + fG.sib.addrs.count z +
              ((ctxLeft rest').count z + (ctxRight rest').count z))) ≤ 1 := by
            intro z
            have := hcnt z
            rwa [cnt_plug, cnt_ctx_cons, cnt_ctx_cons] at this
          have hfill : (fP.fill s).ptr = some fP.addr := by cases fP <;> rfl
          have hc1 : ReprCtx m (fG :: rest') (some fP.addr) := by
            have := hwf.repr
            rw [show plug (fP :: fG :: rest') s = plug (fG :: rest') (fP.fill s) from rfl,
              Repr_plug, hfill] at this
            exact this.1
          cases fG with
          | L G sibG =>
            simp only [addr_L, sib_L] at hcG hPp hcnt2 ⊢
            have hGl : (m.cell G).l = some fP.addr := hc1.2.1
            have hGr : (m.cell G).r = sibG.ptr := hc1.2.2.1
            rw [if_pos hGl.symm, hGr]
            cases sibG with
            | nil =>
              simp only [Sh.ptr]
              exact rotL_case m.root fuel0 hNew hwf hcN hcP hcG hs hctx trivial hrb'
            | node yl Y yr =>
              simp only [ptr_node]
              by_cases hcY : (m.cell Y).color = Colour.RED
              · rw [if_pos hcY]
                obtain ⟨h1, h2, h3, h4, h5⟩ := recolor_case fP (.L G (.node yl Y yr))
                  hwf rfl hs hctx hrb'
                obtain ⟨m1, hm1, hpost⟩ := ih rest' ((Frame.L G (.node yl Y yr)).fill (fP.fill s))
                  _ G rfl h1 h2 h3 h4 h5 (by simp at hlen ⊢; omega)
                refine ⟨m1, hm1, ?_⟩
                exact Post_of_recolor (KeysEq_trans (KeysEq_trans (KeysEq_setColor _ _ _)
                  (KeysEq_setColor _ _ _)) (KeysEq_setColor _ _ _)) rfl hpost
              · rw [if_neg hcY]
                exact rotL_case m.root fuel0 hNew hwf hcN hcP hcG hs hctx (not_red hcY) hrb'
          | R sibG G =>
            simp only [addr_R, sib_R] at hcG hPp hcnt2 ⊢
            have hGl : (m.cell G).l = sibG.ptr := hc1.2.1
            have hne2 : ¬ some fP.addr = (m.cell G).l := by
              rw [hGl]; intro h
              have h0 := hcnt2 fP.addr; have := cnt_mem (ptr_mem h.symm)
              rw [if_pos rfl] at h0; omega
            rw [if_neg hne2, hGl]
            cases sibG with
            | nil =>
              simp only [Sh.ptr]
              exact rotR_case m.root fuel0 hNew hwf hcN hcP hcG hs hctx trivial hrb'
            | node yl Y yr =>
              simp only [ptr_node]
              by_cases hcY : (m.cell Y).color = Colour.RED
              · rw [if_pos hcY]
                obtain ⟨h1, h2, h3, h4, h5⟩ := recolor_case fP (.R (.node yl Y yr) G)
                  hwf rfl hs hctx hrb'
                obtain ⟨m1, hm1, hpost⟩ := ih rest' ((Frame.R (.node yl Y yr) G).fill (fP.fill s))
                  _ G rfl h1 h2 h3 h4 h5 (by simp at hlen ⊢; omega)
                refine ⟨m1, hm1, ?_⟩
                exact Post_of_recolor (KeysEq_trans (KeysEq_trans (KeysEq_setColor _ _ _)
                  (KeysEq_setColor _ _ _)) (KeysEq_setColor _ _ _)) rfl hpost
              · rw [if_neg hcY]
                exact rotR_case m.root fuel0 hNew hwf hcN hcP hcG hs hctx (not_red hcY) hrb'
      · refine ⟨m, ?_, plug (fP :: rest) s, hwf, rfl, rfl, KeysEq_refl _, ?_, Or.inl rfl⟩
        · rw [repairLoop]; simp [hne, hNB, hNp, hcP]
        · rw [RR_plug]; exact ⟨hs, hctx, Or.inl (not_red hcP)⟩

theorem insertLoop_spec (m : Mem) (X : Nat) : ∀ (s : Sh) (ctx : List Frame) (fuel : Nat),
    Repr m (ctxPar ctx) s → s.height < fuel → Ordered m s →
    (∀ z ∈ ctxLeft ctx, (m.cell z).Key ≤ (m.cell X).Key) →
    (∀ z ∈ ctxRight ctx, (m.cell X).Key < (m.cell z).Key) →
    ∃ ctx1, insertLoop m X fuel s.ptr (ctxPar ctx) = some (ctxPar ctx1) ∧
      plug ctx1 .nil = plug ctx s ∧
      (∀ z ∈ ctxLeft ctx1, (m.cell z).Key ≤ (m.cell X).Key) ∧
      (∀ z ∈ ctxRight ctx1, (m.cell X).Key < (m.cell z).Key) ∧
      ((s = .nil ∧ ctx1 = ctx) ∨ ∃ f rest, ctx1 = f :: rest ∧ dirOK m (m.cell X).Key f) := by
  intro s
  induction s with
  | nil =>
    intro ctx fuel _ hf _ hl hr
    obtain ⟨fuel0, rfl⟩ : ∃ k, fuel = k + 1 := ⟨fuel - 1, by simp [Sh.height] at hf; omega⟩
    exact ⟨ctx, by simp [insertLoop, Sh.ptr], rfl, hl, hr, Or.inl ⟨rfl, rfl⟩⟩
  | node l a r ihl ihr =>
    intro ctx fuel hrep hf hord hl hr
    obtain ⟨fuel0, rfl⟩ : ∃ k, fuel = k + 1 := ⟨fuel - 1, by simp [Sh.height] at hf; omega⟩
    obtain ⟨hp, hll, hrl, hrepl, hrepr⟩ := hrep
    simp only [Ordered, Sh.addrs, List.pairwise_append, List.pairwise_cons, List.mem_cons,
      forall_eq_or_imp] at hord
    obtain ⟨hol, ⟨har, hor⟩, hlar⟩ := hord
    simp only [Sh.height] at hf
    rw [ptr_node, insertLoop]
    by_cases hk : (m.cell X).Key < (m.cell a).Key
    · rw [if_pos hk, hll]
      obtain ⟨ctx1, h1, h2, h3, h4, h5⟩ := ihl (.L a r :: ctx) fuel0 hrepl (by omega) hol
        (by simpa [ctxLeft] using hl)
        (by
          intro z hz
          simp only [ctxRight, List.mem_append, List.mem_cons] at hz
          rcases hz with (rfl | hz) | hz
          · exact hk
          · exact lt_of_lt_of_le hk (har z hz)
          · exact hr z hz)
      refine ⟨ctx1, h1, h2, h3, h4, ?_⟩
      rcases h5 with ⟨rfl, rfl⟩ | h5
      · exact Or.inr ⟨_, _, rfl, hk⟩
      · exact Or.inr h5
    · rw [if_neg hk, hrl]
      obtain ⟨ctx1, h1, h2, h3, h4, h5⟩ := ihr (.R l a :: ctx) fuel0 hrepr (by omega) hor
        (by
          intro z hz
          simp only [ctxLeft, List.mem_append, List.mem_cons, List.mem_singleton,
            List.not_mem_nil, or_false] at hz
          rcases hz with hz | hz | rfl
          · exact hl z hz
          · exact le_trans (hlar z hz).1 (not_lt.1 hk)
          · exact not_lt.1 hk)
        (by simpa [ctxRight] using hr)
      refine ⟨ctx1, h1, h2, h3, h4, ?_⟩
      rcases h5 with ⟨rfl, rfl⟩ | h5
      · exact Or.inr ⟨_, _, rfl, hk⟩
      · exact Or.inr h5

theorem insert_spec {m : Mem} {t : Sh} {X : Nat} (hwf : WF m t) (hX : X ∉ t.addrs)
    (hXp : (m.cell X).p = none) (hXl : (m.cell X).l = none) (hXr : (m.cell X).r = none)
    (hord : Ordered m t) (fuel : Nat) (hf : t.height < fuel) :
    ∃ m1 T ctx, insert fuel m m.root X = some (m1, T) ∧ plug ctx .nil = t ∧
      Repr m1 none (plug ctx (.node .nil X .nil)) ∧ T = (plug ctx (.node .nil X .nil)).ptr ∧
      DataEq m m1 ∧ m1.next = m.next ∧
      (∀ z ∈ ctxLeft ctx, (m.cell z).Key ≤ (m.cell X).Key) ∧
      (∀ z ∈ ctxRight ctx, (m.cell X).Key < (m.cell z).Key) := by
  cases t with
  | nil =>
    have hroot : m.root = none := hwf.root
    refine ⟨m, some X, [], by simp [insert, hroot], rfl, ⟨hXp, hXl, hXr, trivial, trivial⟩, rfl,
      DataEq_refl _, rfl, by simp [ctxLeft], by simp [ctxRight]⟩
  | node l a r =>
    have hroot : m.root = some a := hwf.root
    obtain ⟨ctx1, h1, h2, h3, h4, h5⟩ := insertLoop_spec m X (.node l a r) [] fuel hwf.repr hf hord
      (by simp [ctxLeft]) (by simp [ctxRight])
    rcases h5 with ⟨h, -⟩ | ⟨f, rest, rfl, hdir⟩
    · cases h
    replace h2 : plug (f :: rest) .nil = .node l a r := h2
    have hr0 := hwf.repr
    rw [← h2, Repr_plug] at hr0
    obtain ⟨hc, -⟩ := hr0
    have hcnt := fun z => List.nodup_iff_count_le_one.1 hwf.nodup z
    simp only [← h2] at hcnt hX
    have hcX := List.count_eq_zero.2 hX
    simp only [cnt_plug, cnt_ctx_cons, Sh.addrs, List.count_nil] at hcnt hcX
    have hfX : f.addr ≠ X := by
      intro h; rw [if_pos h] at hcX; omega
    have hT : some a = (plug (f :: rest) (Sh.node .nil X .nil)).ptr := by
      have : (plug (f :: rest) .nil).ptr = some a := by rw [h2]; rfl
      rw [ptr_plug] at this ⊢
      exact this.symm
    simp only [ptr_node, ctxPar] at h1
    have hfr : ∀ (q : Option Nat) (z : Nat), (if f.addr = z then 1 else 0) = 0 → z ≠ X →
        LinksEq m ((m.setP X (some f.addr)).setL f.addr q) z ∧
        LinksEq m ((m.setP X (some f.addr)).setR f.addr q) z := by
      intro q z hz1 hz2
      have hz3 : z ≠ f.addr := by rintro rfl; rw [if_pos rfl] at hz1; omega
      simp [LinksEq, hz2, hz3]
    have hzX : ∀ z, (ctxLeft rest).count z + (ctxRight rest).count z + f.sib.addrs.count z ≥ 1 →
        z ≠ X := by
      rintro z hz rfl; omega
    cases f with
    | L q sib =>
      simp only [dirOK] at hdir
      simp only [addr_L, sib_L] at hfX hcnt hcX hfr hzX h1
      obtain ⟨c1, c2, c3, c4, c5⟩ := hc
      refine ⟨(m.setP X (some q)).setL q (some X), some a, .L q sib :: rest, ?_, h2, ?_, hT,
        ?_, rfl, h3, h4⟩
      · simp [insert, hroot, h1, hfX, hdir]
      · rw [Repr_plug]
        refine ⟨⟨by simpa [hfX] using c1, by simp [ptr_node], by simpa using c3, ?_, ?_⟩, ?_⟩
        · refine Repr_congr (fun z hz => (hfr _ z ?_ ?_).1) _ c4
          · have h0 := hcnt z; have := cnt_mem hz; omega
          · apply hzX; have := cnt_mem hz; omega
        · refine ReprCtx_congr (fun z hz => (hfr _ z ?_ ?_).1) _ c5
          · have h0 := hcnt z; have hm := cnt_mem hz
            simp only [List.count_append] at hm; omega
          · apply hzX; have hm := cnt_mem hz
            simp only [List.count_append] at hm; omega
        · simp [Repr, ctxPar, addr_L, hfX.symm, hXl, hXr, Sh.ptr]
      · intro z; simp
    | R sib q =>
      simp only [dirOK] at hdir
      simp only [addr_R, sib_R] at hfX hcnt hcX hfr hzX h1
      obtain ⟨c1, c2, c3, c4, c5⟩ := hc
      refine ⟨(m.setP X (some q)).setR q (some X), some a, .R sib q :: rest, ?_, h2, ?_, hT,
        ?_, rfl, h3, h4⟩
      · simp [insert, hroot, h1, hfX, hdir]
      · rw [Repr_plug]
        refine ⟨⟨by simpa [hfX] using c1, by simpa using c2, by simp [ptr_node], ?_, ?_⟩, ?_⟩
        · refine Repr_congr (fun z hz => (hfr _ z ?_ ?_).2) _ c4
          · have h0 := hcnt z; have := cnt_mem hz; omega
          · apply hzX; have := cnt_mem hz; omega
        · refine ReprCtx_congr (fun z hz => (hfr _ z ?_ ?_).2) _ c5
          · have h0 := hcnt z; have hm := cnt_mem hz
            simp only [List.count_append] at hm; omega
          · apply hzX; have hm := cnt_mem hz
            simp only [List.count_append] at hm; omega
        · simp [Repr, ctxPar, addr_R, hfX.symm, hXl, hXr, Sh.ptr]
      · intro z; simp

theorem height_le (s : Sh) : s.height ≤ s.addrs.length := by
  induction s with
  | nil => simp [Sh.height]
  | node l a r ihl ihr => simp only [Sh.height, Sh.addrs, List.length_append, List.length_cons]; omega

theorem ctx_length_le (ctx : List Frame) :
    ctx.length ≤ (ctxLeft ctx).length + (ctxRight ctx).length := by
  induction ctx with
  | nil => simp
  | cons f rest ih =>
    cases f <;>
      simp only [ctxLeft, ctxRight, List.length_append, List.length_cons, List.length_nil] <;>
      omega

theorem length_le_of_nodup_bound {l : List Nat} {n : Nat} (hnd : l.Nodup)
    (hb : ∀ a ∈ l, a < n) : l.length ≤ n := by
  have h1 : l.toFinset ⊆ Finset.range n := by
    intro a ha
    rw [List.mem_toFinset] at ha
    exact Finset.mem_range.2 (hb a ha)
  have h2 := Finset.card_le_card h1
  rwa [List.toFinset_card_of_nodup hnd, Finset.card_range] at h2

theorem isBlack_setBlack {m : Mem} {s : Sh} (r : Nat) (h : isBlack m s) :
    isBlack (m.setColor r Colour.BLACK) s := by
  cases s with
  | nil => trivial
  | node l a rr =>
    show ((m.setColor r Colour.BLACK).cell a).color = Colour.BLACK
    rw [setColor_color]; split
    · rfl
    · exact h

theorem RR_setBlack {m : Mem} {s : Sh} (r : Nat) (h : RR m s) :
    RR (m.setColor r Colour.BLACK) s := by
  induction s with
  | nil => trivial
  | node l a rr ihl ihr =>
    obtain ⟨h1, h2, h3⟩ := h
    refine ⟨fun hc => ?_, ihl h2, ihr h3⟩
    rw [setColor_color] at hc
    split at hc
    · cases hc
    · exact ⟨isBlack_setBlack r (h1 hc).1, isBlack_setBlack r (h1 hc).2⟩

theorem ctxTop_some (ctx : List Frame) (x : Nat) : ∃ r, ctxTop ctx (some x) = some r := by
  induction ctx generalizing x with
  | nil => exact ⟨x, rfl⟩
  | cons f rest ih => exact ih f.addr

theorem addNode_spec {m : Mem} {t : Sh} (hinv : Inv m t) (k i : Int) :
    ∃ m1 t1 L1 L2, addNode m k i = some m1 ∧ Inv m1 t1 ∧ m1.next = m.next + 1 ∧
      t.addrs = L1 ++ L2 ∧ t1.addrs = L1 ++ m.next :: L2 ∧
      (∀ a ∈ L1, (m.cell a).Key ≤ k) ∧ (∀ a ∈ L2, k < (m.cell a).Key) ∧
      (∀ a, a ≠ m.next → (m1.cell a).Key = (m.cell a).Key ∧
        (m1.cell a).index = (m.cell a).index) ∧
      (m1.cell m.next).Key = k ∧ (m1.cell m.next).index = i := by
  obtain ⟨hwf, hbound, hrr, hblack, hord⟩ := hinv
  -- allocation
  have hm0 : ∃ m0 : Mem, m0 = { (m.set m.next ⟨none, none, none, k, Colour.RED, i⟩) with
      next := m.next + 1 } := ⟨_, rfl⟩
  obtain ⟨m0, hm0⟩ := hm0
  have hcellX : m0.cell m.next = ⟨none, none, none, k, Colour.RED, i⟩ := by
    rw [hm0]; simp [Mem.set]
  have hcell : ∀ a, a ≠ m.next → m0.cell a = m.cell a := by
    intro a ha; rw [hm0]; simp [Mem.set, ha]
  have hnext0 : m0.next = m.next + 1 := by rw [hm0]
  have hroot0 : m0.root = m.root := by rw [hm0]; rfl
  have hfresh : ∀ a ∈ t.addrs, a ≠ m.next := fun a ha => Nat.ne_of_lt (hbound a ha)
  have hXt : m.next ∉ t.addrs := fun h => hfresh _ h rfl
  have hwf0 : WF m0 t :=
    ⟨Repr_congr (fun z hz => by simp [LinksEq, hcell z (hfresh z hz)]) _ hwf.repr,
      hroot0.trans hwf.root, hwf.nodup⟩
  have hord0 : Ordered m0 t := by
    refine List.Pairwise.imp_of_mem ?_ hord
    intro a b ha hb hab
    rw [hcell a (hfresh a ha), hcell b (hfresh b hb)]; exact hab
  have hlen : t.addrs.length ≤ m.next := length_le_of_nodup_bound hwf.nodup hbound
  have hht := height_le t
  obtain ⟨m1, T, ctx, hins, hplug, hr1, hT, hd1, hn1, hL, hR⟩ :=
    insert_spec hwf0 hXt (by rw [hcellX]) (by rw [hcellX]) (by rw [hcellX]) hord0
      (m0.next + 1) (by omega)
  have hXkey : (m0.cell m.next).Key = k := by rw [hcellX]
  rw [hXkey] at hL hR
  have hLm : ∀ a ∈ ctxLeft ctx, (m.cell a).Key ≤ k := by
    intro a ha
    have hmem : a ∈ t.addrs := by rw [← hplug, addrs_plug]; simp [ha]
    rw [← hcell a (hfresh a hmem)]; exact hL a ha
  have hRm : ∀ a ∈ ctxRight ctx, k < (m.cell a).Key := by
    intro a ha
    have hmem : a ∈ t.addrs := by rw [← hplug, addrs_plug]; simp [ha]
    rw [← hcell a (hfresh a hmem)]; exact hR a ha
  have haddr0 : t.addrs = ctxLeft ctx ++ ctxRight ctx := by
    rw [← hplug, addrs_plug]; simp [Sh.addrs]
  have haddr1 : (plug ctx (.node .nil m.next .nil)).addrs = ctxLeft ctx ++ m.next :: ctxRight ctx := by
    rw [addrs_plug]; simp [Sh.addrs]
  -- the store handed to the repair
  have hm3 : ∃ m3 : Mem, m3 = { m1 with root := T } := ⟨_, rfl⟩
  obtain ⟨m3, hm3⟩ := hm3
  have hc3 : m3.cell = m1.cell := by rw [hm3]
  have hn3 : m3.next = m.next + 1 := by rw [hm3]; exact hn1.trans hnext0
  have hroot3 : m3.root = T := by rw [hm3]
  have hcol3 : ∀ a, a ≠ m.next → (m3.cell a).color = (m.cell a).color := by
    intro a ha; rw [hc3, (hd1 a).2.1, hcell a ha]
  have hwf3 : WF m3 (plug ctx (.node .nil m.next .nil)) := by
    refine ⟨Repr_congr (fun z _ => by simp [LinksEq, hc3]) _ hr1, hroot3.trans hT, ?_⟩
    rw [haddr1]
    have := hwf.nodup
    rw [haddr0] at this hXt
    rw [List.nodup_append] at this ⊢
    refine ⟨this.1, List.nodup_cons.2 ⟨fun h => hXt (by simp [h]), this.2.1⟩, ?_⟩
    intro a ha hb
    rcases List.mem_cons.1 hb with rfl | hb
    · exact hXt (by simp [ha])
    · exact this.2.2 ha hb
  have hcX3 : (m3.cell m.next).color = Colour.RED := by
    rw [hc3, (hd1 _).2.1, hcellX]
  have hrr' := hrr
  rw [← hplug, RR_plug] at hrr'
  have hctx3 : CtxRR m3 ctx := by
    refine CtxRR_congr (fun z hz => hcol3 z ?_) hrr'.2.1
    exact hfresh z (by rw [haddr0]; exact hz)
  have hrb3 : ctx ≠ [] → isBlack m3 (plug ctx (.node .nil m.next .nil)) := by
    intro hne
    cases ctx with
    | nil => exact absurd rfl hne
    | cons f rest =>
      rw [isBlack_plug_cons m3 f rest _ .nil, hplug]
      exact isBlack_congr (fun z hz => hcol3 z (hfresh z hz)) hblack
  have hclen : ctx.length < m3.next + 1 := by
    have := ctx_length_le ctx
    have h2 : t.addrs.length = (ctxLeft ctx).length + (ctxRight ctx).length := by
      rw [haddr0, List.length_append]
    omega
  obtain ⟨m4, hm4, t1, hwf4, hadd4, hn4, hk4, hrr4, hb4⟩ :=
    repairLoop_spec (m3.next + 1) ctx (.node .nil m.next .nil) m3 m.next rfl hwf3 hcX3
      ⟨fun _ => ⟨trivial, trivial⟩, trivial, trivial⟩ hctx3 hrb3 hclen
  obtain ⟨r, hr⟩ : ∃ r, m3.root = some r := by
    rw [hroot3, hT, ptr_plug]; exact ctxTop_some ctx m.next
  have hkey5 : ∀ a, ((m4.setColor r Colour.BLACK).cell a).Key = (m0.cell a).Key ∧
      ((m4.setColor r Colour.BLACK).cell a).index = (m0.cell a).index := by
    intro a
    rw [setColor_Key, setColor_index, (hk4 a).1, (hk4 a).2, hc3, (hd1 a).1, (hd1 a).2.2]
    exact ⟨rfl, rfl⟩
  refine ⟨m4.setColor r Colour.BLACK, t1, ctxLeft ctx, ctxRight ctx, ?_, ?_, ?_, haddr0,
    hadd4.trans haddr1, hLm, hRm, ?_, ?_, ?_⟩
  · unfold addNode
    subst hm0 hm3
    dsimp only at hins hm4 hr ⊢
    rw [hins]
    dsimp only
    unfold RBinsert_and_repair
    rw [hm4]
    dsimp only
    rw [hr]
  · refine ⟨⟨Repr_setColor _ _ hwf4.repr, hwf4.root, hwf4.nodup⟩, ?_, RR_setBlack r hrr4, ?_, ?_⟩
    · intro a ha
      rw [hadd4, haddr1] at ha
      rw [setColor_next, hn4, hn3]
      rcases List.mem_append.1 ha with ha | ha
      · have := hbound a (by rw [haddr0]; simp [ha]); omega
      · rcases List.mem_cons.1 ha with rfl | ha
        · omega
        · have := hbound a (by rw [haddr0]; simp [ha]); omega
    · rcases hb4 with hb4 | hb4
      · have hp : t1.ptr = some r := by rw [← hwf4.root, hb4, hr]
        rw [isBlack_iff hp]; simp
      · exact isBlack_setBlack r hb4
    · show List.Pairwise _ t1.addrs
      rw [hadd4, haddr1]
      have ho := hord
      rw [Ordered, haddr0, List.pairwise_append] at ho
      have hk : ∀ a ∈ t.addrs, ((m4.setColor r Colour.BLACK).cell a).Key = (m.cell a).Key := by
        intro a ha; rw [(hkey5 a).1, hcell a (hfresh a ha)]
      have hkX : ((m4.setColor r Colour.BLACK).cell m.next).Key = k := by
        rw [(hkey5 _).1, hcellX]
      rw [List.pairwise_append]
      refine ⟨?_, List.pairwise_cons.2 ⟨?_, ?_⟩, ?_⟩
      · refine List.Pairwise.imp_of_mem ?_ ho.1
        intro a b ha hb hab
        rw [hk a (by rw [haddr0]; simp [ha]), hk b (by rw [haddr0]; simp [hb])]; exact hab
      · intro a ha
        rw [hkX, hk a (by rw [haddr0]; simp [ha])]; exact le_of_lt (hRm a ha)
      · refine List.Pairwise.imp_of_mem ?_ ho.2.1
        intro a b ha hb hab
        rw [hk a (by rw [haddr0]; simp [ha]), hk b (by rw [haddr0]; simp [hb])]; exact hab
      · intro a ha b hb
        rcases List.mem_cons.1 hb with rfl | hb
        · rw [hkX, hk a (by rw [haddr0]; simp [ha])]; exact hLm a ha
        · rw [hk a (by rw [haddr0]; simp [ha]), hk b (by rw [haddr0]; simp [hb])]
          exact ho.2.2 a ha b hb
  · rw [setColor_next, hn4, hn3]
  · intro a ha
    rw [(hkey5 a).1, (hkey5 a).2, hcell a ha]; exact ⟨rfl, rfl⟩
  · rw [(hkey5 _).1, hcellX]
  · rw [(hkey5 _).2, hcellX]

theorem inorder_eq {m : Mem} : ∀ (s : Sh) (par : Option Nat) (fuel : Nat),
    Repr m par s → s.height < fuel → inorder m fuel s.ptr = some s.addrs := by
  intro s
  induction s with
  | nil =>
    intro par fuel _ hf
    obtain ⟨fuel0, rfl⟩ : ∃ k, fuel = k + 1 := ⟨fuel - 1, by omega⟩
    rfl
  | node l a r ihl ihr =>
    intro par fuel hr hf
    obtain ⟨fuel0, rfl⟩ : ∃ k, fuel = k + 1 := ⟨fuel - 1, by omega⟩
    obtain ⟨-, h2, h3, h4, h5⟩ := hr
    simp only [Sh.height] at hf
    rw [ptr_node, inorder, h2, h3, ihl _ fuel0 h4 (by omega), ihr _ fuel0 h5 (by omega)]
    rfl

theorem Inv_inorder {m : Mem} {t : Sh} (h : Inv m t) :
    inorder m (m.next + 1) m.root = some t.addrs := by
  rw [h.wf.root]
  refine inorder_eq t none _ h.wf.repr ?_
  have := height_le t
  have := length_le_of_nodup_bound h.wf.nodup h.bound
  omega

theorem Inv_empty : Inv Mem.empty .nil :=
  ⟨⟨trivial, rfl, List.nodup_nil⟩, by simp [Sh.addrs], trivial, trivial, List.Pairwise.nil⟩

theorem pairsOf_append (m : Mem) (l1 l2 : List Nat) :
    pairsOf m (l1 ++ l2) = pairsOf m l1 ++ pairsOf m l2 := by
  simp [pairsOf]

theorem pairsOf_congr {m m1 : Mem} {l : List Nat}
    (h : ∀ a ∈ l, (m1.cell a).Key = (m.cell a).Key ∧ (m1.cell a).index = (m.cell a).index) :
    pairsOf m1 l = pairsOf m l := by
  refine List.map_congr_left fun a ha => ?_
  rw [(h a ha).1, (h a ha).2]

theorem addNode_pairs {m : Mem} {t : Sh} (hinv : Inv m t) (k i : Int) :
    ∃ m1 t1 P1 P2, addNode m k i = some m1 ∧ Inv m1 t1 ∧ m1.next = m.next + 1 ∧
      pairsOf m t.addrs = P1 ++ P2 ∧ pairsOf m1 t1.addrs = P1 ++ (k, i) :: P2 ∧
      (∀ p ∈ P1, p.1 ≤ k) ∧ (∀ p ∈ P2, k < p.1) := by
  obtain ⟨m1, t1, L1, L2, h1, h2, h3, h4, h5, h6, h7, h8, h9, h10⟩ := addNode_spec hinv k i
  have hfresh : ∀ a ∈ t.addrs, a ≠ m.next := fun a ha => Nat.ne_of_lt (hinv.bound a ha)
  have hc1 : pairsOf m1 L1 = pairsOf m L1 :=
    pairsOf_congr fun a ha => h8 a (hfresh a (by rw [h4]; simp [ha]))
  have hc2 : pairsOf m1 L2 = pairsOf m L2 :=
    pairsOf_congr fun a ha => h8 a (hfresh a (by rw [h4]; simp [ha]))
  refine ⟨m1, t1, pairsOf m L1, pairsOf m L2, h1, h2, h3, by rw [h4, pairsOf_append], ?_, ?_, ?_⟩
  · rw [h5, pairsOf_append, hc1]
    simp only [pairsOf, List.map_cons, h9, h10] at hc2 ⊢
    rw [hc2]
  · intro p hp
    simp only [pairsOf, List.mem_map] at hp
    obtain ⟨a, ha, rfl⟩ := hp
    exact h6 a ha
  · intro p hp
    simp only [pairsOf, List.mem_map] at hp
    obtain ⟨a, ha, rfl⟩ := hp
    exact h7 a ha

theorem addAll_spec : ∀ (cs : List (Int × Int)) (m : Mem) (t : Sh), Inv m t →
    ∃ m1 t1, addAll m cs = some m1 ∧ Inv m1 t1 ∧ m1.next = m.next + cs.length ∧
      (pairsOf m1 t1.addrs).Perm (pairsOf m t.addrs ++ cs) := by
  intro cs
  induction cs with
  | nil => intro m t h; exact ⟨m, t, rfl, h, rfl, by simp⟩
  | cons c cs ih =>
    intro m t h
    obtain ⟨k, i⟩ := c
    obtain ⟨m1, t1, P1, P2, h1, h2, h3, h4, h5, -, -⟩ := addNode_pairs h k i
    obtain ⟨m2, t2, g1, g2, g3, g4⟩ := ih m1 t1 h2
    refine ⟨m2, t2, ?_, g2, ?_, ?_⟩
    · simp only [addAll, h1, Option.some_bind]; exact g1
    · rw [g3, h3, List.length_cons]; omega
    · refine g4.trans ?_
      rw [h5, h4]
      have : (P1 ++ (k, i) :: P2).Perm ((k, i) :: (P1 ++ P2)) := List.perm_middle
      exact (this.append_right cs).trans (@List.perm_middle _ (k, i) (P1 ++ P2) cs).symm

theorem RR_pointwise {m : Mem} : ∀ (s : Sh) (par : Option Nat), Repr m par s → RR m s →
    ∀ a ∈ s.addrs, (m.cell a).color = Colour.RED →
      ∀ c, ((m.cell a).l = some c ∨ (m.cell a).r = some c) → (m.cell c).color = Colour.BLACK := by
  intro s
  induction s with
  | nil => intro _ _ _ a ha; simp [Sh.addrs] at ha
  | node l b r ihl ihr =>
    intro par hr hrr a ha hc c hch
    obtain ⟨-, h2, h3, h4, h5⟩ := hr
    obtain ⟨g1, g2, g3⟩ := hrr
    simp only [Sh.addrs, List.mem_append, List.mem_cons] at ha
    rcases ha with ha | rfl | ha
    · exact ihl _ h4 g2 a ha hc c hch
    · rcases hch with hch | hch
      · rw [h2] at hch; exact (isBlack_iff hch).1 (g1 hc).1
      · rw [h3] at hch; exact (isBlack_iff hch).1 (g1 hc).2
    · exact ihr _ h5 g3 a ha hc c hch

/-- C5 (evaluation at the failing input): with `K = 3` and the costs `5, 3, 9, 7` the print
command writes four identifiers, `1 0 3 2`: the node with index `0` is printed in second
place without `ContrStmp` being incremented. -/
theorem C5_print_emits_four_for_K3 :
    printedAfter 3 [5, 3, 9, 7] = some ['1', ' ', '0', ' ', '3', ' ', '2'] := by
  decide

/-- C7 (evaluation at the failing input): after inserting the costs `1, 2, 3` the four paths
from the root to a missing child pass through `2, 2, 1, 1` black nodes. -/
theorem C7_black_counts_differ : builtBlackCounts [1, 2, 3] = some [2, 2, 1, 1] := by
  decide

/-- C8 (evaluation at the failing input): the eight increasing costs `1 .. 8` build a tree of
height `7`, and `2 ^ 7` exceeds `(8 + 1) ^ 2`. -/
theorem C8_height_of_increasing_run :
    builtHeight [1, 2, 3, 4, 5, 6, 7, 8] = some 7 ∧ ¬ 2 ^ 7 ≤ (8 + 1) ^ 2 := by
  decide

/-- C9: every sequence of insertions from the empty tree returns a store, all inserted nodes
are in the tree, and no red node of the tree has a red child. -/
theorem C9_no_red_node_has_red_child (cs : List (Int × Int)) :
    ∃ m nodes, addAll Mem.empty cs = some m ∧ inorder m (m.next + 1) m.root = some nodes ∧
      nodes.length = cs.length ∧
      ∀ a ∈ nodes, (m.cell a).color = Colour.RED →
        ∀ c, ((m.cell a).l = some c ∨ (m.cell a).r = some c) →
          (m.cell c).color = Colour.BLACK := by
  obtain ⟨m, t, h1, h2, -, h4⟩ := addAll_spec cs Mem.empty .nil Inv_empty
  refine ⟨m, t.addrs, h1, (Inv_inorder h2), ?_, RR_pointwise t none h2.wf.repr h2.rr⟩
  have := h4.length_eq
  simpa [pairsOf, Sh.addrs] using this

/-- C10: after every insertion into a tree built from the empty tree, the node the global
`root` points to is black. -/
theorem C10_root_is_black (c : Int × Int) (cs : List (Int × Int)) :
    ∃ m r, addAll Mem.empty (c :: cs) = some m ∧ m.root = some r ∧
      (m.cell r).color = Colour.BLACK := by
  obtain ⟨m, t, h1, h2, -, h4⟩ := addAll_spec (c :: cs) Mem.empty .nil Inv_empty
  have hlen := h4.length_eq
  cases t with
  | nil => simp [pairsOf, Sh.addrs] at hlen
  | node l r rr => exact ⟨m, r, h1, h2.wf.root, h2.black⟩

theorem plug_append (c1 c2 : List Frame) (s : Sh) : plug (c1 ++ c2) s = plug c2 (plug c1 s) := by
  induction c1 generalizing s with
  | nil => rfl
  | cons f rest ih => exact ih (f.fill s)

theorem exists_plug_of_mem {a : Nat} : ∀ (t : Sh), a ∈ t.addrs →
    ∃ ctx l r, t = plug ctx (.node l a r) := by
  intro t
  induction t with
  | nil => intro h; simp [Sh.addrs] at h
  | node l b r ihl ihr =>
    intro h
    simp only [Sh.addrs, List.mem_append, List.mem_cons] at h
    rcases h with h | rfl | h
    · obtain ⟨ctx, l1, r1, he⟩ := ihl h
      exact ⟨ctx ++ [.L b r], l1, r1, by rw [plug_append, ← he]; rfl⟩
    · exact ⟨[], l, r, rfl⟩
    · obtain ⟨ctx, l1, r1, he⟩ := ihr h
      exact ⟨ctx ++ [.R l b], l1, r1, by rw [plug_append, ← he]; rfl⟩

theorem split_unique (l1 : List Nat) {l2 r1 r2 : List Nat} {a : Nat} (hnd : (l1 ++ a :: r1).Nodup)
    (h : l1 ++ a :: r1 = l2 ++ a :: r2) : l1 = l2 ∧ r1 = r2 := by
  induction l1 generalizing l2 with
  | nil =>
    cases l2 with
    | nil => simpa using h
    | cons b l2 =>
      simp only [List.nil_append, List.cons_append, List.cons.injEq] at h
      obtain ⟨rfl, h⟩ := h
      simp only [List.nil_append, List.nodup_cons] at hnd
      exact absurd (by rw [h]; simp) hnd.1
  | cons b l1 ih =>
    cases l2 with
    | nil =>
      simp only [List.nil_append, List.cons_append, List.cons.injEq] at h
      obtain ⟨rfl, h⟩ := h
      simp only [List.cons_append, List.nodup_cons] at hnd
      exact absurd (by simp) hnd.1
    | cons c l2 =>
      simp only [List.cons_append, List.cons.injEq] at h
      obtain ⟨rfl, h⟩ := h
      simp only [List.cons_append, List.nodup_cons] at hnd
      obtain ⟨h1, h2⟩ := ih hnd.2 h
      exact ⟨by rw [h1], h2⟩

theorem min_val_spec {m : Mem} : ∀ (l : Sh) (a : Nat) (r : Sh) (par : Option Nat) (fuel : Nat),
    Repr m par (.node l a r) → (Sh.node l a r).height < fuel →
    min_val m fuel (some a) = (Sh.node l a r).addrs.head? := by
  intro l
  induction l with
  | nil =>
    intro a r par fuel hr hf
    obtain ⟨fuel0, rfl⟩ : ∃ k, fuel = k + 1 := ⟨fuel - 1, by omega⟩
    obtain ⟨-, h2, -⟩ := hr
    simp only [Sh.ptr] at h2
    simp [min_val, h2, Sh.addrs]
  | node ll b lr ihl _ =>
    intro a r par fuel hr hf
    obtain ⟨fuel0, rfl⟩ : ∃ k, fuel = k + 1 := ⟨fuel - 1, by omega⟩
    obtain ⟨-, h2, -, h4, -⟩ := hr
    simp only [ptr_node] at h2
    simp only [Sh.height] at hf
    have := ihl b lr (some a) fuel0 h4 (by simp only [Sh.height]; omega)
    simp only [min_val, h2, this]
    simp [Sh.addrs]

theorem climb_spec {m : Mem} : ∀ (ctx : List Frame) (x : Nat) (fuel : Nat),
    ReprCtx m ctx (some x) →
    (∀ z, (if x = z then 1 else 0) + ((ctxLeft ctx).count z + (ctxRight ctx).count z) ≤ 1) →
    ctx.length < fuel →
    climb m fuel x (ctxPar ctx) = some (ctxRight ctx).head? := by
  intro ctx
  induction ctx with
  | nil =>
    intro x fuel _ _ hf
    obtain ⟨fuel0, rfl⟩ : ∃ k, fuel = k + 1 := ⟨fuel - 1, by omega⟩
    rfl
  | cons f rest ih =>
    intro x fuel hr hc hf
    obtain ⟨fuel0, rfl⟩ : ∃ k, fuel = k + 1 := ⟨fuel - 1, by omega⟩
    simp only [List.length_cons] at hf
    cases f with
    | L y sib =>
      obtain ⟨-, -, h3, -, -⟩ := hr
      have hne : (m.cell y).r ≠ some x := by
        rw [h3]; intro h
        have h0 := hc x; have := cnt_mem (ptr_mem h)
        rw [cnt_ctx_cons, sib_L, if_pos rfl] at h0; omega
      simp [climb, ctxPar, addr_L, hne, ctxRight]
    | R sib y =>
      obtain ⟨h1, -, h3, -, h5⟩ := hr
      have := ih y fuel0 h5 (by
        intro z
        have h0 := hc z
        rw [cnt_ctx_cons, addr_R] at h0; omega) (by omega)
      rw [← h1] at this
      simp only [climb, ctxPar, addr_R, h3, if_true, this, ctxRight]

theorem succ_step {m : Mem} {t : Sh} (hwf : WF m t) (K : Int) (h fuel : Nat)
    {pre post : List Nat} {a b : Nat} (hL : t.addrs = pre ++ a :: b :: post)
    (hh : t.addrs.length < h) (cnt : Int) (hne : cnt ≠ K) :
    successor K m h (fuel + 1) (some a) cnt = successor K m h fuel (some b) (cnt + 1) := by
  have ha : a ∈ t.addrs := by rw [hL]; simp
  obtain ⟨ctx, l, r, rfl⟩ := exists_plug_of_mem t ha
  have hnd := hwf.nodup
  have hcnt := fun z => List.nodup_iff_count_le_one.1 hnd z
  have hlen := hh
  rw [addrs_plug] at hL hnd hlen
  simp only [Sh.addrs, List.append_assoc, List.cons_append] at hL hnd hlen
  have hsp := split_unique (ctxLeft ctx ++ l.addrs) (by simpa using hnd) (by simpa using hL)
  obtain ⟨-, hpost⟩ := hsp
  have hr0 := hwf.repr
  rw [Repr_plug] at hr0
  obtain ⟨hc, hp, -, hr, -, hrr⟩ := hr0
  simp only [cnt_plug, Sh.addrs, List.count_append, cnt_cons] at hcnt
  simp only [List.length_append, List.length_cons] at hlen
  cases r with
  | nil =>
    simp only [Sh.ptr] at hr hc
    simp only [Sh.addrs, List.nil_append] at hpost
    have hcl := climb_spec ctx a h hc (fun z => by have := hcnt z; omega)
      (by have := ctx_length_le ctx; omega)
    rw [hpost] at hcl
    simp only [successor, hne, if_false, hr, hp, hcl, List.head?_cons]
  | node rl c rr =>
    simp only [ptr_node] at hr
    have hmv := min_val_spec rl c rr (some a) h hrr (by
      have := height_le (.node rl c rr); omega)
    have hhead : (Sh.node rl c rr).addrs.head? = some b := by
      have hne' : (Sh.node rl c rr).addrs ≠ [] := by simp [Sh.addrs]
      cases hx : (Sh.node rl c rr).addrs with
      | nil => exact absurd hx hne'
      | cons x xs =>
        rw [hx] at hpost
        simp only [List.cons_append, List.cons.injEq] at hpost
        rw [hpost.1]; rfl
    rw [hhead] at hmv
    simp only [successor, hne, if_false, hr, hmv]

theorem successor_spec {m : Mem} {t : Sh} (hwf : WF m t) (K : Int) (h : Nat)
    (hh : t.addrs.length < h) : ∀ (d fuel : Nat) (pre post : List Nat) (a : Nat) (cnt : Int),
    t.addrs = pre ++ a :: post → K = cnt + d → d ≤ post.length → d < fuel →
    successor K m h fuel (some a) cnt = ((a :: post)[d]?).map fun x => (m.cell x).Key := by
  intro d
  induction d with
  | zero =>
    intro fuel pre post a cnt _ hK _ hf
    obtain ⟨fuel0, rfl⟩ : ∃ k, fuel = k + 1 := ⟨fuel - 1, by omega⟩
    have : cnt = K := by simp at hK; exact hK.symm
    simp [successor, this]
  | succ d ih =>
    intro fuel pre post a cnt hL hK hd hf
    obtain ⟨fuel0, rfl⟩ : ∃ k, fuel = k + 1 := ⟨fuel - 1, by omega⟩
    cases post with
    | nil => simp at hd
    | cons b post =>
      have hne : cnt ≠ K := by push_cast at hK; omega
      rw [succ_step hwf K h fuel0 hL hh cnt hne]
      rw [ih fuel0 (pre ++ [a]) post b (cnt + 1) (by simpa using hL) (by push_cast at hK ⊢; omega)
        (by simpa using hd) (by omega)]
      simp

theorem rankQuery_spec {m : Mem} {t : Sh} (hinv : Inv m t) (K : Nat) (h1 : 1 ≤ K)
    (h2 : K ≤ t.addrs.length) :
    rankQuery K m = (t.addrs[K - 1]?).map fun x => (m.cell x).Key := by
  have hlen := length_le_of_nodup_bound hinv.wf.nodup hinv.bound
  cases t with
  | nil => simp [Sh.addrs] at h2; omega
  | node l a r =>
    have hmv := min_val_spec l a r none (m.next + 1) hinv.wf.repr (by
      have := height_le (.node l a r); omega)
    have hroot : m.root = some a := hinv.wf.root
    cases hx : (Sh.node l a r).addrs with
    | nil => simp [Sh.addrs] at hx
    | cons x post =>
      rw [hx] at hmv h2 hlen
      simp only [List.head?_cons] at hmv
      simp only [List.length_cons] at h2 hlen
      have := successor_spec hinv.wf K (m.next + 1) (by rw [hx, List.length_cons]; omega)
        (K - 1) (m.next + 1) [] post x 1 (by rw [hx]; rfl) (by omega) (by omega)
        (by omega)
      simp only [rankQuery, hroot, hmv, this]

theorem keys_sorted_of_inv {m : Mem} {t : Sh} (h : Inv m t) :
    ((pairsOf m t.addrs).map Prod.fst).Sorted (· ≤ ·) := by
  have := h.ord
  simp only [pairsOf, List.map_map, List.Sorted, List.pairwise_map]
  exact this

theorem keys_eq_sort {m : Mem} {t : Sh} (h : Inv m t) {cs : List (Int × Int)}
    (hp : (pairsOf m t.addrs).Perm cs) :
    (pairsOf m t.addrs).map Prod.fst = (cs.map Prod.fst).insertionSort (· ≤ ·) := by
  refine List.eq_of_perm_of_sorted ?_ (keys_sorted_of_inv h) (List.sorted_insertionSort _ _)
  exact (hp.map _).trans (List.perm_insertionSort _ _).symm

/-- C3: in a tree built from the empty tree by any sequence of insertions, the rank query
`successor(min_val(root), 1)` with `1 ≤ K ≤ n` returns the `K`-th smallest inserted cost,
duplicates counted. -/
theorem C3_rank_query_is_kth_smallest (cs : List (Int × Int)) (K : Nat) (h1 : 1 ≤ K)
    (h2 : K ≤ cs.length) :
    ∃ m v, addAll Mem.empty cs = some m ∧ rankQuery K m = some v ∧
      ((cs.map Prod.fst).insertionSort (· ≤ ·))[K - 1]? = some v := by
  obtain ⟨m, t, g1, g2, -, g4⟩ := addAll_spec cs Mem.empty .nil Inv_empty
  simp only [pairsOf, Sh.addrs, List.map_nil, List.nil_append] at g4
  have hlen : t.addrs.length = cs.length := by
    have := g4.length_eq; simpa using this
  have hq := rankQuery_spec g2 K h1 (by omega)
  have hk := keys_eq_sort g2 g4
  have hlt : K - 1 < t.addrs.length := by omega
  refine ⟨m, (m.cell t.addrs[K - 1]).Key, g1, ?_, ?_⟩
  · rw [hq, List.getElem?_eq_getElem hlt]; rfl
  · rw [← hk]
    simp [pairsOf, List.getElem?_eq_getElem hlt]

/-- C3 at a concrete input: three insertions, rank 2. -/
theorem C3_rank_query_witness :
    1 ≤ 2 ∧ 2 ≤ [((10 : Int), (0 : Int)), (5, 1), (20, 2)].length ∧
      ∃ m v, addAll Mem.empty [(10, 0), (5, 1), (20, 2)] = some m ∧ rankQuery (2 : Nat) m = some v ∧
        (([((10 : Int), (0 : Int)), (5, 1), (20, 2)].map Prod.fst).insertionSort (· ≤ ·))[2 - 1]? =
          some v :=
  ⟨by decide, by decide, C3_rank_query_is_kth_smallest [(10, 0), (5, 1), (20, 2)] 2 (by decide)
    (by decide)⟩

theorem printFold_append (K : Int) (m : Mem) (l1 l2 : List Nat) (st : Int × List Char) :
    printFold K m (l1 ++ l2) st = (printFold K m l1 st).bind (printFold K m l2) := by
  induction l1 generalizing st with
  | nil => rfl
  | cons a rest ih =>
    simp only [List.cons_append, printFold]
    cases printNode K (m.cell a) st with
    | none => rfl
    | some st1 => exact ih st1

theorem output_print_eq (K : Int) {m : Mem} : ∀ (s : Sh) (par : Option Nat) (fuel : Nat)
    (st : Int × List Char), Repr m par s → s.height < fuel →
    output_print K m fuel s.ptr st = printFold K m s.addrs st := by
  intro s
  induction s with
  | nil =>
    intro par fuel st _ hf
    obtain ⟨fuel0, rfl⟩ : ∃ k, fuel = k + 1 := ⟨fuel - 1, by omega⟩
    rfl
  | node l a r ihl ihr =>
    intro par fuel st hr hf
    obtain ⟨fuel0, rfl⟩ : ∃ k, fuel = k + 1 := ⟨fuel - 1, by omega⟩
    obtain ⟨-, h2, h3, h4, h5⟩ := hr
    simp only [Sh.height] at hf
    rw [ptr_node, output_print, h2, h3, ihl _ fuel0 _ h4 (by omega)]
    simp only [Sh.addrs]
    rw [printFold_append]
    cases printFold K m l.addrs st with
    | none => rfl
    | some st1 =>
      simp only [Option.some_bind, printFold]
      cases printNode K (m.cell a) st1 with
      | none => rfl
      | some st2 => exact ihr _ fuel0 _ h5 (by omega)

theorem printFold_stop (K : Int) (m : Mem) (l : List Nat) (c : Int) (out : List Char)
    (h0 : c ≠ 0) (hK : ¬ c < K) : printFold K m l (c, out) = some (c, out) := by
  induction l with
  | nil => rfl
  | cons a rest ih => simp [printFold, printNode, h0, hK, ih]

theorem digitsLoop_some : ∀ (cap : Nat) (x : Int) (acc : List Int), x < 10 ^ cap →
    ∃ ds, digitsLoop cap x acc = some ds := by
  intro cap
  induction cap with
  | zero =>
    intro x acc hx
    have : ¬ x > 0 := by simp at hx; omega
    exact ⟨acc, by rw [digitsLoop]; simp [this]⟩
  | succ cap ih =>
    intro x acc hx
    by_cases h : x > 0
    · obtain ⟨ds, hds⟩ := ih (x / 10) (x % 10 :: acc) (by
        rw [pow_succ] at hx
        exact Int.ediv_lt_of_lt_mul (by norm_num) hx)
      exact ⟨ds, by rw [digitsLoop]; simp [h, hds]⟩
    · exact ⟨acc, by rw [digitsLoop]; simp [h]⟩

theorem printNode_some (K : Int) (T : node) (st : Int × List Char)
    (h : T.index < 10 ^ 10) : ∃ st1, printNode K T st = some st1 := by
  obtain ⟨ds, hds⟩ := digitsLoop_some 10 T.index [] h
  unfold printNode printDigits
  rw [hds]
  by_cases h1 : st.1 = 0 <;> by_cases h2 : T.index = 0 <;> by_cases h3 : st.1 < K <;>
    simp [h1, h2, h3]

theorem printFold_some (K : Int) (m : Mem) : ∀ (l : List Nat) (st : Int × List Char),
    (∀ a ∈ l, (m.cell a).index < 10 ^ 10) → ∃ st1, printFold K m l st = some st1 := by
  intro l
  induction l with
  | nil => intro st _; exact ⟨st, rfl⟩
  | cons a rest ih =>
    intro st h
    obtain ⟨st1, h1⟩ := printNode_some K (m.cell a) st (h a (by simp))
    obtain ⟨st2, h2⟩ := ih st1 (fun b hb => h b (by simp [hb]))
    exact ⟨st2, by simp [printFold, h1, h2]⟩

theorem printCommand_eq (K : Int) {m : Mem} {t : Sh} (h : Inv m t) :
    printCommand K m = (printFold K m t.addrs (0, [])).map Prod.snd := by
  unfold printCommand
  rw [h.wf.root, output_print_eq K t none _ _ h.wf.repr (by
    have := height_le t
    have := length_le_of_nodup_bound h.wf.nodup h.bound
    omega)]

theorem stream_snoc (cs : List Int) (c : Int) :
    stream (cs ++ [c]) = stream cs ++ [(c, (cs.length : Int))] := by
  unfold stream
  rw [List.length_append, List.length_singleton, List.range_succ, List.map_append,
    List.zip_append (by simp)]
  rfl

theorem take_orderedInsert (x : Int × Int) : ∀ (K : Nat) (X : List (Int × Int)),
    (X.orderedInsert lexLE x).take K = ((X.take K).orderedInsert lexLE x).take K := by
  intro K
  induction K with
  | zero => intro X; simp
  | succ k ih =>
    intro X
    cases X with
    | nil => simp
    | cons b X =>
      by_cases h : lexLE x b
      · simp only [List.orderedInsert, h, if_true, List.take_succ_cons, List.cons.injEq, true_and]
        cases k with
        | zero => simp
        | succ j => simp [List.take_take]
      · simp only [List.orderedInsert, h, if_false, List.take_succ_cons, List.cons.injEq, true_and]
        exact ih X

theorem orderedInsert_of_all_lt (x : Int × Int) : ∀ (A : List (Int × Int)),
    (∀ p ∈ A, ¬ lexLE x p) → A.orderedInsert lexLE x = A ++ [x] := by
  intro A
  induction A with
  | nil => intro _; rfl
  | cons b A ih =>
    intro h
    have hb : ¬ lexLE x b := h b (by simp)
    simp only [List.orderedInsert, hb, if_false, List.cons_append, List.cons.injEq, true_and]
    exact ih fun p hp => h p (by simp [hp])

theorem sort_snoc (l : List (Int × Int)) (x : Int × Int) :
    (l ++ [x]).insertionSort lexLE = (l.insertionSort lexLE).orderedInsert lexLE x := by
  refine List.eq_of_perm_of_sorted ?_ (List.sorted_insertionSort _ _)
    ((List.sorted_insertionSort _ _).orderedInsert _ _)
  refine (List.perm_insertionSort _ _).trans ?_
  refine List.perm_append_singleton _ _ |>.trans ?_
  refine (List.Perm.cons _ (List.perm_insertionSort lexLE l).symm).trans ?_
  exact (List.perm_orderedInsert _ _ _).symm

theorem sorted_insert_at {P1 P2 : List (Int × Int)} {c n : Int}
    (hs : (P1 ++ P2).Sorted lexLE) (h1 : ∀ p ∈ P1, p.1 ≤ c) (h2 : ∀ p ∈ P2, c < p.1)
    (hi : ∀ p ∈ P1 ++ P2, p.2 < n) : (P1 ++ (c, n) :: P2).Sorted lexLE := by
  unfold List.Sorted at hs ⊢
  rw [List.pairwise_append] at hs ⊢
  refine ⟨hs.1, List.pairwise_cons.2 ⟨fun q hq => Or.inl (h2 q hq), hs.2.1⟩, ?_⟩
  intro p hp q hq
  rcases List.mem_cons.1 hq with rfl | hq
  · have := h1 p hp
    have := hi p (by simp [hp])
    unfold lexLE
    simp only
    omega
  · exact hs.2.2 p hp q hq

theorem insert_at_eq_orderedInsert {P1 P2 : List (Int × Int)} {c n : Int}
    (hs : (P1 ++ P2).Sorted lexLE) (h1 : ∀ p ∈ P1, p.1 ≤ c) (h2 : ∀ p ∈ P2, c < p.1)
    (hi : ∀ p ∈ P1 ++ P2, p.2 < n) :
    P1 ++ (c, n) :: P2 = (P1 ++ P2).orderedInsert lexLE (c, n) := by
  refine List.eq_of_perm_of_sorted ?_ (sorted_insert_at hs h1 h2 hi) (hs.orderedInsert _ _)
  exact List.perm_middle.trans (List.perm_orderedInsert _ _ _).symm

theorem length_pairsOf (m : Mem) (l : List Nat) : (pairsOf m l).length = l.length := by
  simp [pairsOf]

theorem insert_branch {m : Mem} {t : Sh} (hinv : Inv m t) (hs : (pairsOf m t.addrs).Sorted lexLE)
    (n : Int) (hi : ∀ p ∈ pairsOf m t.addrs, p.2 < n) (c : Int) :
    ∃ m1 t1, addNode m c n = some m1 ∧ Inv m1 t1 ∧
      pairsOf m1 t1.addrs = (pairsOf m t.addrs).orderedInsert lexLE (c, n) := by
  obtain ⟨m1, t1, P1, P2, h1, h2, -, h4, h5, h6, h7⟩ := addNode_pairs hinv c n
  refine ⟨m1, t1, h1, h2, ?_⟩
  rw [h5, h4]
  rw [h4] at hs hi
  exact insert_at_eq_orderedInsert hs h6 h7 hi

theorem MInv_insert {K : Nat} {cs : List Int} {st : State} {t t1 : Sh} {m1 : Mem} (c v : Int)
    (hinv : Inv st.mem t) (h : MInv K cs st) (hinv1 : Inv m1 t1)
    (hp : pairsOf m1 t1.addrs =
      (pairsOf st.mem t.addrs).orderedInsert lexLE (c, (cs.length : Int)))
    (hv : (K : Int) < 20000 → K ≤ cs.length + 1 →
      ((pairsOf m1 t1.addrs)[K - 1]?).map Prod.fst = some v) :
    MInv K (cs ++ [c]) ⟨m1, v, st.count + 1⟩ := by
  obtain ⟨t0, g1, g2, g3, g4, g5, g6, g7⟩ := h
  have ht : t0.addrs = t.addrs := by
    have h1 := Inv_inorder g1
    rw [Inv_inorder hinv] at h1
    exact (Option.some.inj h1).symm
  rw [ht] at g3 g4 g5 g6 g7
  refine ⟨t1, hinv1, ?_, ?_, ?_, ?_, ?_, ?_⟩
  · show st.count + 1 = _
    rw [g2]; simp
  · rw [hp]; exact g3.orderedInsert _ _
  · intro p hp1
    rw [hp, List.mem_orderedInsert] at hp1
    simp only [List.length_append, List.length_singleton]
    rcases hp1 with rfl | hp1
    · simp
    · have := g4 p hp1; push_cast; omega
  · rw [hp, stream_snoc, sort_snoc, take_orderedInsert, g5, ← take_orderedInsert]
  · have := congrArg List.length hp
    rw [length_pairsOf, List.orderedInsert_length, length_pairsOf] at this
    simp only [List.length_append, List.length_singleton]
    omega
  · intro h1 h2
    simp only [List.length_append, List.length_singleton] at h2
    exact hv h1 h2

theorem fst_le_of_sorted {ps : List (Int × Int)} (hs : ps.Sorted lexLE) {K : Nat} {v : Int}
    (hK : 1 ≤ K) (hv : (ps[K - 1]?).map Prod.fst = some v) :
    ∀ p ∈ ps.take K, p.1 ≤ v := by
  intro p hp
  obtain ⟨i, hi, rfl⟩ := List.mem_take_iff_getElem.1 hp
  have hlt : K - 1 < ps.length := by
    by_contra hcon
    rw [List.getElem?_eq_none (by omega)] at hv
    simp at hv
  rw [List.getElem?_eq_getElem hlt] at hv
  simp only [Option.map_some', Option.some.injEq] at hv
  rw [← hv]
  rcases Nat.lt_or_ge i (K - 1) with h | h
  · have := List.pairwise_iff_getElem.1 hs i (K - 1) (by omega) hlt h
    unfold lexLE at this
    omega
  · have : i = K - 1 := by omega
    subst this
    exact le_refl _

theorem MInv_skip {K : Nat} {cs : List Int} {st : State} (c : Int) (hK : 1 ≤ K)
    (h : MInv K cs st) (hK2 : (K : Int) < 20000) (hn : K ≤ cs.length)
    (hc : ¬ c < st.val_max) : MInv K (cs ++ [c]) ⟨st.mem, st.val_max, st.count + 1⟩ := by
  obtain ⟨t, g1, g2, g3, g4, g5, g6, g7⟩ := h
  have hv := g7 hK2 hn
  refine ⟨t, g1, ?_, g3, ?_, ?_, ?_, fun _ _ => hv⟩
  · show st.count + 1 = _
    rw [g2]; simp
  · intro p hp
    have := g4 p hp
    simp only [List.length_append, List.length_singleton]
    push_cast; omega
  · have hA : ((pairsOf st.mem t.addrs).take K).length = K := by
      rw [List.length_take, length_pairsOf]; omega
    have hall : ∀ p ∈ (pairsOf st.mem t.addrs).take K, ¬ lexLE (c, (cs.length : Int)) p := by
      intro p hp hle
      have h1 := fst_le_of_sorted g3 hK hv p hp
      have h2 := g4 p (List.mem_of_mem_take hp)
      unfold lexLE at hle
      simp only at hle
      omega
    rw [stream_snoc, sort_snoc, take_orderedInsert, ← g5, orderedInsert_of_all_lt _ _ hall,
      List.take_append_of_le_length (by omega), List.take_take]
    simp
  · simp only [List.length_append, List.length_singleton]
    omega

theorem rank_after_insert {m1 : Mem} {t1 : Sh} (hinv1 : Inv m1 t1) (K : Nat) (hK : 1 ≤ K)
    (hlen : K ≤ t1.addrs.length) :
    ∃ v, rankQuery K m1 = some v ∧ ((pairsOf m1 t1.addrs)[K - 1]?).map Prod.fst = some v := by
  have hq := rankQuery_spec hinv1 K hK hlen
  have hlt : K - 1 < t1.addrs.length := by omega
  refine ⟨(m1.cell t1.addrs[K - 1]).Key, ?_, ?_⟩
  · rw [hq, List.getElem?_eq_getElem hlt]; rfl
  · simp [pairsOf, List.getElem?_eq_getElem hlt]

theorem query_step (K : Nat) (hK : 1 ≤ K) (cs : List Int) (st : State) (c : Int)
    (h : MInv K cs st) :
    ∃ st1, query K st c = some st1 ∧ MInv K (cs ++ [c]) st1 ∧
      ∀ t, Inv st.mem t →
        ((¬ ((K : Int) < 20000 ∧ K ≤ cs.length ∧ ¬ c < st.val_max)) →
          ∃ t1, Inv st1.mem t1 ∧ pairsOf st1.mem t1.addrs =
            (pairsOf st.mem t.addrs).orderedInsert lexLE (c, (cs.length : Int))) ∧
        (((K : Int) < 20000 ∧ K ≤ cs.length ∧ ¬ c < st.val_max) → st1.mem = st.mem) := by
  have h0 := h
  obtain ⟨t, g1, g2, g3, g4, g5, g6, g7⟩ := h0
  have huniq : ∀ t2, Inv st.mem t2 → t2.addrs = t.addrs := by
    intro t2 h2
    have h1 := Inv_inorder g1
    rw [Inv_inorder h2] at h1
    exact Option.some.inj h1
  obtain ⟨m1, t1, a1, a2, a3⟩ := insert_branch g1 g3 (cs.length : Int) g4 c
  have hlen1 : t1.addrs.length = t.addrs.length + 1 := by
    have := congrArg List.length a3
    rwa [length_pairsOf, List.orderedInsert_length, length_pairsOf] at this
  rw [← g2] at a1
  have hins : ∀ t2, Inv st.mem t2 → ∃ t3, Inv m1 t3 ∧ pairsOf m1 t3.addrs =
      (pairsOf st.mem t2.addrs).orderedInsert lexLE (c, (cs.length : Int)) := by
    intro t2 h2
    exact ⟨t1, a2, by rw [huniq t2 h2]; exact a3⟩
  by_cases hK2 : (K : Int) < 20000
  · by_cases hn : cs.length < K
    · have hc1 : st.count < (K : Int) := by rw [g2]; exact_mod_cast hn
      have hc2 : ¬ (st.count ≥ (K : Int) ∧ c < st.val_max) := by
        intro hh; exact absurd hh.1 (by omega)
      by_cases hk : st.count + 1 = (K : Int)
      · obtain ⟨v, hv1, hv2⟩ := rank_after_insert a2 K hK (by
          rw [g2] at hk
          have : cs.length + 1 = K := by exact_mod_cast hk
          omega)
        refine ⟨⟨m1, v, st.count + 1⟩, ?_, MInv_insert c v g1 h a2 a3 (fun _ _ => hv2), ?_⟩
        · simp only [query, hK2, hc1, hc2, if_true, if_false, a1, hk, hv1, Option.map_some']
        · intro t2 h2
          exact ⟨fun _ => hins t2 h2, fun hh => absurd hh.2.1 (by omega)⟩
      · refine ⟨⟨m1, st.val_max, st.count + 1⟩, ?_, MInv_insert c _ g1 h a2 a3 (fun _ h2 => ?_), ?_⟩
        · simp only [query, hK2, hc1, hc2, if_true, if_false, a1, hk]
        · exfalso
          apply hk
          rw [g2]
          have : cs.length + 1 = K := by omega
          exact_mod_cast this
        · intro t2 h2
          exact ⟨fun _ => hins t2 h2, fun hh => absurd hh.2.1 (by omega)⟩
    · have hn' : K ≤ cs.length := by omega
      have hc1 : ¬ st.count < (K : Int) := by rw [g2]; exact_mod_cast hn
      have hk : ¬ st.count + 1 = (K : Int) := by
        rw [g2]; intro hh
        have : cs.length + 1 = K := by exact_mod_cast hh
        omega
      by_cases hc : c < st.val_max
      · have hc2 : st.count ≥ (K : Int) ∧ c < st.val_max := ⟨by omega, hc⟩
        obtain ⟨v, hv1, hv2⟩ := rank_after_insert a2 K hK (by omega)
        refine ⟨⟨m1, v, st.count + 1⟩, ?_, MInv_insert c v g1 h a2 a3 (fun _ _ => hv2), ?_⟩
        · simp only [query, hK2, hc1, hc2, if_true, if_false, a1, hk, hv1, Option.map_some',
            Option.some_bind, and_self]
        · intro t2 h2
          exact ⟨fun _ => hins t2 h2, fun hh => absurd hc hh.2.2⟩
      · have hc2 : ¬ (st.count ≥ (K : Int) ∧ c < st.val_max) := fun hh => hc hh.2
        refine ⟨⟨st.mem, st.val_max, st.count + 1⟩, ?_, MInv_skip c hK h hK2 hn' hc, ?_⟩
        · simp only [query, hK2, hc1, hc2, if_true, if_false, hk]
        · intro t2 _
          exact ⟨fun hh => absurd ⟨hK2, hn', hc⟩ hh, fun _ => rfl⟩
  · refine ⟨⟨m1, st.val_max, st.count + 1⟩, ?_,
      MInv_insert c _ g1 h a2 a3 (fun h1 _ => absurd h1 hK2), ?_⟩
    · simp only [query, hK2, if_false, a1, Option.map_some']
    · intro t2 h2
      exact ⟨fun _ => hins t2 h2, fun hh => absurd hh.1 hK2⟩

theorem MInv_init (K : Nat) (hK : 1 ≤ K) : MInv K [] State.init := by
  refine ⟨.nil, Inv_empty, rfl, ?_, ?_, ?_, ?_, ?_⟩
  · simp [pairsOf, Sh.addrs]
  · simp [pairsOf, Sh.addrs]
  · simp [pairsOf, Sh.addrs, stream]
  · simp [Sh.addrs]
  · intro _ h; simp only [List.length_nil] at h; omega

theorem queries_spec (K : Nat) (hK : 1 ≤ K) : ∀ (cs2 cs1 : List Int) (st : State),
    MInv K cs1 st → ∃ st1, queries K st cs2 = some st1 ∧ MInv K (cs1 ++ cs2) st1 := by
  intro cs2
  induction cs2 with
  | nil => intro cs1 st h; exact ⟨st, rfl, by simpa using h⟩
  | cons c cs2 ih =>
    intro cs1 st h
    obtain ⟨st1, h1, h2, -⟩ := query_step K hK cs1 st c h
    obtain ⟨st2, h3, h4⟩ := ih (cs1 ++ [c]) st1 h2
    exact ⟨st2, by simp only [queries, h1, Option.some_bind, h3], by simpa using h4⟩

theorem treePairs_of_inv {m : Mem} {t : Sh} (h : Inv m t) :
    treePairs m = some (pairsOf m t.addrs) := by
  unfold treePairs
  rw [Inv_inorder h]; rfl

theorem threshold_eq (K : Nat) (hK : 1 ≤ K) (hK2 : (K : Int) < 20000) (cs : List Int)
    (hn : K ≤ cs.length) :
    ∃ st, queries K State.init cs = some st ∧
      ((((stream cs).insertionSort lexLE)[K - 1]?).map Prod.fst) = some st.val_max := by
  obtain ⟨st, h1, t, g1, g2, g3, g4, g5, g6, g7⟩ := queries_spec K hK cs [] State.init
    (MInv_init K hK)
  simp only [List.nil_append] at g2 g4 g5 g6 g7
  refine ⟨st, h1, ?_⟩
  rw [← g7 hK2 hn]
  have h3 : (((stream cs).insertionSort lexLE).take K)[K - 1]? =
      ((pairsOf st.mem t.addrs).take K)[K - 1]? := by rw [g5]
  rw [List.getElem?_take_of_lt (by omega), List.getElem?_take_of_lt (by omega)] at h3
  rw [h3]

/-- The thresholds of the example of the specification: with `K = 3` the stored threshold is
`20` after the costs `10, 5, 20`, then `10` after the cost `2`, then `8` after the cost `8`. -/
theorem thresholds_of_example :
    (∃ st, queries 3 State.init [10, 5, 20] = some st ∧ st.val_max = 20) ∧
    (∃ st, queries 3 State.init [10, 5, 20, 2] = some st ∧ st.val_max = 10) ∧
    (∃ st, queries 3 State.init [10, 5, 20, 2, 8] = some st ∧ st.val_max = 8) := by
  refine ⟨?_, ?_, ?_⟩
  · obtain ⟨st, h1, h2⟩ := threshold_eq 3 (by decide) (by decide) [10, 5, 20] (by decide)
    refine ⟨st, h1, ?_⟩
    have h3 : ((((stream [10, 5, 20]).insertionSort lexLE)[3 - 1]?).map Prod.fst) = some 20 := by
      decide
    rw [h3] at h2
    exact (Option.some.inj h2).symm
  · obtain ⟨st, h1, h2⟩ := threshold_eq 3 (by decide) (by decide) [10, 5, 20, 2] (by decide)
    refine ⟨st, h1, ?_⟩
    have h3 : ((((stream [10, 5, 20, 2]).insertionSort lexLE)[3 - 1]?).map Prod.fst) =
        some 10 := by decide
    rw [h3] at h2
    exact (Option.some.inj h2).symm
  · obtain ⟨st, h1, h2⟩ := threshold_eq 3 (by decide) (by decide) [10, 5, 20, 2, 8] (by decide)
    refine ⟨st, h1, ?_⟩
    have h3 : ((((stream [10, 5, 20, 2, 8]).insertionSort lexLE)[3 - 1]?).map Prod.fst) =
        some 8 := by decide
    rw [h3] at h2
    exact (Option.some.inj h2).symm

/-- C2: after any stream of query costs processed by the retention policy of `main` with
`K ≥ 1`, the first `min K n` in-order `(cost, sequenceId)` pairs of the tree are the first
`min K n` pairs of the whole stream sorted by cost, ties by identifier. -/
theorem C2_tree_keeps_true_top_K (K : Nat) (hK : 1 ≤ K) (cs : List Int) :
    ∃ st ps, queries K State.init cs = some st ∧ treePairs st.mem = some ps ∧
      ps.take (min K cs.length) = ((stream cs).insertionSort lexLE).take (min K cs.length) := by
  obtain ⟨st, h1, t, g1, -, -, -, g5, -, -⟩ := queries_spec K hK cs [] State.init
    (MInv_init K hK)
  simp only [List.nil_append] at g5
  refine ⟨st, _, h1, treePairs_of_inv g1, ?_⟩
  have := congrArg (List.take (min K cs.length)) g5
  simpa [List.take_take] using this

/-- C2 at a concrete input: `K = 3` and the five costs of the example. -/
theorem C2_tree_keeps_true_top_K_witness :
    1 ≤ 3 ∧ ∃ st ps, queries (3 : Nat) State.init [10, 5, 20, 2, 8] = some st ∧
      treePairs st.mem = some ps ∧
      ps.take (min 3 [(10 : Int), 5, 20, 2, 8].length) =
        ((stream [10, 5, 20, 2, 8]).insertionSort lexLE).take
          (min 3 [(10 : Int), 5, 20, 2, 8].length) :=
  ⟨by decide, C2_tree_keeps_true_top_K 3 (by decide) [10, 5, 20, 2, 8]⟩

/-- C4: with `1 ≤ K < 20000`, after any stream `cs` the next query of cost `c` is processed;
once `K` queries have been processed the stored threshold is the `K`-th smallest cost of the
tree; the query is inserted (in order, with identifier `cs.length`) exactly when fewer than `K`
queries came before it or `c` is below the threshold, and otherwise the tree store is left as
it is. -/
theorem C4_gated_insertion (K : Nat) (h1 : 1 ≤ K) (h2 : K < 20000) (cs : List Int) (c : Int) :
    ∃ st st1 ps, queries K State.init cs = some st ∧ query K st c = some st1 ∧
      treePairs st.mem = some ps ∧ ps.Sorted lexLE ∧
      (K ≤ cs.length → (ps[K - 1]?).map Prod.fst = some st.val_max) ∧
      ((cs.length < K ∨ c < st.val_max) →
        treePairs st1.mem = some (ps.orderedInsert lexLE (c, (cs.length : Int)))) ∧
      (¬ (cs.length < K ∨ c < st.val_max) → st1.mem = st.mem) := by
  have hK2 : (K : Int) < 20000 := by exact_mod_cast h2
  obtain ⟨st, g0, hm⟩ := queries_spec K h1 cs [] State.init (MInv_init K h1)
  simp only [List.nil_append] at hm
  obtain ⟨st1, q1, -, q3⟩ := query_step K h1 cs st c hm
  obtain ⟨t, g1, g2, g3, g4, g5, g6, g7⟩ := hm
  obtain ⟨q4, q5⟩ := q3 t g1
  refine ⟨st, st1, _, g0, q1, treePairs_of_inv g1, g3, g7 hK2, ?_, ?_⟩
  · intro hh
    obtain ⟨t1, r1, r2⟩ := q4 (by
      rintro ⟨-, a, b⟩
      rcases hh with hh | hh
      · omega
      · exact b hh)
    rw [treePairs_of_inv r1, r2]
  · intro hh
    exact q5 ⟨hK2, by omega, fun hc => hh (Or.inr hc)⟩

/-- C4 at a concrete input: `K = 3`, the costs `10, 5, 20, 2` processed, the next cost `8`. -/
theorem C4_gated_insertion_witness :
    1 ≤ 3 ∧ 3 < 20000 ∧
    ∃ st st1 ps, queries (3 : Nat) State.init [10, 5, 20, 2] = some st ∧
      query (3 : Nat) st 8 = some st1 ∧
      treePairs st.mem = some ps ∧ ps.Sorted lexLE ∧
      (3 ≤ [(10 : Int), 5, 20, 2].length → (ps[3 - 1]?).map Prod.fst = some st.val_max) ∧
      (([(10 : Int), 5, 20, 2].length < 3 ∨ 8 < st.val_max) →
        treePairs st1.mem =
          some (ps.orderedInsert lexLE (8, ([(10 : Int), 5, 20, 2].length : Int)))) ∧
      (¬ ([(10 : Int), 5, 20, 2].length < 3 ∨ 8 < st.val_max) → st1.mem = st.mem) :=
  ⟨by decide, by decide, C4_gated_insertion 3 (by decide) (by decide) [10, 5, 20, 2] 8⟩

theorem swapSlots_eq (A : Nat → Node) (i j k : Nat) :
    swapSlots A i j k = A (Equiv.swap i j k) := by
  unfold swapSlots
  by_cases h1 : k = i
  · subst h1; simp
  · by_cases h2 : k = j
    · subst h2; simp [h1]
    · simp [h1, h2, Equiv.swap_apply_of_ne_of_ne h1 h2]

theorem slots_swap (A : Nat → Node) (n i j : Nat) (hi1 : 1 ≤ i) (hin : i ≤ n) (hj1 : 1 ≤ j)
    (hjn : j ≤ n) : (slots (swapSlots A i j) n).Perm (slots A n) := by
  have h1 : slots (swapSlots A i j) n = ((List.range' 1 n).map (Equiv.swap i j)).map A := by
    simp only [slots, List.map_map]
    apply List.map_congr_left
    intro k _
    simp [swapSlots_eq]
  rw [h1]
  apply List.Perm.map
  rw [List.perm_ext_iff_of_nodup ((List.nodup_range' 1 n).map (Equiv.injective _))
    (List.nodup_range' 1 n)]
  intro a
  simp only [List.mem_map, List.mem_range'_1]
  constructor
  · rintro ⟨b, hb, rfl⟩
    by_cases e1 : b = i
    · subst e1; rw [Equiv.swap_apply_left]; omega
    · by_cases e2 : b = j
      · subst e2; rw [Equiv.swap_apply_right]; omega
      · rw [Equiv.swap_apply_of_ne_of_ne e1 e2]; exact hb
  · intro ha
    refine ⟨Equiv.swap i j a, ?_, Equiv.swap_apply_self i j a⟩
    by_cases e1 : a = i
    · subst e1; rw [Equiv.swap_apply_left]; omega
    · by_cases e2 : a = j
      · subst e2; rw [Equiv.swap_apply_right]; omega
      · rw [Equiv.swap_apply_of_ne_of_ne e1 e2]; exact ha

theorem siftUp_spec (n : Nat) : ∀ (fuel : Nat) (A : Nat → Node) (key : Nat),
    1 ≤ key → key ≤ n → key < fuel →
    (∀ k, 2 ≤ k → k ≤ n → k ≠ key → (A (k / 2)).dist ≤ (A k).dist) →
    (∀ k, 2 ≤ k → k ≤ n → k / 2 = key → 2 ≤ key → (A (key / 2)).dist ≤ (A k).dist) →
    ∃ A', Min_Heapify2 A fuel key = some A' ∧ HeapOrd A' n ∧ (slots A' n).Perm (slots A n)
  | 0, _, _, _, _, hf, _, _ => by omega
  | fuel + 1, A, key, h1, hn, hf, ha, hb => by
    rw [Min_Heapify2]
    by_cases hc : key > 1 ∧ (A (key / 2)).dist > (A key).dist
    · rw [if_pos hc]
      obtain ⟨hk, hlt⟩ := hc
      have hp1 : 1 ≤ key / 2 := by omega
      have hpk : key / 2 < key := by omega
      have hA : ∀ k, 2 ≤ k → k ≤ n → k ≠ key / 2 →
          (swapSlots A (key / 2) key (k / 2)).dist ≤ (swapSlots A (key / 2) key k).dist := by
        intro k k2 kn kne
        simp only [swapSlots]
        by_cases c1 : k / 2 = key / 2
        · rw [if_pos c1, if_neg kne]
          by_cases c2 : k = key
          · rw [if_pos c2]; exact le_of_lt hlt
          · rw [if_neg c2]
            have := ha k k2 kn c2
            rw [c1] at this
            exact le_trans (le_of_lt hlt) this
        · rw [if_neg c1, if_neg kne]
          by_cases c2 : k / 2 = key
          · rw [if_pos c2, if_neg (by omega)]
            exact hb k k2 kn c2 (by omega)
          · rw [if_neg c2, if_neg (by omega)]
            exact ha k k2 kn (by omega)
      have hB : ∀ k, 2 ≤ k → k ≤ n → k / 2 = key / 2 → 2 ≤ key / 2 →
          (swapSlots A (key / 2) key (key / 2 / 2)).dist ≤ (swapSlots A (key / 2) key k).dist := by
        intro k k2 kn kp hp2
        simp only [swapSlots]
        rw [if_neg (by omega), if_neg (by omega), if_neg (by omega)]
        have hpar := ha (key / 2) hp2 (by omega) (by omega)
        by_cases c2 : k = key
        · rw [if_pos c2]; exact hpar
        · rw [if_neg c2]
          have := ha k k2 kn c2
          rw [kp] at this
          exact le_trans hpar this
      obtain ⟨A', e, ho, hp⟩ := siftUp_spec n fuel (swapSlots A (key / 2) key) (key / 2) hp1
        (by omega) (by omega) hA hB
      exact ⟨A', e, ho, hp.trans (slots_swap A n _ _ hp1 (by omega) h1 hn)⟩
    · rw [if_neg hc]
      refine ⟨A, rfl, ?_, List.Perm.refl _⟩
      intro k k2 kn
      by_cases c : k = key
      · subst c
        by_contra hlt
        exact hc ⟨by omega, by omega⟩
      · exact ha k k2 kn c

theorem siftDown_step (n : Nat) (A : Nat → Node) (key c : Nat) (h1 : 1 ≤ key)
    (hc2 : c / 2 = key) (hcn : c ≤ n) (hck : (A c).dist ≤ (A key).dist)
    (hmin : ∀ k, 2 ≤ k → k ≤ n → k / 2 = key → (A c).dist ≤ (A k).dist)
    (ha : ∀ k, 2 ≤ k → k ≤ n → k / 2 ≠ key → (A (k / 2)).dist ≤ (A k).dist)
    (hb : ∀ k, 2 ≤ k → k ≤ n → k / 2 = key → 2 ≤ key → (A (key / 2)).dist ≤ (A k).dist) :
    (∀ k, 2 ≤ k → k ≤ n → k / 2 ≠ c →
      (swapSlots A c key (k / 2)).dist ≤ (swapSlots A c key k).dist) ∧
    (∀ k, 2 ≤ k → k ≤ n → k / 2 = c → 2 ≤ c →
      (swapSlots A c key (c / 2)).dist ≤ (swapSlots A c key k).dist) := by
  have hne : c ≠ key := by omega
  constructor
  · intro k k2 kn kne
    simp only [swapSlots]
    rw [if_neg kne]
    by_cases e1 : k = c
    · subst e1
      rw [if_pos hc2, if_pos rfl]; exact hck
    · rw [if_neg e1]
      by_cases e2 : k = key
      · subst e2
        rw [if_neg (by omega), if_pos rfl]
        exact hb c (by omega) hcn hc2 k2
      · rw [if_neg e2]
        by_cases e3 : k / 2 = key
        · rw [if_pos e3]; exact hmin k k2 kn e3
        · rw [if_neg e3]; exact ha k k2 kn e3
  · intro k k2 kn kc c2
    simp only [swapSlots]
    rw [if_neg (by omega), if_pos hc2, if_neg (by omega), if_neg (by omega)]
    have h0 := ha k k2 kn (by omega)
    rw [kc] at h0
    exact h0

theorem siftDown_spec (n : Nat) : ∀ (fuel : Nat) (A : Nat → Node) (key : Nat),
    1 ≤ key → 1 ≤ fuel → n < fuel + key →
    (∀ k, 2 ≤ k → k ≤ n → k / 2 ≠ key → (A (k / 2)).dist ≤ (A k).dist) →
    (∀ k, 2 ≤ k → k ≤ n → k / 2 = key → 2 ≤ key → (A (key / 2)).dist ≤ (A k).dist) →
    ∃ A', Min_Heapify n fuel A key = some A' ∧ HeapOrd A' n ∧ (slots A' n).Perm (slots A n)
  | 0, _, _, _, hf, _, _, _ => by omega
  | fuel + 1, A, key, h1, _, hf, ha, hb => by
    have rec_case : ∀ c, c / 2 = key → c ≤ n → (A c).dist < (A key).dist →
        (∀ k, 2 ≤ k → k ≤ n → k / 2 = key → (A c).dist ≤ (A k).dist) →
        ∃ A', Min_Heapify n fuel (swapSlots A c key) c = some A' ∧ HeapOrd A' n ∧
          (slots A' n).Perm (slots A n) := by
      intro c hc2 hcn hck hmin
      obtain ⟨hA, hB⟩ := siftDown_step n A key c h1 hc2 hcn (le_of_lt hck) hmin ha hb
      obtain ⟨A', e, ho, hp⟩ := siftDown_spec n fuel (swapSlots A c key) c (by omega)
        (by omega) (by omega) hA hB
      exact ⟨A', e, ho, hp.trans (slots_swap A n _ _ (by omega) hcn h1 (by omega))⟩
    have kids : ∀ k, k / 2 = key → k = 2 * key ∨ k = 2 * key + 1 := by intro k hk; omega
    rw [Min_Heapify]
    by_cases c1 : 2 * key ≤ n ∧ (A (2 * key)).dist < (A key).dist
    · rw [if_pos c1]
      by_cases c2 : 2 * key + 1 ≤ n ∧ (A (2 * key + 1)).dist < (A (2 * key)).dist
      · rw [if_pos c2, if_pos (by omega)]
        apply rec_case _ (by omega) c2.1 (lt_trans c2.2 c1.2)
        intro k _ _ hk
        rcases kids k hk with rfl | rfl
        · exact le_of_lt c2.2
        · exact le_refl _
      · rw [if_neg c2, if_pos (by omega)]
        apply rec_case _ (by omega) c1.1 c1.2
        intro k _ kn hk
        rcases kids k hk with rfl | rfl
        · exact le_refl _
        · by_contra hlt
          exact c2 ⟨kn, by omega⟩
    · rw [if_neg c1]
      by_cases c2 : 2 * key + 1 ≤ n ∧ (A (2 * key + 1)).dist < (A key).dist
      · rw [if_pos c2, if_pos (by omega)]
        apply rec_case _ (by omega) c2.1 c2.2
        intro k _ kn hk
        rcases kids k hk with rfl | rfl
        · have : (A key).dist ≤ (A (2 * key)).dist := by
            by_contra hlt
            exact c1 ⟨kn, by omega⟩
          exact le_trans (le_of_lt c2.2) this
        · exact le_refl _
      · rw [if_neg c2, if_neg (by simp)]
        refine ⟨A, rfl, ?_, List.Perm.refl _⟩
        intro k k2 kn
        by_cases e : k / 2 = key
        · rw [e]
          rcases kids k e with rfl | rfl
          · by_contra hlt
            exact c1 ⟨kn, by omega⟩
          · by_contra hlt
            exact c2 ⟨kn, by omega⟩
        · exact ha k k2 kn e

theorem HeapOrd_root (A : Nat → Node) (n : Nat) (h : HeapOrd A n) :
    ∀ k, 1 ≤ k → k ≤ n → (A 1).dist ≤ (A k).dist := by
  intro k
  induction k using Nat.strong_induction_on with
  | _ k ih =>
    intro k1 kn
    by_cases e : k = 1
    · subst e; exact le_refl _
    · exact le_trans (ih (k / 2) (by omega) (by omega) (by omega)) (h k (by omega) kn)

theorem mem_slots (A : Nat → Node) (n : Nat) (e : Node) :
    e ∈ slots A n ↔ ∃ k, 1 ≤ k ∧ k ≤ n ∧ A k = e := by
  simp only [slots, List.mem_map, List.mem_range'_1]
  constructor
  · rintro ⟨k, ⟨h1, h2⟩, rfl⟩; exact ⟨k, h1, by omega, rfl⟩
  · rintro ⟨k, h1, h2, rfl⟩; exact ⟨k, ⟨h1, by omega⟩, rfl⟩

theorem slots_congr (A B : Nat → Node) (n : Nat) (h : ∀ k, 1 ≤ k → k ≤ n → A k = B k) :
    slots A n = slots B n := by
  apply List.map_congr_left
  intro k hk
  rw [List.mem_range'_1] at hk
  exact h k hk.1 (by omega)

theorem slots_succ (A : Nat → Node) (n : Nat) : slots A (n + 1) = slots A n ++ [A (n + 1)] := by
  simp [slots, List.range'_1_concat, Nat.add_comm]

theorem length_slots (A : Nat → Node) (n : Nat) : (slots A n).length = n := by
  simp [slots]

theorem slots_update (A : Nat → Node) (k : Nat) (hk1 : 1 ≤ k) : ∀ n, k ≤ n →
    ∃ rest, (slots A n).Perm (A k :: rest) ∧
      ∀ v, (slots (fun x => if x = k then v else A x) n).Perm (v :: rest)
  | 0, h => by omega
  | n + 1, h => by
    by_cases e : k = n + 1
    · subst e
      refine ⟨slots A n, ?_, ?_⟩
      · rw [slots_succ]; exact List.perm_append_singleton _ _
      · intro v
        rw [slots_succ, if_pos rfl,
          slots_congr (fun x => if x = n + 1 then v else A x) A n
            (fun j _ hj => if_neg (by omega))]
        exact List.perm_append_singleton _ _
    · obtain ⟨rest, h1, h2⟩ := slots_update A k hk1 n (by omega)
      refine ⟨rest ++ [A (n + 1)], ?_, ?_⟩
      · rw [slots_succ]
        exact (h1.append_right _)
      · intro v
        rw [slots_succ, if_neg (by omega)]
        exact ((h2 v).append_right _)

theorem InsertMAX_spec (N : Nat) (h : Heap) (a : Node) (ho : HeapOrd h.A h.HeapSize)
    (hN : h.HeapSize + 1 < N) :
    ∃ h', InsertMAX N h a = some h' ∧ h'.HeapSize = h.HeapSize + 1 ∧
      HeapOrd h'.A h'.HeapSize ∧ (slots h'.A h'.HeapSize).Perm (a :: slots h.A h.HeapSize) := by
  have hA : ∀ k, 2 ≤ k → k ≤ h.HeapSize + 1 → k ≠ h.HeapSize + 1 →
      ((fun x => if x = h.HeapSize + 1 then a else h.A x) (k / 2)).dist ≤
        ((fun x => if x = h.HeapSize + 1 then a else h.A x) k).dist := by
    intro k k2 kn kne
    simp only []
    rw [if_neg (by omega), if_neg kne]
    exact ho k k2 (by omega)
  obtain ⟨A', e, ho', hp⟩ := siftUp_spec (h.HeapSize + 1) (h.HeapSize + 1 + 1)
    (fun x => if x = h.HeapSize + 1 then a else h.A x) (h.HeapSize + 1) (by omega) (le_refl _)
    (by omega) hA (fun k k2 kn kp _ => by omega)
  refine ⟨⟨A', h.HeapSize + 1⟩, ?_, rfl, ho', ?_⟩
  · unfold InsertMAX
    simp only []
    rw [if_pos hN, e]; rfl
  · refine hp.trans ?_
    rw [slots_succ, if_pos rfl,
      slots_congr (fun x => if x = h.HeapSize + 1 then a else h.A x) h.A h.HeapSize
        (fun j _ hj => if_neg (by omega))]
    exact List.perm_append_singleton _ _

theorem slots_cons (A : Nat → Node) (n : Nat) :
    slots A (n + 1) = A 1 :: (List.range' 2 n).map A := by
  simp [slots, List.range'_succ]

theorem Cancella_Min_spec (h : Heap) (ho : HeapOrd h.A h.HeapSize) (hn : 1 ≤ h.HeapSize) :
    ∃ A2, Cancella_Min h = some (h.A 1, ⟨A2, h.HeapSize - 1⟩) ∧ HeapOrd A2 (h.HeapSize - 1) ∧
      (slots h.A h.HeapSize).Perm (h.A 1 :: slots A2 (h.HeapSize - 1)) ∧
      ∀ e ∈ slots h.A h.HeapSize, (h.A 1).dist ≤ e.dist := by
  have hA : ∀ k, 2 ≤ k → k ≤ h.HeapSize - 1 → k / 2 ≠ 1 →
      ((fun x => if x = 1 then h.A h.HeapSize else h.A x) (k / 2)).dist ≤
        ((fun x => if x = 1 then h.A h.HeapSize else h.A x) k).dist := by
    intro k k2 kn kne
    simp only []
    rw [if_neg kne, if_neg (by omega)]
    exact ho k k2 (by omega)
  obtain ⟨A2, e, ho', hp⟩ := siftDown_spec (h.HeapSize - 1) (h.HeapSize + 1)
    (fun x => if x = 1 then h.A h.HeapSize else h.A x) 1 (le_refl _) (by omega) (by omega) hA
    (fun k k2 kn kp hh => by omega)
  refine ⟨A2, ?_, ho', ?_, ?_⟩
  · unfold Cancella_Min
    rw [if_neg (by omega)]
    simp only []
    rw [e]; rfl
  · refine List.Perm.trans ?_ (List.Perm.cons _ hp.symm)
    obtain ⟨m, hm⟩ : ∃ m, h.HeapSize = m + 1 := ⟨h.HeapSize - 1, by omega⟩
    rw [hm, Nat.add_sub_cancel]
    cases m with
    | zero => simp [slots]
    | succ m =>
      rw [slots_cons, slots_cons, if_pos rfl]
      have e1 : (List.range' 2 m).map (fun x => if x = 1 then h.A (m + 1 + 1) else h.A x) =
          (List.range' 2 m).map h.A := by
        apply List.map_congr_left
        intro j hj
        rw [List.mem_range'_1] at hj
        exact if_neg (by omega)
      have e2 : (List.range' 2 (m + 1)).map h.A = (List.range' 2 m).map h.A ++ [h.A (m + 1 + 1)] := by
        rw [List.range'_1_concat, List.map_append]
        simp [Nat.add_comm, Nat.add_left_comm]
      rw [e1, e2]
      exact List.Perm.cons _ (List.perm_append_singleton _ _)
  · intro e he
    rw [mem_slots] at he
    obtain ⟨k, k1, kn, rfl⟩ := he
    exact HeapOrd_root h.A h.HeapSize ho k k1 kn

theorem scanLoop_spec (n : Nat) (d idx : Int) (A : Nat → Node) (k : Nat) (hk : k ≤ n)
    (hidx : (A k).index = idx) :
    ∀ (fuel i : Nat), i ≤ k → k + 2 ≤ fuel + i → (∀ j, i ≤ j → j < k → (A j).index ≠ idx) →
      scanLoop n d idx fuel A i false = some (fun x => if x = k then ⟨d, idx⟩ else A x, k + 1)
  | 0, i, h1, h2, _ => by omega
  | fuel + 1, i, h1, h2, hfirst => by
    rw [scanLoop, if_pos ⟨by omega, by simp⟩]
    by_cases e : (A i).index = idx
    · have hik : i = k := by
        by_contra hne
        exact hfirst i (le_refl _) (by omega) e
      subst hik
      rw [if_pos e]
      obtain ⟨f, rfl⟩ : ∃ f, fuel = f + 1 := ⟨fuel - 1, by omega⟩
      rw [scanLoop, if_neg (by simp), e]
    · rw [if_neg e]
      have hik : i ≠ k := by rintro rfl; exact e hidx
      exact scanLoop_spec n d idx A k hk hidx fuel (i + 1) (by omega) (by omega)
        (fun j hj1 hj2 => hfirst j (by omega) hj2)

theorem ModificaHeap_spec (h : Heap) (d idx : Int) (ho : HeapOrd h.A h.HeapSize)
    (hex : ∃ e ∈ slots h.A h.HeapSize, e.index = idx)
    (hle : ∀ e ∈ slots h.A h.HeapSize, e.index = idx → d ≤ e.dist) :
    ∃ h' e rest, ModificaHeap h d idx = some h' ∧ h'.HeapSize = h.HeapSize ∧
      HeapOrd h'.A h'.HeapSize ∧ e.index = idx ∧
      (slots h.A h.HeapSize).Perm (e :: rest) ∧
      (slots h'.A h'.HeapSize).Perm (⟨d, idx⟩ :: rest) := by
  have hex2 : ∃ k, 1 ≤ k ∧ k ≤ h.HeapSize ∧ (h.A k).index = idx := by
    obtain ⟨e, he, hi⟩ := hex
    rw [mem_slots] at he
    obtain ⟨k, k1, kn, rfl⟩ := he
    exact ⟨k, k1, kn, hi⟩
  obtain ⟨k1, kn, ki⟩ := Nat.find_spec hex2
  have hfirst : ∀ j, 1 ≤ j → j < Nat.find hex2 → (h.A j).index ≠ idx := by
    intro j j1 jk hj
    exact Nat.find_min hex2 jk ⟨j1, by omega, hj⟩
  generalize Nat.find hex2 = k at k1 kn ki hfirst
  have hscan := scanLoop_spec h.HeapSize d idx h.A k kn ki (h.HeapSize + 2) 1 k1 (by omega) hfirst
  have hd : d ≤ (h.A k).dist := hle _ ((mem_slots _ _ _).2 ⟨k, k1, kn, rfl⟩) ki
  have hA : ∀ j, 2 ≤ j → j ≤ h.HeapSize → j ≠ k →
      ((fun x => if x = k then (⟨d, idx⟩ : Node) else h.A x) (j / 2)).dist ≤
        ((fun x => if x = k then (⟨d, idx⟩ : Node) else h.A x) j).dist := by
    intro j j2 jn jne
    simp only []
    rw [if_neg jne]
    by_cases c : j / 2 = k
    · rw [if_pos c]
      have := ho j j2 jn
      rw [c] at this
      exact le_trans hd this
    · rw [if_neg c]; exact ho j j2 jn
  have hB : ∀ j, 2 ≤ j → j ≤ h.HeapSize → j / 2 = k → 2 ≤ k →
      ((fun x => if x = k then (⟨d, idx⟩ : Node) else h.A x) (k / 2)).dist ≤
        ((fun x => if x = k then (⟨d, idx⟩ : Node) else h.A x) j).dist := by
    intro j j2 jn jk k2
    simp only []
    rw [if_neg (by omega), if_neg (by omega)]
    have a1 := ho j j2 jn
    rw [jk] at a1
    exact le_trans (ho k k2 kn) a1
  obtain ⟨A', e, ho', hp⟩ := siftUp_spec h.HeapSize (k + 1 + 1)
    (fun x => if x = k then (⟨d, idx⟩ : Node) else h.A x) k k1 kn (by omega) hA hB
  obtain ⟨rest, r1, r2⟩ := slots_update h.A k k1 h.HeapSize kn
  refine ⟨⟨A', h.HeapSize⟩, h.A k, rest, ?_, rfl, ho', ki, r1, hp.trans (r2 _)⟩
  unfold ModificaHeap
  rw [hscan]
  simp only [Nat.add_sub_cancel]
  rw [e]; rfl

theorem validPath_head {N : Nat} {baseline : Nat → Int} {Table : Nat → Nat → Int} :
    ∀ {p : List Nat} {z : Nat}, validPath N baseline Table p → p.head? = some z → 1 ≤ z ∧ z < N
  | [], _, h, _ => h.elim
  | [v], z, h, hz => by
    simp only [List.head?_cons, Option.some.injEq] at hz
    subst hz; exact ⟨h.1, h.2.1⟩
  | v :: w :: rest, z, h, hz => by
    simp only [List.head?_cons, Option.some.injEq] at hz
    subst hz; exact ⟨h.1, h.2.1⟩

theorem exit_lemma {N : Nat} {baseline : Nat → Int} {Table : Nat → Nat → Int}
    (hT : ∀ u i, u < N → i < N → 0 ≤ Table u i) {s : DState} {x : Nat}
    (h : PInv N baseline Table s x N) :
    ∀ (p : List Nat), validPath N baseline Table p → ∀ z, p.head? = some z →
      s.Visited z = false →
      ∃ y, 1 ≤ y ∧ y < N ∧ s.Visited y = false ∧ s.Distances y ≠ 0 ∧
        s.Distances y ≤ pathWeight baseline Table p
  | [], hp, _, _, _ => hp.elim
  | [v], hp, z, hz, hv => by
    simp only [List.head?_cons, Option.some.injEq] at hz
    subst hz
    obtain ⟨a, b⟩ := h.front0 v hp.1 hp.2.1 hv hp.2.2
    exact ⟨v, hp.1, hp.2.1, hv, a, b⟩
  | v :: w :: rest, hp, z, hz, hv => by
    simp only [List.head?_cons, Option.some.injEq] at hz
    subst hz
    obtain ⟨v1, vN, hT0, hq⟩ := hp
    obtain ⟨w1, wN⟩ := validPath_head hq rfl
    have hnn := hT w v wN vN
    cases hw : s.Visited w with
    | true =>
      obtain ⟨_, o⟩ := h.opt w w1 wN hw
      obtain ⟨a, b⟩ := h.front w v w1 wN v1 vN hw hv hT0 (fun _ => vN)
      refine ⟨v, v1, vN, hv, a, ?_⟩
      have := o _ hq rfl
      show _ ≤ Table w v + pathWeight baseline Table (w :: rest)
      omega
    | false =>
      obtain ⟨y, y1, yN, yv, yD, yle⟩ := exit_lemma hT h (w :: rest) hq w rfl hw
      refine ⟨y, y1, yN, yv, yD, ?_⟩
      show _ ≤ Table w v + pathWeight baseline Table (w :: rest)
      omega

theorem PInv_update {N : Nat} {baseline : Nat → Int} {Table : Nat → Nat → Int}
    (hT : ∀ u i, u < N → i < N → 0 ≤ Table u i) {s : DState} {x j : Nat}
    (hx1 : 1 ≤ x) (hxN : x < N) (hvx : s.Visited x = true) (hj1 : 1 ≤ j) (hjN : j < N)
    (h : PInv N baseline Table s x j) (hvj : s.Visited j = false) (hw0 : Table x j ≠ 0)
    (hnew : s.Distances j ≠ 0 → s.Distances x + Table x j ≤ s.Distances j)
    (h1 : Heap) (ho : HeapOrd h1.A h1.HeapSize)
    (hnd : ((slots h1.A h1.HeapSize).map Node.index).Nodup)
    (hb : ∀ e ∈ slots h1.A h1.HeapSize, e = ⟨s.Distances x + Table x j, (j : Int)⟩ ∨
      (e ∈ slots s.heap.A s.heap.HeapSize ∧ e.index ≠ (j : Int)))
    (hc : (⟨s.Distances x + Table x j, (j : Int)⟩ : Node) ∈ slots h1.A h1.HeapSize)
    (hd : ∀ e ∈ slots s.heap.A s.heap.HeapSize, e.index ≠ (j : Int) →
      e ∈ slots h1.A h1.HeapSize) :
    PInv N baseline Table
      ⟨s.Visited, fun k => if k = j then s.Distances x + Table x j else s.Distances k, h1⟩
      x (j + 1) := by
  have hDx : 0 < s.Distances x :=
    lt_of_le_of_ne (h.nonneg x hx1 hxN) (Ne.symm (h.opt x hx1 hxN hvx).1)
  have hw : 0 < Table x j := lt_of_le_of_ne (hT x j hxN hjN) (Ne.symm hw0)
  have hxj : x ≠ j := by rintro rfl; rw [hvx] at hvj; exact Bool.noConfusion hvj
  refine ⟨ho, hnd, ?_, ?_, ?_, ?_, ?_, ?_, ?_⟩
  · intro e he
    rcases hb e he with rfl | ⟨he0, hne⟩
    · exact ⟨j, hj1, hjN, by simp, hvj, by simp; omega⟩
    · obtain ⟨i, i1, iN, rfl, iv, iD⟩ := h.inHeap e he0
      have hij : i ≠ j := by rintro rfl; exact hne rfl
      exact ⟨i, i1, iN, by simp [hij], iv, by simp [hij, iD]⟩
  · intro i i1 iN iv iD
    by_cases hij : i = j
    · subst hij; simpa using hc
    · simp only [if_neg hij] at iD ⊢
      refine hd _ (h.heapAll i i1 iN iv iD) ?_
      simpa using hij
  · intro i i1 iN
    show 0 ≤ if i = j then _ else _
    split
    · omega
    · exact h.nonneg i i1 iN
  · intro i i1 iN iD
    by_cases hij : i = j
    · subst hij
      obtain ⟨p, pv, ph, pw⟩ := h.real x hx1 hxN (by omega)
      cases p with
      | nil => exact pv.elim
      | cons q rest =>
        simp only [List.head?_cons, Option.some.injEq] at ph
        subst ph
        refine ⟨i :: q :: rest, ⟨i1, iN, hw0, pv⟩, rfl, ?_⟩
        show Table q i + pathWeight baseline Table (q :: rest) = if i = i then _ else _
        rw [if_pos rfl, pw]; omega
    · simp only [if_neg hij] at iD ⊢
      exact h.real i i1 iN iD
  · intro i i1 iN iv
    have hij : i ≠ j := by rintro rfl; rw [hvj] at iv; exact Bool.noConfusion iv
    simp only [if_neg hij]
    exact h.opt i i1 iN iv
  · intro i i1 iN iv ib
    obtain ⟨a, b⟩ := h.front0 i i1 iN iv ib
    by_cases hij : i = j
    · subst hij
      have := hnew a
      simp only [if_pos]
      constructor <;> omega
    · simp only [if_neg hij]
      exact ⟨a, b⟩
  · intro u i u1 uN i1 iN uv iv hTu hcond
    have huj : u ≠ j := by rintro rfl; rw [hvj] at uv; exact Bool.noConfusion uv
    simp only [if_neg huj]
    by_cases hij : i = j
    · subst hij
      simp only [if_pos]
      by_cases hux : u = x
      · subst hux
        constructor <;> omega
      · obtain ⟨a, b⟩ := h.front u i u1 uN i1 iN uv iv hTu (fun e => absurd e hux)
        have := hnew a
        constructor <;> omega
    · simp only [if_neg hij]
      exact h.front u i u1 uN i1 iN uv iv hTu (fun e => by have := hcond e; omega)

theorem int32_eq {x : Int} (h1 : -2147483648 ≤ x) (h2 : x < 2147483648) : int32 x = x := by
  unfold int32
  omega

theorem heap_room {N : Nat} {baseline : Nat → Int} {Table : Nat → Nat → Int} {s : DState}
    {x j : Nat} (h : PInv N baseline Table s x j) (hj1 : 1 ≤ j) (hjN : j < N)
    (hDj : s.Distances j = 0) : s.heap.HeapSize + 1 < N := by
  have hmem : ∀ a ∈ (slots s.heap.A s.heap.HeapSize).map Node.index,
      ∃ i, 1 ≤ i ∧ i < N ∧ i ≠ j ∧ a = (i : Int) := by
    intro a ha
    rw [List.mem_map] at ha
    obtain ⟨e, he, rfl⟩ := ha
    obtain ⟨i, i1, iN, rfl, _, iD⟩ := h.inHeap e he
    exact ⟨i, i1, iN, by rintro rfl; exact iD hDj, rfl⟩
  have hmem2 : ∀ b ∈ ((slots s.heap.A s.heap.HeapSize).map Node.index).map Int.toNat,
      1 ≤ b ∧ b < N ∧ b ≠ j := by
    intro b hb
    rw [List.mem_map] at hb
    obtain ⟨a, ha, rfl⟩ := hb
    obtain ⟨i, i1, iN, ij, rfl⟩ := hmem a ha
    simpa using ⟨i1, iN, ij⟩
  have hnd : (0 :: j :: ((slots s.heap.A s.heap.HeapSize).map Node.index).map Int.toNat).Nodup := by
    rw [List.nodup_cons, List.nodup_cons]
    refine ⟨?_, ?_, ?_⟩
    · intro h0
      rcases List.mem_cons.1 h0 with e | e
      · omega
      · have := hmem2 0 e; omega
    · intro h0
      have := hmem2 j h0; omega
    · refine List.Nodup.map_on ?_ h.nodup
      intro a ha b hb hab
      obtain ⟨i, _, _, _, rfl⟩ := hmem a ha
      obtain ⟨i', _, _, _, rfl⟩ := hmem b hb
      simp only [Int.toNat_ofNat] at hab
      rw [hab]
  have hlen := length_le_of_nodup_bound (n := N) hnd (by
    intro a ha
    rcases List.mem_cons.1 ha with e | ha
    · omega
    · rcases List.mem_cons.1 ha with e | ha
      · omega
      · exact (hmem2 a ha).2.1)
  simp only [List.length_cons, List.length_map, length_slots] at hlen
  omega

theorem relaxStep_spec {N : Nat} {baseline : Nat → Int} {Table : Nat → Nat → Int}
    (hT : ∀ u i, u < N → i < N → 0 ≤ Table u i) {s : DState} {x j : Nat}
    (hx1 : 1 ≤ x) (hxN : x < N) (hvx : s.Visited x = true) (hj1 : 1 ≤ j) (hjN : j < N)
    (h : PInv N baseline Table s x j)
    (hov : s.Distances x + Table x j < 2147483648) :
    ∃ s', relaxStep N Table ⟨s.Distances x, (x : Int)⟩ s j = some s' ∧
      PInv N baseline Table s' x (j + 1) ∧ s'.Visited = s.Visited ∧
      ∀ i, s.Visited i = true → s'.Distances i = s.Distances i := by
  have hframe : ∀ (v : Int) i, s.Visited j = false → s.Visited i = true →
      (if i = j then v else s.Distances i) = s.Distances i := by
    intro v i hvj hvi
    rw [if_neg]
    rintro rfl
    rw [hvj] at hvi
    exact Bool.noConfusion hvi
  have hwr : int32 (s.Distances x + Table x j) = s.Distances x + Table x j :=
    int32_eq (by have := h.nonneg x hx1 hxN; have := hT x j hxN hjN; omega) hov
  unfold relaxStep
  simp only [Int.toNat_ofNat]
  rw [hwr]
  by_cases c1 : s.Visited j ≠ true ∧ s.Distances j ≠ 0 ∧ Table x j ≠ 0 ∧
      s.Distances j > s.Distances x + Table x j
  · rw [if_pos c1]
    obtain ⟨hv, hD0, hw0, hgt⟩ := c1
    have hvj : s.Visited j = false := by simpa using hv
    have hin := h.heapAll j hj1 hjN hvj hD0
    have hle : ∀ e ∈ slots s.heap.A s.heap.HeapSize, e.index = (j : Int) →
        s.Distances x + Table x j ≤ e.dist := by
      intro e he hi
      obtain ⟨i, i1, iN, rfl, _, _⟩ := h.inHeap e he
      have : i = j := by simpa using hi
      subst this
      exact le_of_lt hgt
    obtain ⟨h', e0, rest, em, hsz, ho', hi0, p1, p2⟩ :=
      ModificaHeap_spec s.heap (s.Distances x + Table x j) (j : Int) h.heapOrd ⟨_, hin, rfl⟩ hle
    have hnd0 : (j :: rest.map Node.index : List Int).Nodup := by
      have := (p1.map Node.index).nodup_iff.1 h.nodup
      rwa [List.map_cons, hi0] at this
    have hnotin : ∀ e ∈ rest, e.index ≠ (j : Int) := by
      intro e he hej
      exact (List.nodup_cons.1 hnd0).1 (hej ▸ List.mem_map_of_mem _ he)
    refine ⟨⟨s.Visited, fun k => if k = j then s.Distances x + Table x j else s.Distances k, h'⟩,
        by rw [em]; rfl, ?_, rfl, fun i hi => hframe _ i hvj hi⟩
    refine PInv_update hT hx1 hxN hvx hj1 hjN h hvj hw0 (fun _ => le_of_lt hgt) h' ho' ?_ ?_ ?_ ?_
    · have := (p2.map Node.index).nodup_iff.2 (by simpa using hnd0)
      exact this
    · intro e he
      rcases List.mem_cons.1 (p2.mem_iff.1 he) with e1 | e1
      · exact Or.inl e1
      · exact Or.inr ⟨p1.mem_iff.2 (List.mem_cons_of_mem _ e1), hnotin e e1⟩
    · exact p2.mem_iff.2 (List.mem_cons_self _ _)
    · intro e he hne
      rcases List.mem_cons.1 (p1.mem_iff.1 he) with e1 | e1
      · exact absurd (e1 ▸ hi0) hne
      · exact p2.mem_iff.2 (List.mem_cons_of_mem _ e1)
  · rw [if_neg c1]
    by_cases c2 : s.Distances j = 0 ∧ Table x j ≠ 0 ∧ s.Visited j ≠ true
    · rw [if_pos c2]
      obtain ⟨hD0, hw0, hv⟩ := c2
      have hvj : s.Visited j = false := by simpa using hv
      obtain ⟨h', em, hsz, ho', p⟩ := InsertMAX_spec N s.heap
        ⟨s.Distances x + Table x j, (j : Int)⟩ h.heapOrd (heap_room h hj1 hjN hD0)
      have hnotin : ∀ e ∈ slots s.heap.A s.heap.HeapSize, e.index ≠ (j : Int) := by
        intro e he hej
        obtain ⟨i, i1, iN, rfl, _, iD⟩ := h.inHeap e he
        have : i = j := by simpa using hej
        subst this
        exact iD hD0
      refine ⟨⟨s.Visited, fun k => if k = j then s.Distances x + Table x j else s.Distances k, h'⟩,
        by rw [em]; rfl, ?_, rfl, fun i hi => hframe _ i hvj hi⟩
      refine PInv_update hT hx1 hxN hvx hj1 hjN h hvj hw0 (fun hne => absurd hD0 hne) h' ho'
        ?_ ?_ ?_ ?_
      · refine (p.map Node.index).nodup_iff.2 ?_
        rw [List.map_cons, List.nodup_cons]
        refine ⟨?_, h.nodup⟩
        intro hm
        rw [List.mem_map] at hm
        obtain ⟨e, he, hej⟩ := hm
        exact hnotin e he hej
      · intro e he
        rcases List.mem_cons.1 (p.mem_iff.1 he) with e1 | e1
        · exact Or.inl e1
        · exact Or.inr ⟨e1, hnotin e e1⟩
      · exact p.mem_iff.2 (List.mem_cons_self _ _)
      · intro e he _
        exact p.mem_iff.2 (List.mem_cons_of_mem _ he)
    · rw [if_neg c2]
      refine ⟨s, rfl, ?_, rfl, fun _ _ => rfl⟩
      refine ⟨h.heapOrd, h.nodup, h.inHeap, h.heapAll, h.nonneg, h.real, h.opt, h.front0, ?_⟩
      intro u i u1 uN i1 iN uv iv hTu hcond
      by_cases hux : u = x
      · subst hux
        by_cases hij : i = j
        · subst hij
          have a : s.Distances i ≠ 0 := by
            intro a0
            exact c2 ⟨a0, hTu, by simp [iv]⟩
          refine ⟨a, ?_⟩
          by_contra hgt
          exact c1 ⟨by simp [iv], a, hTu, by omega⟩
        · exact h.front u i u1 uN i1 iN uv iv hTu (fun e => by have := hcond e; omega)
      · exact h.front u i u1 uN i1 iN uv iv hTu (fun e => absurd e hux)

theorem relaxAll_spec {N : Nat} {baseline : Nat → Int} {Table : Nat → Nat → Int}
    (hT : ∀ u i, u < N → i < N → 0 ≤ Table u i) {x : Nat} (hx1 : 1 ≤ x) (hxN : x < N)
    (d : Int) (hov : ∀ i, 1 ≤ i → i < N → d + Table x i < 2147483648) :
    ∀ (cnt j : Nat) (s : DState), 1 ≤ j → j + cnt = N → s.Visited x = true →
      d = s.Distances x → PInv N baseline Table s x j →
      ∃ s', (List.range' j cnt).foldlM (relaxStep N Table ⟨d, (x : Int)⟩) s = some s' ∧
        PInv N baseline Table s' x N ∧ s'.Visited = s.Visited ∧
        ∀ i, s.Visited i = true → s'.Distances i = s.Distances i
  | 0, j, s, _, hjN, _, _, h => by
    have : j = N := by omega
    subst this
    exact ⟨s, rfl, h, rfl, fun _ _ => rfl⟩
  | cnt + 1, j, s, hj1, hjN, hvx, hd, h => by
    obtain ⟨s1, e1, h1, v1, f1⟩ := relaxStep_spec hT hx1 hxN hvx hj1 (by omega) h
      (by rw [← hd]; exact hov j hj1 (by omega))
    obtain ⟨s2, e2, h2, v2, f2⟩ := relaxAll_spec hT hx1 hxN d hov cnt (j + 1) s1 (by omega)
      (by omega) (by rw [v1]; exact hvx) (by rw [f1 x hvx]; exact hd) h1
    refine ⟨s2, ?_, h2, by rw [v2, v1], ?_⟩
    · rw [List.range'_succ, List.foldlM_cons, hd, e1]
      rw [hd] at e2
      exact e2
    · intro i hi
      rw [f2 i (by rw [v1]; exact hi), f1 i hi]

theorem extract_spec {N : Nat} {baseline : Nat → Int} {Table : Nat → Nat → Int}
    (hT : ∀ u i, u < N → i < N → 0 ≤ Table u i) {s : DState} {x : Nat}
    (h : PInv N baseline Table s x N) :
    ∃ u h1, Cancella_Min s.heap = some (u, h1) ∧
      Head N baseline Table ⟨s.Visited, s.Distances, h1⟩ u := by
  by_cases hn : s.heap.HeapSize < 1
  · refine ⟨⟨-1, -1⟩, s.heap, ?_, Or.inl ⟨rfl, ?_, x, h⟩⟩
    · unfold Cancella_Min; rw [if_pos hn]
    · show s.heap.HeapSize = 0
      omega
  · obtain ⟨A2, e, ho, p, hmin⟩ := Cancella_Min_spec s.heap h.heapOrd (by omega)
    have h1in : s.heap.A 1 ∈ slots s.heap.A s.heap.HeapSize :=
      p.mem_iff.2 (List.mem_cons_self _ _)
    obtain ⟨y, y1, yN, ey, yv, yD⟩ := h.inHeap _ h1in
    have hnd0 : ((y : Int) :: (slots A2 (s.heap.HeapSize - 1)).map Node.index).Nodup := by
      have := (p.map Node.index).nodup_iff.1 h.nodup
      rwa [List.map_cons, ey] at this
    have hsplit : ∀ i, (if i = y then true else s.Visited i) = false →
        i ≠ y ∧ s.Visited i = false := by
      intro i hi
      by_cases hiy : i = y
      · rw [if_pos hiy] at hi; exact Bool.noConfusion hi
      · rw [if_neg hiy] at hi; exact ⟨hiy, hi⟩
    refine ⟨s.heap.A 1, ⟨A2, s.heap.HeapSize - 1⟩, e, Or.inr ⟨y, y1, yN, ey, yv, ?_⟩⟩
    refine ⟨ho, (List.nodup_cons.1 hnd0).2, ?_, ?_, h.nonneg, h.real, ?_, ?_, ?_⟩
    · intro e he
      obtain ⟨i, i1, iN, rfl, iv, iD⟩ := h.inHeap e (p.mem_iff.2 (List.mem_cons_of_mem _ he))
      have hiy : i ≠ y := by
        rintro rfl
        exact (List.nodup_cons.1 hnd0).1 (List.mem_map_of_mem Node.index he)
      exact ⟨i, i1, iN, rfl, by show (if i = y then true else s.Visited i) = false
                                rw [if_neg hiy]; exact iv, iD⟩
    · intro i i1 iN iv iD
      obtain ⟨hiy, iv'⟩ := hsplit i iv
      have hm := h.heapAll i i1 iN iv' iD
      rcases List.mem_cons.1 (p.mem_iff.1 hm) with e1 | e1
      · rw [ey] at e1
        have : (i : Int) = (y : Int) := congrArg Node.index e1
        exact absurd (by exact_mod_cast this) hiy
      · exact e1
    · intro i i1 iN iv
      by_cases hiy : i = y
      · subst hiy
        refine ⟨yD, ?_⟩
        intro q hq hh
        obtain ⟨z, z1, zN, zv, zD, zle⟩ := exit_lemma hT h q hq i hh yv
        have hz := hmin _ (h.heapAll z z1 zN zv zD)
        rw [ey] at hz
        exact le_trans hz zle
      · have iv' : s.Visited i = true := by
          have : (if i = y then true else s.Visited i) = true := iv
          rwa [if_neg hiy] at this
        exact h.opt i i1 iN iv'
    · intro i i1 iN iv ib
      exact h.front0 i i1 iN (hsplit i iv).2 ib
    · intro u i u1 uN i1 iN uv iv hTu hc
      have huy : u ≠ y := by
        intro e
        have := hc e
        omega
      have uv' : s.Visited u = true := by
        have : (if u = y then true else s.Visited u) = true := uv
        rwa [if_neg huy] at this
      exact h.front u i u1 uN i1 iN uv' (hsplit i iv).2 hTu (fun _ => iN)

theorem visitedSum_step (N : Nat) (vis : Nat → Bool) (D D2 : Nat → Int) (y : Nat)
    (y1 : 1 ≤ y) (yN : y < N) (yv : vis y = false)
    (hD : ∀ i, (if i = y then true else vis i) = true → D2 i = D i) :
    (∑ i in Finset.Ico 1 N, if (if i = y then true else vis i) = true then D2 i else 0) =
      (∑ i in Finset.Ico 1 N, if vis i = true then D i else 0) + D y := by
  have hpt : ∀ i ∈ Finset.Ico 1 N,
      (if (if i = y then true else vis i) = true then D2 i else 0) =
        (if vis i = true then D i else 0) + (if y = i then D y else 0) := by
    intro i _
    by_cases hiy : i = y
    · subst hiy
      rw [if_pos (by rw [if_pos rfl]), hD i (by rw [if_pos rfl]), if_neg (by rw [yv]; simp),
        if_pos rfl, zero_add]
    · rw [if_neg (Ne.symm hiy), add_zero]
      by_cases hv : vis i = true
      · rw [if_pos (by rw [if_neg hiy]; exact hv), if_pos hv, hD i (by rw [if_neg hiy]; exact hv)]
      · rw [if_neg (by rw [if_neg hiy]; exact hv), if_neg hv]
  rw [Finset.sum_congr rfl hpt, Finset.sum_add_distrib, Finset.sum_ite_eq,
    if_pos (Finset.mem_Ico.2 ⟨y1, yN⟩)]

theorem unvisited_step (N : Nat) (vis : Nat → Bool) (y : Nat) (y1 : 1 ≤ y) (yN : y < N)
    (yv : vis y = false) :
    ((Finset.Ico 1 N).filter fun i => (if i = y then true else vis i) = false).card <
      ((Finset.Ico 1 N).filter fun i => vis i = false).card := by
  apply Finset.card_lt_card
  rw [Finset.ssubset_iff_of_subset]
  · refine ⟨y, ?_, ?_⟩
    · rw [Finset.mem_filter]; exact ⟨Finset.mem_Ico.2 ⟨y1, yN⟩, yv⟩
    · rw [Finset.mem_filter]
      rintro ⟨_, h2⟩
      rw [if_pos rfl] at h2
      exact Bool.noConfusion h2
  · intro i hi
    rw [Finset.mem_filter] at hi ⊢
    refine ⟨hi.1, ?_⟩
    by_cases hiy : i = y
    · rw [if_pos hiy] at hi; exact Bool.noConfusion hi.2
    · rw [if_neg hiy] at hi; exact hi.2

theorem pathWeight_nonneg {N : Nat} {baseline : Nat → Int} {Table : Nat → Nat → Int}
    (hb : ∀ i, i < N → 0 ≤ baseline i) (hT : ∀ u i, u < N → i < N → 0 ≤ Table u i) :
    ∀ (p : List Nat), validPath N baseline Table p → 0 ≤ pathWeight baseline Table p
  | [], h => h.elim
  | [v], h => hb v h.2.1
  | v :: w :: rest, h => by
    obtain ⟨_, vN, _, hq⟩ := h
    obtain ⟨_, wN⟩ := validPath_head hq rfl
    have h1 := pathWeight_nonneg hb hT (w :: rest) hq
    have h2 := hT w v wN vN
    show 0 ≤ Table w v + pathWeight baseline Table (w :: rest)
    omega

theorem IsDist_unique {N : Nat} {baseline : Nat → Int} {Table : Nat → Nat → Int} {i : Nat} :
    ∀ {a b : Option Int}, IsDist N baseline Table i a → IsDist N baseline Table i b → a = b
  | none, none, _, _ => rfl
  | none, some _, h1, h2 => by
    obtain ⟨⟨p, hp, hh, _⟩, _⟩ := h2
    exact absurd hh (h1 p hp)
  | some _, none, h1, h2 => by
    obtain ⟨⟨p, hp, hh, _⟩, _⟩ := h1
    exact absurd hh (h2 p hp)
  | some d, some d', h1, h2 => by
    obtain ⟨⟨p, hp, hh, hw⟩, hmin⟩ := h1
    obtain ⟨⟨p', hp', hh', hw'⟩, hmin'⟩ := h2
    have a1 := hmin p' hp' hh'
    have a2 := hmin' p hp hh
    have : d = d' := by omega
    rw [this]

theorem getD_dist_nonneg {N : Nat} {baseline : Nat → Int} {Table : Nat → Nat → Int}
    (hb : ∀ i, i < N → 0 ≤ baseline i) (hT : ∀ u i, u < N → i < N → 0 ≤ Table u i)
    {i : Nat} {a : Option Int} (h : IsDist N baseline Table i a) : 0 ≤ a.getD 0 := by
  cases a with
  | none => exact le_refl _
  | some d =>
    obtain ⟨⟨p, hp, _, hw⟩, _⟩ := h
    have := pathWeight_nonneg hb hT p hp
    show 0 ≤ d
    omega

theorem dist_of_visited {N : Nat} {baseline : Nat → Int} {Table : Nat → Nat → Int}
    {s : DState} {x j : Nat} (h : PInv N baseline Table s x j) (δ0 : Nat → Option Int)
    (hδ0 : ∀ i, 1 ≤ i → i < N → IsDist N baseline Table i (δ0 i)) {i : Nat} (i1 : 1 ≤ i)
    (iN : i < N) (hv : s.Visited i = true) : δ0 i = some (s.Distances i) := by
  obtain ⟨a, b⟩ := h.opt i i1 iN hv
  exact IsDist_unique (hδ0 i i1 iN) ⟨h.real i i1 iN a, b⟩

theorem visitedSum_le {N : Nat} {baseline : Nat → Int} {Table : Nat → Nat → Int}
    (hb : ∀ i, i < N → 0 ≤ baseline i) (hT : ∀ u i, u < N → i < N → 0 ≤ Table u i)
    {s : DState} {x j : Nat} (h : PInv N baseline Table s x j) (δ0 : Nat → Option Int)
    (hδ0 : ∀ i, 1 ≤ i → i < N → IsDist N baseline Table i (δ0 i)) :
    0 ≤ visitedSum N s ∧ visitedSum N s ≤ ∑ i in Finset.Ico 1 N, (δ0 i).getD 0 := by
  unfold visitedSum
  constructor
  · apply Finset.sum_nonneg
    intro i hi
    rw [Finset.mem_Ico] at hi
    split
    · exact h.nonneg i hi.1 hi.2
    · exact le_refl _
  · apply Finset.sum_le_sum
    intro i hi
    rw [Finset.mem_Ico] at hi
    by_cases hv : s.Visited i = true
    · rw [if_pos hv, dist_of_visited h δ0 hδ0 hi.1 hi.2 hv]
      exact le_refl _
    · rw [if_neg hv]
      exact getD_dist_nonneg hb hT (hδ0 i hi.1 hi.2)

theorem relax_bound {N : Nat} {baseline : Nat → Int} {Table : Nat → Nat → Int}
    (hb : ∀ i, i < N → 0 ≤ baseline i) (hT : ∀ u i, u < N → i < N → 0 ≤ Table u i)
    {s : DState} {y j : Nat} (h : PInv N baseline Table s y j) (y1 : 1 ≤ y) (yN : y < N)
    (hv : s.Visited y = true) (δ0 : Nat → Option Int)
    (hδ0 : ∀ i, 1 ≤ i → i < N → IsDist N baseline Table i (δ0 i))
    (hedge : ∀ u i d, 1 ≤ u → u < N → 1 ≤ i → i < N → δ0 u = some d → Table u i ≠ 0 →
      d + Table u i < 2147483648)
    (hbound : ∑ i in Finset.Ico 1 N, (δ0 i).getD 0 < 2147483648) :
    ∀ i, 1 ≤ i → i < N → s.Distances y + Table y i < 2147483648 := by
  have hy := dist_of_visited h δ0 hδ0 y1 yN hv
  intro i i1 iN
  by_cases hw : Table y i = 0
  · have h1 : (δ0 y).getD 0 ≤ ∑ i in Finset.Ico 1 N, (δ0 i).getD 0 :=
      Finset.single_le_sum (f := fun i => (δ0 i).getD 0)
        (fun k hk => by
          rw [Finset.mem_Ico] at hk
          exact getD_dist_nonneg hb hT (hδ0 k hk.1 hk.2))
        (Finset.mem_Ico.2 ⟨y1, yN⟩)
    rw [hy] at h1
    have h2 : s.Distances y ≤ ∑ i in Finset.Ico 1 N, (δ0 i).getD 0 := h1
    omega
  · exact hedge y i _ y1 yN i1 iN hy hw

theorem djikstraLoop_spec {N : Nat} {baseline : Nat → Int} {Table : Nat → Nat → Int}
    (hb : ∀ i, i < N → 0 ≤ baseline i) (hT : ∀ u i, u < N → i < N → 0 ≤ Table u i)
    (δ0 : Nat → Option Int) (hδ0 : ∀ i, 1 ≤ i → i < N → IsDist N baseline Table i (δ0 i))
    (hedge : ∀ u i d, 1 ≤ u → u < N → 1 ≤ i → i < N → δ0 u = some d → Table u i ≠ 0 →
      d + Table u i < 2147483648)
    (hbound : ∑ i in Finset.Ico 1 N, (δ0 i).getD 0 < 2147483648) :
    ∀ (fuel : Nat) (s : DState) (u : Node) (sum : Int), Head N baseline Table s u →
      unvisited N s < fuel → sum = visitedSum N s →
      ∃ δ : Nat → Option Int,
        djikstraLoop N Table fuel s u sum = some (∑ i in Finset.Ico 1 N, (δ i).getD 0) ∧
        ∀ i, 1 ≤ i → i < N → IsDist N baseline Table i (δ i)
  | 0, _, _, _, _, hf, _ => by omega
  | fuel + 1, s, u, sum, hh, hf, hsum => by
    rcases hh with ⟨hu, hsz, x, h⟩ | ⟨y, y1, yN, hu, yv, h⟩
    · refine ⟨fun i => if s.Visited i = true then some (s.Distances i) else none, ?_, ?_⟩
      · rw [djikstraLoop, if_neg (by rw [hu]; simp), hsum]
        unfold visitedSum
        congr 1
        apply Finset.sum_congr rfl
        intro i _
        by_cases hv : s.Visited i = true
        · simp [hv]
        · simp [hv]
      · intro i i1 iN
        by_cases hv : s.Visited i = true
        · simp only [if_pos hv]
          obtain ⟨a, b⟩ := h.opt i i1 iN hv
          exact ⟨h.real i i1 iN a, b⟩
        · simp only [if_neg hv]
          intro q hq hhd
          obtain ⟨z, z1, zN, zv, zD, _⟩ := exit_lemma hT h q hq i hhd (by simpa using hv)
          have := h.heapAll z z1 zN zv zD
          rw [hsz] at this
          simp [slots] at this
    · have hDy : 0 < s.Distances y :=
        lt_of_le_of_ne (h.nonneg y y1 yN) (Ne.symm (h.opt y y1 yN (if_pos rfl)).1)
      have hov := relax_bound hb hT h y1 yN (if_pos rfl) δ0 hδ0 hedge hbound
      have hstep : visitedSum N
          ⟨fun k => if k = y then true else s.Visited k, s.Distances, s.heap⟩ =
          visitedSum N s + s.Distances y :=
        visitedSum_step N s.Visited s.Distances s.Distances y y1 yN yv (fun _ _ => rfl)
      have hvs := visitedSum_le hb hT h δ0 hδ0
      have hsw : int32 (sum + s.Distances y) = sum + s.Distances y := by
        rw [hstep, ← hsum] at hvs
        exact int32_eq (by omega) (by omega)
      obtain ⟨s2, e2, h2, v2, f2⟩ := relaxAll_spec hT y1 yN (s.Distances y) hov (N - 1) 1
        ⟨fun k => if k = y then true else s.Visited k, s.Distances, s.heap⟩ (le_refl _)
        (by omega) (if_pos rfl) rfl h
      obtain ⟨u1, h1, e3, hh1⟩ := extract_spec hT h2
      obtain ⟨δ, e4, hδ⟩ := djikstraLoop_spec hb hT δ0 hδ0 hedge hbound fuel
        ⟨s2.Visited, s2.Distances, h1⟩ u1 (int32 (sum + s.Distances y)) hh1
        (by
          have := unvisited_step N s.Visited y y1 yN yv
          unfold unvisited at hf ⊢
          simp only [v2]
          omega)
        (by
          rw [hsw]
          unfold visitedSum
          simp only [v2]
          rw [visitedSum_step N s.Visited s.Distances s2.Distances y y1 yN yv f2, hsum]
          rfl)
      refine ⟨δ, ?_, hδ⟩
      rw [djikstraLoop, if_pos (by rw [hu]; show s.Distances y ≠ -1; omega)]
      subst hu
      simp only [Int.toNat_ofNat]
      unfold relaxAll
      rw [e2]
      simp only []
      rw [e3]
      exact e4

theorem seedStep_spec {N : Nat} {baseline : Nat → Int} {s : DState} {y : Nat}
    (y1 : 1 ≤ y) (yN : y < N) (h : SeedInv N baseline s y) :
    ∃ s', seedStep N baseline s y = some s' ∧ SeedInv N baseline s' (y + 1) := by
  have hdist : ∀ i, 1 ≤ i → i < y + 1 →
      (if i = y then baseline y else s.Distances i) = baseline i := by
    intro i i1 iy
    by_cases hiy : i = y
    · rw [if_pos hiy, hiy]
    · rw [if_neg hiy]; exact h.dist i i1 (by omega)
  unfold seedStep
  simp only [if_pos]
  by_cases c : baseline y ≠ 0
  · rw [if_pos c]
    obtain ⟨h', em, hsz, ho', p⟩ := InsertMAX_spec N s.heap ⟨baseline y, (y : Int)⟩ h.heapOrd
      (by have := h.size; omega)
    refine ⟨⟨s.Visited, fun k => if k = y then baseline y else s.Distances k, h'⟩,
      by rw [em]; rfl, ho', ?_, ?_, ?_, ?_, hdist, h.unvis⟩
    · refine (p.map Node.index).nodup_iff.2 ?_
      rw [List.map_cons, List.nodup_cons]
      refine ⟨?_, h.nodup⟩
      intro hm
      rw [List.mem_map] at hm
      obtain ⟨e, he, hej⟩ := hm
      obtain ⟨i, i1, iy, rfl, _⟩ := h.inHeap e he
      have : i = y := by simpa using hej
      omega
    · show h'.HeapSize + 1 ≤ y + 1
      have := h.size
      omega
    · intro e he
      rcases List.mem_cons.1 (p.mem_iff.1 he) with e1 | e1
      · exact ⟨y, y1, by omega, e1, c⟩
      · obtain ⟨i, i1, iy, ei, ib⟩ := h.inHeap e e1
        exact ⟨i, i1, by omega, ei, ib⟩
    · intro i i1 iy ib
      by_cases hiy : i = y
      · subst hiy
        exact p.mem_iff.2 (List.mem_cons_self _ _)
      · exact p.mem_iff.2 (List.mem_cons_of_mem _ (h.heapAll i i1 (by omega) ib))
  · rw [if_neg c]
    refine ⟨_, rfl, h.heapOrd, h.nodup, ?_, ?_, ?_, hdist, h.unvis⟩
    · show s.heap.HeapSize + 1 ≤ y + 1
      have := h.size
      omega
    · intro e he
      obtain ⟨i, i1, iy, ei, ib⟩ := h.inHeap e he
      exact ⟨i, i1, by omega, ei, ib⟩
    · intro i i1 iy ib
      have hiy : i ≠ y := by rintro rfl; exact c ib
      exact h.heapAll i i1 (by omega) ib

theorem seedAll_spec {N : Nat} {baseline : Nat → Int} :
    ∀ (cnt y : Nat) (s : DState), 1 ≤ y → y + cnt = N → SeedInv N baseline s y →
      ∃ s', (List.range' y cnt).foldlM (seedStep N baseline) s = some s' ∧
        SeedInv N baseline s' N
  | 0, y, s, _, hy, h => by
    have : y = N := by omega
    subst this
    exact ⟨s, rfl, h⟩
  | cnt + 1, y, s, y1, hy, h => by
    obtain ⟨s1, e1, h1⟩ := seedStep_spec y1 (by omega) h
    obtain ⟨s2, e2, h2⟩ := seedAll_spec cnt (y + 1) s1 (by omega) (by omega) h1
    refine ⟨s2, ?_, h2⟩
    rw [List.range'_succ, List.foldlM_cons, e1]
    exact e2

theorem PInv_of_seed {N : Nat} {baseline : Nat → Int} {Table : Nat → Nat → Int}
    (hb : ∀ i, i < N → 0 ≤ baseline i) {s : DState} (h : SeedInv N baseline s N) :
    PInv N baseline Table s 0 N := by
  refine ⟨h.heapOrd, h.nodup, ?_, ?_, ?_, ?_, ?_, ?_, ?_⟩
  · intro e he
    obtain ⟨i, i1, iN, ei, ib⟩ := h.inHeap e he
    exact ⟨i, i1, iN, by rw [h.dist i i1 iN]; exact ei, h.unvis i i1 iN,
      by rw [h.dist i i1 iN]; exact ib⟩
  · intro i i1 iN _ iD
    rw [h.dist i i1 iN] at iD ⊢
    exact h.heapAll i i1 iN iD
  · intro i i1 iN
    rw [h.dist i i1 iN]; exact hb i iN
  · intro i i1 iN iD
    rw [h.dist i i1 iN] at iD ⊢
    exact ⟨[i], ⟨i1, iN, iD⟩, rfl, rfl⟩
  · intro i i1 iN iv
    rw [h.unvis i i1 iN] at iv
    exact Bool.noConfusion iv
  · intro i i1 iN _ ib
    rw [h.dist i i1 iN]
    exact ⟨ib, le_refl _⟩
  · intro u i u1 uN _ _ uv
    rw [h.unvis u u1 uN] at uv
    exact Bool.noConfusion uv

theorem shortestPathSum_spec {N : Nat} (hN : 1 ≤ N) {baseline : Nat → Int}
    {Table : Nat → Nat → Int} (hb : ∀ i, i < N → 0 ≤ baseline i)
    (hT : ∀ u i, u < N → i < N → 0 ≤ Table u i) (δ : Nat → Option Int)
    (hδ : ∀ i, 1 ≤ i → i < N → IsDist N baseline Table i (δ i))
    (hedge : ∀ u i d, 1 ≤ u → u < N → 1 ≤ i → i < N → δ u = some d → Table u i ≠ 0 →
      d + Table u i < 2147483648)
    (hsum : ∑ i in Finset.Ico 1 N, (δ i).getD 0 < 2147483648) (s : DState) :
    shortestPathSum N baseline Table s = some (∑ i in Finset.Ico 1 N, (δ i).getD 0) := by
  have h0 : SeedInv N baseline
      ⟨fun k => if 1 ≤ k ∧ k < N then false else if k = 0 then true else s.Visited k,
        fun k => if k = 0 then baseline 0 else s.Distances k, ⟨s.heap.A, 0⟩⟩ 1 := by
    refine ⟨fun k k2 kn => ?_, ?_, le_refl _, ?_, ?_, ?_, ?_⟩
    · have : k ≤ 0 := kn
      omega
    · simp [slots]
    · intro e he
      simp [slots] at he
    · intro i i1 iy
      omega
    · intro i i1 iy
      omega
    · intro i i1 iN
      show (if 1 ≤ i ∧ i < N then false else _) = false
      rw [if_pos ⟨i1, iN⟩]
  obtain ⟨s1, e1, h1⟩ := seedAll_spec (N - 1) 1 _ (le_refl _) (by omega) h0
  have hP : PInv N baseline Table s1 0 N := PInv_of_seed hb h1
  obtain ⟨u, hp, e2, hh⟩ := extract_spec hT hP
  have hvs : visitedSum N ⟨s1.Visited, s1.Distances, hp⟩ = 0 := by
    unfold visitedSum
    apply Finset.sum_eq_zero
    intro i hi
    rw [Finset.mem_Ico] at hi
    show (if s1.Visited i = true then _ else _) = 0
    rw [if_neg (by rw [h1.unvis i hi.1 hi.2]; simp)]
  have hcard : unvisited N ⟨s1.Visited, s1.Distances, hp⟩ < N + 1 := by
    unfold unvisited
    have := Finset.card_filter_le (Finset.Ico 1 N) (fun i => s1.Visited i = false)
    rw [Nat.card_Ico] at this
    show (Finset.filter (fun i => s1.Visited i = false) (Finset.Ico 1 N)).card < N + 1
    omega
  obtain ⟨δ1, e3, hδ1⟩ := djikstraLoop_spec hb hT δ hδ hedge hsum (N + 1)
    ⟨s1.Visited, s1.Distances, hp⟩ u 0 hh hcard hvs.symm
  have heq : ∑ i in Finset.Ico 1 N, (δ1 i).getD 0 = ∑ i in Finset.Ico 1 N, (δ i).getD 0 := by
    apply Finset.sum_congr rfl
    intro i hi
    rw [Finset.mem_Ico] at hi
    rw [IsDist_unique (hδ1 i hi.1 hi.2) (hδ i hi.1 hi.2)]
  unfold shortestPathSum init_heaps
  simp only []
  rw [e1]
  unfold Djikstra
  simp only []
  rw [e2, ← heq]
  exact e3

theorem example_dist : ∀ i, 1 ≤ i → i < 3 →
    IsDist 3 (fun i => if i = 1 then 3 else 0) (fun u i => if u = 1 ∧ i = 2 then 2 else 0) i
      (if i = 1 then some 3 else if i = 2 then some 5 else none) := by
  intro i i1 i3
  have hi : i = 1 ∨ i = 2 := by omega
  rcases hi with rfl | rfl
  · refine ⟨⟨[1], ⟨by decide, by decide, by decide⟩, rfl, rfl⟩, ?_⟩
    intro p hp hh
    match p, hp, hh with
    | [v], hp, hh =>
      simp only [List.head?_cons, Option.some.injEq] at hh
      subst hh
      exact le_refl _
    | v :: w :: rest, hp, hh =>
      simp only [List.head?_cons, Option.some.injEq] at hh
      subst hh
      exact absurd hp.2.2.1 (by simp)
  · refine ⟨⟨[2, 1], ⟨by decide, by decide, by decide, by decide, by decide, by decide⟩,
      rfl, rfl⟩, ?_⟩
    intro p hp hh
    match p, hp, hh with
    | [v], hp, hh =>
      simp only [List.head?_cons, Option.some.injEq] at hh
      subst hh
      exact absurd hp.2.2 (by simp)
    | [v, w], hp, hh =>
      simp only [List.head?_cons, Option.some.injEq] at hh
      subst hh
      have hw : w = 1 := by
        by_contra hc
        exact hp.2.2.1 (by simp [hc])
      subst hw
      exact le_refl _
    | v :: w :: w2 :: rest, hp, hh =>
      simp only [List.head?_cons, Option.some.injEq] at hh
      subst hh
      have hw : w = 1 := by
        by_contra hc
        exact hp.2.2.1 (by simp [hc])
      subst hw
      exact absurd hp.2.2.2.2.2.1 (by simp)

theorem example_edges : ∀ u i d, 1 ≤ u → u < 3 → 1 ≤ i → i < 3 →
    (if u = 1 then some (3 : Int) else if u = 2 then some 5 else none) = some d →
    (if u = 1 ∧ i = 2 then (2 : Int) else 0) ≠ 0 →
    d + (if u = 1 ∧ i = 2 then (2 : Int) else 0) < 2147483648 := by
  intro u i d _ _ _ _ hd hw
  by_cases hc : u = 1 ∧ i = 2
  · rw [if_pos hc.1] at hd
    cases hd
    rw [if_pos hc]
    decide
  · rw [if_neg hc] at hw
    exact absurd rfl hw

theorem example_sum :
    ∑ i in Finset.Ico 1 3, (if i = 1 then some (3 : Int) else if i = 2 then some 5
      else none).getD 0 = 8 := by
  decide

theorem overflow_dist : ∀ i, 1 ≤ i → i < 3 →
    IsDist 3 (fun i => if i = 1 ∨ i = 2 then 2000000000 else 0) (fun _ _ => 0) i
      (some 2000000000) := by
  intro i i1 i3
  have hb : (if i = 1 ∨ i = 2 then (2000000000 : Int) else 0) = 2000000000 :=
    if_pos (by omega)
  refine ⟨⟨[i], ⟨i1, i3, by show (if i = 1 ∨ i = 2 then (2000000000 : Int) else 0) ≠ 0
                            rw [hb]; decide⟩, rfl, hb⟩, ?_⟩
  intro p hp hh
  match p, hp, hh with
  | [v], hp, hh =>
    simp only [List.head?_cons, Option.some.injEq] at hh
    subst hh
    show 2000000000 ≤ (if v = 1 ∨ v = 2 then (2000000000 : Int) else 0)
    rw [hb]
  | v :: w :: rest, hp, hh => exact absurd rfl hp.2.2.1

/-- The counterexample to C1 as stated: with `N = 3`, the baseline `[0, 2000000000,
2000000000]` and no edge in the table, both nodes have the shortest-path distance
`2000000000`, whose sum is `4000000000`, and the code returns `-294967296`: the `int` sum
overflows. -/
theorem C1_sum_overflows_int :
    (∀ i, 1 ≤ i → i < 3 →
      IsDist 3 (fun i => if i = 1 ∨ i = 2 then 2000000000 else 0) (fun _ _ => 0) i
        (some 2000000000)) ∧
    ∑ _i in Finset.Ico 1 3, ((some 2000000000 : Option Int)).getD 0 = 4000000000 ∧
    shortestPathSum 3 (fun i => if i = 1 ∨ i = 2 then 2000000000 else 0) (fun _ _ => 0)
      ⟨fun _ => false, fun _ => 0, ⟨fun _ => ⟨0, 0⟩, 0⟩⟩ = some (-294967296) :=
  ⟨overflow_dist, by decide, by decide⟩

/-- Claim C1, amended: for every node count `N ≥ 1`, baseline vector and weight matrix with
non-negative entries, let `δ i` be the shortest-path distance of the node `i` (the weight of a
lightest path from the implicit source, nothing when `i` is unreachable).  When no addition of
the run leaves the range of `int`, that is, `δ u + Table[u][i] < 2^31` for every present edge
that leaves a reachable node and the sum of the distances is below `2^31`, then resetting the
arrays, seeding the heap from the baseline and running `Djikstra` returns the sum over the
nodes `1 .. N-1` of `δ i`. -/
theorem C1_djikstra_returns_sum_of_shortest_distances (N : Nat) (hN : 1 ≤ N)
    (baseline : Nat → Int) (Table : Nat → Nat → Int) (hb : ∀ i, i < N → 0 ≤ baseline i)
    (hT : ∀ u i, u < N → i < N → 0 ≤ Table u i) (δ : Nat → Option Int)
    (hδ : ∀ i, 1 ≤ i → i < N → IsDist N baseline Table i (δ i))
    (hedge : ∀ u i d, 1 ≤ u → u < N → 1 ≤ i → i < N → δ u = some d → Table u i ≠ 0 →
      d + Table u i < 2147483648)
    (hsum : ∑ i in Finset.Ico 1 N, (δ i).getD 0 < 2147483648) (s : DState) :
    shortestPathSum N baseline Table s = some (∑ i in Finset.Ico 1 N, (δ i).getD 0) :=
  shortestPathSum_spec hN hb hT δ hδ hedge hsum s

/-- C1 at a concrete input: `N = 3`, baseline `[0, 3, 0]`, `Table[1][2] = 2` and every other
weight `0`, with the distances `3` and `5`.  The hypotheses hold and the returned sum is `8`. -/
theorem C1_djikstra_witness :
    1 ≤ 3 ∧ (∀ i, i < 3 → (0 : Int) ≤ if i = 1 then 3 else 0) ∧
      (∀ u i, u < 3 → i < 3 → (0 : Int) ≤ if u = 1 ∧ i = 2 then 2 else 0) ∧
      (∀ i, 1 ≤ i → i < 3 →
        IsDist 3 (fun i => if i = 1 then 3 else 0) (fun u i => if u = 1 ∧ i = 2 then 2 else 0) i
          (if i = 1 then some 3 else if i = 2 then some 5 else none)) ∧
      ∑ i in Finset.Ico 1 3, (if i = 1 then some (3 : Int) else if i = 2 then some 5
        else none).getD 0 = 8 ∧
      shortestPathSum 3 (fun i => if i = 1 then 3 else 0)
          (fun u i => if u = 1 ∧ i = 2 then 2 else 0)
          ⟨fun _ => false, fun _ => 0, ⟨fun _ => ⟨0, 0⟩, 0⟩⟩ =
        some (∑ i in Finset.Ico 1 3, (if i = 1 then some (3 : Int) else if i = 2 then some 5
          else none).getD 0) :=
  ⟨by decide, fun i _ => by split <;> decide, fun u i _ _ => by split <;> decide,
    example_dist, example_sum,
    C1_djikstra_returns_sum_of_shortest_distances 3 (by decide) _ _
      (fun i _ => by split <;> decide) (fun u i _ _ => by split <;> decide)
      (fun i => if i = 1 then some 3 else if i = 2 then some 5 else none)
      example_dist example_edges (by rw [example_sum]; decide)
      ⟨fun _ => false, fun _ => 0, ⟨fun _ => ⟨0, 0⟩, 0⟩⟩⟩

theorem map_key_pairsOf (m : Mem) (l : List Nat) :
    (pairsOf m l).map Prod.fst = l.map fun a => (m.cell a).Key := by
  simp [pairsOf, List.map_map, Function.comp]

/-- Claim C11: after every sequence of insertions the in-order traversal of the tree lists
one node per inserted cost, and the keys it lists are the inserted costs sorted in
non-decreasing order. -/
theorem C11_inorder_keys_are_the_sorted_costs (cs : List (Int × Int)) :
    ∃ m nodes, addAll Mem.empty cs = some m ∧ inorder m (m.next + 1) m.root = some nodes ∧
      (nodes.map fun a => (m.cell a).Key) = (cs.map Prod.fst).insertionSort (· ≤ ·) := by
  obtain ⟨m, t, e, hinv, _, hp⟩ := addAll_spec cs Mem.empty .nil Inv_empty
  refine ⟨m, t.addrs, e, Inv_inorder hinv, ?_⟩
  rw [← map_key_pairsOf]
  exact keys_eq_sort hinv (by simpa [pairsOf, Sh.addrs] using hp)

theorem addAll_sorted : ∀ (cs : List (Int × Int)) (m : Mem) (t : Sh), Inv m t →
    (pairsOf m t.addrs).Sorted lexLE → (cs.map Prod.snd).Sorted (· < ·) →
    (∀ p ∈ pairsOf m t.addrs, ∀ q ∈ cs, p.2 < q.2) →
    ∃ m1 t1, addAll m cs = some m1 ∧ Inv m1 t1 ∧ (pairsOf m1 t1.addrs).Sorted lexLE ∧
      (pairsOf m1 t1.addrs).Perm (pairsOf m t.addrs ++ cs)
  | [], m, t, hinv, hs, _, _ => ⟨m, t, rfl, hinv, hs, by simp⟩
  | (k, i) :: rest, m, t, hinv, hs, hids, hlt => by
    obtain ⟨m1, t1, e1, hinv1, hp1⟩ := insert_branch hinv hs i
      (fun p hp => hlt p hp (k, i) (List.mem_cons_self _ _)) k
    have hs1 : (pairsOf m1 t1.addrs).Sorted lexLE := by
      rw [hp1]; exact hs.orderedInsert _ _
    rw [List.map_cons, List.sorted_cons] at hids
    have hlt1 : ∀ p ∈ pairsOf m1 t1.addrs, ∀ q ∈ rest, p.2 < q.2 := by
      intro p hp q hq
      rw [hp1, List.mem_orderedInsert] at hp
      rcases hp with rfl | hp
      · exact hids.1 q.2 (List.mem_map_of_mem _ hq)
      · exact hlt p hp q (List.mem_cons_of_mem _ hq)
    obtain ⟨m2, t2, e2, hinv2, hs2, hp2⟩ := addAll_sorted rest m1 t1 hinv1 hs1 hids.2 hlt1
    refine ⟨m2, t2, ?_, hinv2, hs2, ?_⟩
    · rw [addAll, e1]; exact e2
    · refine hp2.trans ?_
      rw [hp1]
      refine ((List.perm_orderedInsert lexLE (k, i) _).append_right rest).trans ?_
      simp only [List.cons_append]
      exact List.perm_middle.symm

/-- Claim C12: when the inserted nodes carry strictly increasing sequence ids, the in-order
traversal lists the inserted pairs, and of two nodes with equal cost the one that comes first
in the traversal has the smaller id, that is, was inserted first. -/
theorem C12_equal_costs_keep_insertion_order (cs : List (Int × Int))
    (hids : (cs.map Prod.snd).Sorted (· < ·)) :
    ∃ m ps, addAll Mem.empty cs = some m ∧ treePairs m = some ps ∧ ps.Perm cs ∧
      ps.Pairwise fun p q => p.1 = q.1 → p.2 < q.2 := by
  obtain ⟨m, t, e, hinv, hs, hp⟩ := addAll_sorted cs Mem.empty .nil Inv_empty
    (by simp [pairsOf, Sh.addrs]) hids (by simp [pairsOf, Sh.addrs])
  have hp1 : (pairsOf m t.addrs).Perm cs := by simpa [pairsOf, Sh.addrs] using hp
  refine ⟨m, _, e, treePairs_of_inv hinv, hp1, ?_⟩
  have hnd : ((pairsOf m t.addrs).map Prod.snd).Nodup :=
    (hp1.map Prod.snd).nodup_iff.2 hids.nodup
  have hne : (pairsOf m t.addrs).Pairwise fun p q => p.2 ≠ q.2 :=
    List.pairwise_map.1 hnd
  have hle : (pairsOf m t.addrs).Pairwise lexLE := hs
  refine (hle.and hne).imp ?_
  intro p q ⟨h1, h2⟩ h3
  unfold lexLE at h1
  omega

/-- C12 at a concrete input: three nodes of cost `5` with the ids `0, 1, 2`. -/
theorem C12_equal_costs_witness :
    ([((5 : Int), (0 : Int)), (5, 1), (5, 2)].map Prod.snd).Sorted (· < ·) ∧
    ∃ m ps, addAll Mem.empty [((5 : Int), (0 : Int)), (5, 1), (5, 2)] = some m ∧
      treePairs m = some ps ∧ ps.Perm [((5 : Int), (0 : Int)), (5, 1), (5, 2)] ∧
      ps.Pairwise fun p q => p.1 = q.1 → p.2 < q.2 :=
  ⟨by decide, C12_equal_costs_keep_insertion_order _ (by decide)⟩

/-- The counterexample to C13 as stated: after the costs `5, 5, 5` the root has key `5` and
its left child has key `5` too, a key equal to the node's cost in its left subtree. -/
theorem C13_equal_key_on_the_left : rootAndLeftKeys [5, 5, 5] = some (5, 5) := by decide

/-- Claim C13, amended: after every sequence of insertions, for every node `x` of the tree the
traversals of its two subtrees return, every key in the left subtree of `x` is at most the
key of `x` and every key in the right subtree is at least the key of `x`. -/
theorem C13_subtree_keys_are_bounded_by_the_node (cs : List (Int × Int)) :
    ∃ m nodes, addAll Mem.empty cs = some m ∧ inorder m (m.next + 1) m.root = some nodes ∧
      nodes.length = cs.length ∧
      ∀ x ∈ nodes, ∃ ls rs, inorder m (m.next + 1) (m.cell x).l = some ls ∧
        inorder m (m.next + 1) (m.cell x).r = some rs ∧
        (∀ b ∈ ls, (m.cell b).Key ≤ (m.cell x).Key) ∧
        (∀ b ∈ rs, (m.cell x).Key ≤ (m.cell b).Key) := by
  obtain ⟨m, t, e, hinv, _, hp⟩ := addAll_spec cs Mem.empty .nil Inv_empty
  have hlen : t.addrs.length = cs.length := by
    have := hp.length_eq
    simpa [pairsOf, Sh.addrs] using this
  refine ⟨m, t.addrs, e, Inv_inorder hinv, hlen, ?_⟩
  intro x hx
  obtain ⟨ctx, l, r, ht⟩ := exists_plug_of_mem t hx
  have hrepr := hinv.wf.repr
  rw [ht, Repr_plug] at hrepr
  obtain ⟨_, _, hl, hr, hrl, hrr⟩ := hrepr
  have hbound : t.addrs.length ≤ m.next := length_le_of_nodup_bound hinv.wf.nodup hinv.bound
  have haddrs : t.addrs = ctxLeft ctx ++ (l.addrs ++ x :: r.addrs) ++ ctxRight ctx := by
    rw [ht, addrs_plug]; rfl
  have hlen2 : l.addrs.length + r.addrs.length < t.addrs.length := by
    rw [haddrs]; simp only [List.length_append, List.length_cons]; omega
  have hord : (l.addrs ++ x :: r.addrs).Pairwise fun a b => (m.cell a).Key ≤ (m.cell b).Key := by
    have := hinv.ord
    unfold Ordered at this
    rw [haddrs] at this
    exact (List.pairwise_append.1 (List.pairwise_append.1 this).1).2.1
  rw [List.pairwise_append] at hord
  refine ⟨l.addrs, r.addrs, ?_, ?_, ?_, ?_⟩
  · rw [hl]
    exact inorder_eq l (some x) _ hrl (by have := height_le l; omega)
  · rw [hr]
    exact inorder_eq r (some x) _ hrr (by have := height_le r; omega)
  · intro b hb
    exact hord.2.2 b hb x (List.mem_cons_self _ _)
  · intro b hb
    exact (List.pairwise_cons.1 hord.2.1).1 b hb

theorem siftDown_total (n : Nat) : ∀ (fuel : Nat) (A : Nat → Node) (key : Nat),
    1 ≤ key → 1 ≤ fuel → n < fuel + key → ∃ A', Min_Heapify n fuel A key = some A'
  | 0, _, _, _, hf, _ => by omega
  | fuel + 1, A, key, h1, _, hf => by
    rw [Min_Heapify]
    by_cases c1 : 2 * key ≤ n ∧ (A (2 * key)).dist < (A key).dist
    · rw [if_pos c1]
      by_cases c2 : 2 * key + 1 ≤ n ∧ (A (2 * key + 1)).dist < (A (2 * key)).dist
      · rw [if_pos c2, if_pos (by omega)]
        exact siftDown_total n fuel _ _ (by omega) (by omega) (by omega)
      · rw [if_neg c2, if_pos (by omega)]
        exact siftDown_total n fuel _ _ (by omega) (by omega) (by omega)
    · rw [if_neg c1]
      by_cases c2 : 2 * key + 1 ≤ n ∧ (A (2 * key + 1)).dist < (A key).dist
      · rw [if_pos c2, if_pos (by omega)]
        exact siftDown_total n fuel _ _ (by omega) (by omega) (by omega)
      · rw [if_neg c2, if_neg (by simp)]
        exact ⟨A, rfl⟩

/-- Claim C15: `Cancella_Min` always returns; on an empty heap it returns the sentinel
`(-1, -1)` and the heap as it was, array and `HeapSize`; and when the stored distances are
non-negative it returns the sentinel only on an empty heap. -/
theorem C15_sentinel_exactly_on_the_empty_heap (h : Heap) :
    ∃ u h1, Cancella_Min h = some (u, h1) ∧
      (h.HeapSize < 1 → u = ⟨-1, -1⟩ ∧ h1 = h) ∧
      ((∀ k, 1 ≤ k → k ≤ h.HeapSize → 0 ≤ (h.A k).dist) → u = ⟨-1, -1⟩ → h.HeapSize < 1) := by
  by_cases hn : h.HeapSize < 1
  · refine ⟨⟨-1, -1⟩, h, ?_, fun _ => ⟨rfl, rfl⟩, fun _ _ => hn⟩
    unfold Cancella_Min
    rw [if_pos hn]
  · obtain ⟨A2, e⟩ := siftDown_total (h.HeapSize - 1) (h.HeapSize + 1)
      (fun k => if k = 1 then h.A h.HeapSize else h.A k) 1 (le_refl _) (by omega) (by omega)
    refine ⟨h.A 1, ⟨A2, h.HeapSize - 1⟩, ?_, fun h0 => absurd h0 hn, ?_⟩
    · unfold Cancella_Min
      rw [if_neg hn]
      simp only []
      rw [e]; rfl
    · intro hpos hu
      have h1 := hpos 1 (le_refl _) (by omega)
      rw [hu] at h1
      exact absurd h1 (by decide)

theorem scanLoop_absent (n : Nat) (d idx : Int) (A : Nat → Node) :
    ∀ (fuel i : Nat), i ≤ n + 1 → n + 2 ≤ fuel + i →
      (∀ j, i ≤ j → j ≤ n → (A j).index ≠ idx) →
      scanLoop n d idx fuel A i false = some (A, n + 1)
  | 0, i, h1, h2, _ => by omega
  | fuel + 1, i, h1, h2, hno => by
    rw [scanLoop]
    by_cases c : i ≤ n
    · rw [if_pos ⟨c, by simp⟩, if_neg (hno i (le_refl _) c)]
      exact scanLoop_absent n d idx A fuel (i + 1) (by omega) (by omega)
        (fun j hj1 hj2 => hno j (by omega) hj2)
    · rw [if_neg (fun hc => c hc.1)]
      have : i = n + 1 := by omega
      rw [this]

theorem ModificaHeap_absent (h : Heap) (d idx : Int) (ho : HeapOrd h.A h.HeapSize)
    (hno : ∀ e ∈ slots h.A h.HeapSize, e.index ≠ idx) : ModificaHeap h d idx = some h := by
  have hscan := scanLoop_absent h.HeapSize d idx h.A (h.HeapSize + 2) 1 (by omega) (by omega)
    (fun j j1 jn => hno _ ((mem_slots _ _ _).2 ⟨j, j1, jn, rfl⟩))
  unfold ModificaHeap
  rw [hscan]
  simp only [Nat.add_sub_cancel]
  rw [Min_Heapify2, if_neg]
  · rfl
  · rintro ⟨h1, h2⟩
    have := ho h.HeapSize (by omega) (le_refl _)
    omega

theorem Reach_HeapOrd {N : Nat} {h : Heap} (hr : Reach N h) : HeapOrd h.A h.HeapSize := by
  induction hr with
  | start A =>
    intro k k2 kn
    have : k ≤ 0 := kn
    omega
  | @ins h h1 a _ _ e ih =>
    have hN : h.HeapSize + 1 < N := by
      by_contra hc
      unfold InsertMAX at e
      simp only [] at e
      rw [if_neg hc] at e
      exact Option.noConfusion e
    obtain ⟨h2, e2, _, ho2, _⟩ := InsertMAX_spec N h a ih hN
    rw [e] at e2
    cases e2
    exact ho2
  | @del h h1 u _ e ih =>
    by_cases hn : 1 ≤ h.HeapSize
    · obtain ⟨A2, e2, ho2, _⟩ := Cancella_Min_spec h ih hn
      rw [e] at e2
      cases e2
      exact ho2
    · unfold Cancella_Min at e
      rw [if_pos (by omega)] at e
      cases e
      exact ih
  | @upd h h1 d idx _ hle e ih =>
    by_cases hex : ∃ e ∈ slots h.A h.HeapSize, e.index = idx
    · obtain ⟨h2, _, _, e2, _, ho2, _⟩ := ModificaHeap_spec h d idx ih hex hle
      rw [e] at e2
      cases e2
      exact ho2
    · have e2 := ModificaHeap_absent h d idx ih (fun e he hi => hex ⟨e, he, hi⟩)
      rw [e] at e2
      cases e2
      exact ih

theorem twoEntryHeap_reach : Reach 3 twoEntryHeap := by
  have r0 : Reach 3 ⟨fun _ => ⟨0, 0⟩, 0⟩ := Reach.start _
  have r1 : Reach 3 ⟨fun k => if k = 1 then ⟨7, 1⟩ else ⟨0, 0⟩, 1⟩ :=
    Reach.ins ⟨7, 1⟩ r0 (by simp [slots]) rfl
  exact Reach.ins ⟨3, 2⟩ r1 (by simp [slots]) rfl

theorem twoEntryHeap_min : Cancella_Min twoEntryHeap =
    some (⟨3, 2⟩, ⟨fun k => if k = 1 then twoEntryHeap.A 2 else twoEntryHeap.A k, 1⟩) := rfl

/-- Claim C14: on every non-empty heap reached from the empty heap by `InsertMAX`,
`Cancella_Min` and `ModificaHeap` calls (node ids distinct, every `ModificaHeap` distance not
larger than the one of its target), `Cancella_Min` returns an entry of the heap whose distance
is at most every distance in the heap, and the heap it leaves holds the other entries, each as
often as before, and nothing else. -/
theorem C14_Cancella_Min_extracts_the_minimum (N : Nat) (h : Heap) (hr : Reach N h)
    (hn : 1 ≤ h.HeapSize) :
    ∃ u h1, Cancella_Min h = some (u, h1) ∧ u ∈ slots h.A h.HeapSize ∧
      (∀ e ∈ slots h.A h.HeapSize, u.dist ≤ e.dist) ∧ h1.HeapSize + 1 = h.HeapSize ∧
      (slots h.A h.HeapSize).Perm (u :: slots h1.A h1.HeapSize) := by
  obtain ⟨A2, e, _, hp, hmin⟩ := Cancella_Min_spec h (Reach_HeapOrd hr) hn
  refine ⟨h.A 1, ⟨A2, h.HeapSize - 1⟩, e, hp.mem_iff.2 (List.mem_cons_self _ _), hmin, ?_, hp⟩
  show h.HeapSize - 1 + 1 = h.HeapSize
  omega

/-- C14 at a concrete input: the heap reached by inserting `(7, 1)` then `(3, 2)` on an array
of three slots. -/
theorem C14_Cancella_Min_witness :
    Reach 3 twoEntryHeap ∧ 1 ≤ twoEntryHeap.HeapSize ∧
      ∃ u h1, Cancella_Min twoEntryHeap = some (u, h1) ∧
        u ∈ slots twoEntryHeap.A twoEntryHeap.HeapSize ∧
        (∀ e ∈ slots twoEntryHeap.A twoEntryHeap.HeapSize, u.dist ≤ e.dist) ∧
        h1.HeapSize + 1 = twoEntryHeap.HeapSize ∧
        (slots twoEntryHeap.A twoEntryHeap.HeapSize).Perm (u :: slots h1.A h1.HeapSize) :=
  ⟨twoEntryHeap_reach, by decide,
    C14_Cancella_Min_extracts_the_minimum 3 twoEntryHeap twoEntryHeap_reach (by decide)⟩

/-- Claim C18: on a heap in heap order with distinct node ids, `ModificaHeap(A, d, id)` with
an entry of index `id` in the heap and `d` at most its distance returns a heap of the same
size, in heap order, with the same entries except that this one has distance `d`; with no
entry of index `id` in the heap (the empty heap included) it returns the heap unchanged. -/
theorem C18_ModificaHeap_changes_one_distance (h : Heap) (d id : Int)
    (ho : HeapOrd h.A h.HeapSize) (hnd : ((slots h.A h.HeapSize).map Node.index).Nodup) :
    (∀ d0, (⟨d0, id⟩ : Node) ∈ slots h.A h.HeapSize → d ≤ d0 →
      ∃ h1 rest, ModificaHeap h d id = some h1 ∧ h1.HeapSize = h.HeapSize ∧
        HeapOrd h1.A h1.HeapSize ∧ (slots h.A h.HeapSize).Perm (⟨d0, id⟩ :: rest) ∧
        (slots h1.A h1.HeapSize).Perm (⟨d, id⟩ :: rest)) ∧
    ((∀ e ∈ slots h.A h.HeapSize, e.index ≠ id) → ModificaHeap h d id = some h) := by
  refine ⟨?_, ModificaHeap_absent h d id ho⟩
  intro d0 hin hd
  have huniq : ∀ e ∈ slots h.A h.HeapSize, e.index = id → e = ⟨d0, id⟩ := by
    intro e he hi
    exact List.inj_on_of_nodup_map hnd he hin hi
  obtain ⟨h1, e0, rest, em, hsz, ho1, hi0, p1, p2⟩ := ModificaHeap_spec h d id ho
    ⟨_, hin, rfl⟩ (fun e he hi => by rw [huniq e he hi]; exact hd)
  have he0 : e0 = ⟨d0, id⟩ := huniq e0 (p1.mem_iff.2 (List.mem_cons_self _ _)) hi0
  rw [he0] at p1
  exact ⟨h1, rest, em, hsz, ho1, p1, p2⟩

/-- C18 at a concrete input: the heap `[(1, 1), (2, 2)]` and the call
`ModificaHeap(A, 0, 2)`. -/
theorem C18_ModificaHeap_witness :
    HeapOrd (fun k => if k = 1 then (⟨1, 1⟩ : Node) else ⟨2, 2⟩) 2 ∧
    ((slots (fun k => if k = 1 then (⟨1, 1⟩ : Node) else ⟨2, 2⟩) 2).map Node.index).Nodup ∧
    ((∀ d0, (⟨d0, 2⟩ : Node) ∈ slots (fun k => if k = 1 then (⟨1, 1⟩ : Node) else ⟨2, 2⟩) 2 →
      0 ≤ d0 →
      ∃ h1 rest, ModificaHeap ⟨fun k => if k = 1 then (⟨1, 1⟩ : Node) else ⟨2, 2⟩, 2⟩ 0 2 =
          some h1 ∧ h1.HeapSize = 2 ∧
        HeapOrd h1.A h1.HeapSize ∧
        (slots (fun k => if k = 1 then (⟨1, 1⟩ : Node) else ⟨2, 2⟩) 2).Perm (⟨d0, 2⟩ :: rest) ∧
        (slots h1.A h1.HeapSize).Perm (⟨0, 2⟩ :: rest)) ∧
    ((∀ e ∈ slots (fun k => if k = 1 then (⟨1, 1⟩ : Node) else ⟨2, 2⟩) 2, e.index ≠ 2) →
      ModificaHeap ⟨fun k => if k = 1 then (⟨1, 1⟩ : Node) else ⟨2, 2⟩, 2⟩ 0 2 =
        some ⟨fun k => if k = 1 then (⟨1, 1⟩ : Node) else ⟨2, 2⟩, 2⟩)) :=
  ⟨fun k h1 h2 => by
      obtain rfl : k = 2 := by omega
      decide,
    by decide,
    C18_ModificaHeap_changes_one_distance ⟨fun k => if k = 1 then (⟨1, 1⟩ : Node) else ⟨2, 2⟩, 2⟩
      0 2
      (fun k h1 h2 => by
        have h3 : k ≤ 2 := h2
        obtain rfl : k = 2 := by omega
        decide)
      (by decide)⟩

theorem mem_stream : ∀ (cs : List Int) (p : Int × Int), p ∈ stream cs →
    ∃ j : Nat, p.2 = (j : Int) ∧ cs[j]? = some p.1 := by
  intro cs
  induction cs using List.reverseRecOn with
  | nil => intro p hp; simp [stream] at hp
  | append_singleton cs c ih =>
    intro p hp
    rw [stream_snoc, List.mem_append, List.mem_singleton] at hp
    rcases hp with hp | rfl
    · obtain ⟨j, h1, h2⟩ := ih p hp
      have hj : j < cs.length := by
        by_contra hc
        rw [List.getElem?_eq_none (by omega)] at h2
        exact Option.noConfusion h2
      exact ⟨j, h1, by rw [List.getElem?_append_left hj]; exact h2⟩
    · exact ⟨cs.length, rfl, by simp⟩

theorem queries_ids (K : Nat) (hK : 1 ≤ K) : ∀ (cs2 cs1 : List Int) (st : State),
    MInv K cs1 st → (∀ ps, treePairs st.mem = some ps → ∀ p ∈ ps, p ∈ stream cs1) →
    ∃ st1, queries K st cs2 = some st1 ∧ MInv K (cs1 ++ cs2) st1 ∧
      ∀ ps, treePairs st1.mem = some ps → ∀ p ∈ ps, p ∈ stream (cs1 ++ cs2)
  | [], cs1, st, h, hm => ⟨st, rfl, by simpa using h, by simpa using hm⟩
  | c :: rest, cs1, st, h, hm => by
    obtain ⟨st1, e1, h1, hstep⟩ := query_step K hK cs1 st c h
    obtain ⟨t, hinv, _⟩ := h
    have hm1 : ∀ ps, treePairs st1.mem = some ps → ∀ p ∈ ps, p ∈ stream (cs1 ++ [c]) := by
      intro ps hps p hp
      rw [stream_snoc, List.mem_append, List.mem_singleton]
      by_cases hc : (K : Int) < 20000 ∧ K ≤ cs1.length ∧ ¬ c < st.val_max
      · have := (hstep t hinv).2 hc
        rw [this] at hps
        exact Or.inl (hm ps hps p hp)
      · obtain ⟨t1, hinv1, hp1⟩ := (hstep t hinv).1 hc
        rw [treePairs_of_inv hinv1, hp1] at hps
        cases hps
        rw [List.mem_orderedInsert] at hp
        rcases hp with rfl | hp
        · exact Or.inr rfl
        · exact Or.inl (hm _ (treePairs_of_inv hinv) p hp)
    obtain ⟨st2, e2, h2, hm2⟩ := queries_ids K hK rest (cs1 ++ [c]) st1 h1 hm1
    refine ⟨st2, ?_, by simpa using h2, by simpa using hm2⟩
    rw [queries, e1]
    exact e2

/-- Claim C16: for every `K ≥ 1` and every stream of query costs, after the stream the
counter equals the number of queries processed, every pair `(cost, id)` stored in the tree is
the cost of the query at position `id` of the whole stream, and the next query, when it is
inserted, is stored with the id equal to the number of queries processed before it. -/
theorem C16_ids_are_positions_in_the_stream (K : Nat) (hK : 1 ≤ K) (cs : List Int) (c : Int) :
    ∃ st st1 ps, queries K State.init cs = some st ∧ st.count = (cs.length : Int) ∧
      treePairs st.mem = some ps ∧
      (∀ p ∈ ps, ∃ j : Nat, p.2 = (j : Int) ∧ cs[j]? = some p.1) ∧
      query K st c = some st1 ∧ st1.count = (cs.length : Int) + 1 ∧
      (st1.mem = st.mem ∨
        treePairs st1.mem = some (ps.orderedInsert lexLE (c, (cs.length : Int)))) := by
  obtain ⟨st, e, h, hm⟩ := queries_ids K hK cs [] State.init (MInv_init K hK) (by
    intro ps hps p hp
    have : treePairs State.init.mem = some [] := by decide
    rw [this] at hps
    cases hps
    simp at hp)
  rw [List.nil_append] at h hm
  obtain ⟨st1, e1, h1, hstep⟩ := query_step K hK cs st c h
  obtain ⟨t, hinv, hcount, _⟩ := h
  obtain ⟨t1, _, hcount1, _⟩ := h1
  refine ⟨st, st1, _, e, hcount, treePairs_of_inv hinv, ?_, e1, ?_, ?_⟩
  · intro p hp
    exact mem_stream cs p (hm _ (treePairs_of_inv hinv) p hp)
  · rw [hcount1]; simp
  · by_cases hc : (K : Int) < 20000 ∧ K ≤ cs.length ∧ ¬ c < st.val_max
    · exact Or.inl ((hstep t hinv).2 hc)
    · obtain ⟨t2, hinv2, hp2⟩ := (hstep t hinv).1 hc
      exact Or.inr (by rw [treePairs_of_inv hinv2, hp2])

/-- C16 at a concrete input: `K = 1` and a single query, of cost `8`; the print command that
follows writes `0`. -/
theorem C16_ids_witness :
    1 ≤ 1 ∧ printedAfter 1 [8] = some [Char.ofNat 48] ∧
    ∃ st st1 ps, queries (1 : Nat) State.init [] = some st ∧
      st.count = (([] : List Int).length : Int) ∧
      treePairs st.mem = some ps ∧
      (∀ p ∈ ps, ∃ j : Nat, p.2 = (j : Int) ∧ ([] : List Int)[j]? = some p.1) ∧
      query (1 : Nat) st 8 = some st1 ∧ st1.count = (([] : List Int).length : Int) + 1 ∧
      (st1.mem = st.mem ∨
        treePairs st1.mem = some (ps.orderedInsert lexLE (8, (([] : List Int).length : Int)))) :=
  ⟨by decide, by decide, C16_ids_are_positions_in_the_stream 1 (by decide) [] 8⟩

/-- Claim C17: on every tree built by insertions, for every `K` and every value of
`ContrStmp`, a print command that returns leaves the tree store as it was, and a second print
command right after it writes the same characters and ends in the same state; the command
returns whenever the stored ids have at most ten digits. -/
theorem C17_print_twice_prints_the_same (K : Int) (cs : List (Int × Int)) (c0 : Int) :
    ∃ m, addAll Mem.empty cs = some m ∧
      (∀ out s1, printStep K (m, c0) = some (out, s1) →
        s1.1 = m ∧ printStep K s1 = some (out, s1)) ∧
      ((∀ p ∈ cs, p.2 < 10 ^ 10) → ∃ out s1, printStep K (m, c0) = some (out, s1)) := by
  obtain ⟨m, t, g1, g2, -, g4⟩ := addAll_spec cs Mem.empty .nil Inv_empty
  refine ⟨m, g1, ?_, ?_⟩
  · intro out s1 h
    unfold printStep at h ⊢
    cases hp : output_print K m (m.next + 1) m.root (0, []) with
    | none =>
      simp only [hp] at h
      exact Option.noConfusion h
    | some st =>
      simp only [hp, Option.map_some', Option.some.injEq, Prod.mk.injEq] at h
      obtain ⟨h1, h2⟩ := h
      subst h2
      refine ⟨rfl, ?_⟩
      simp only [hp, Option.map_some', h1]
  · intro hr
    obtain ⟨st1, h1⟩ := printFold_some K m t.addrs (0, []) (by
      intro a ha
      have hmem : ((m.cell a).Key, (m.cell a).index) ∈ pairsOf m t.addrs :=
        List.mem_map.2 ⟨a, ha, rfl⟩
      have := g4.subset hmem
      simp only [pairsOf, Sh.addrs, List.map_nil, List.nil_append] at this
      exact hr _ this)
    have hout : output_print K m (m.next + 1) m.root (0, []) = some st1 := by
      have hlen := length_le_of_nodup_bound g2.wf.nodup g2.bound
      rw [g2.wf.root, output_print_eq K t none _ _ g2.wf.repr
        (by have := height_le t; omega), h1]
    exact ⟨_, _, by unfold printStep; simp only [hout]; rfl⟩

theorem links_pointwise {m : Mem} : ∀ (s : Sh) (par : Option Nat), Repr m par s →
    ∀ a ∈ s.addrs, ∀ c, ((m.cell a).l = some c ∨ (m.cell a).r = some c) →
      (m.cell c).p = some a
  | .nil, _, _ => by intro a ha; simp [Sh.addrs] at ha
  | .node l x r, par, h => by
    obtain ⟨_, hl, hr, hrl, hrr⟩ := h
    intro a ha c hc
    simp only [Sh.addrs, List.mem_append, List.mem_cons] at ha
    rcases ha with ha | rfl | ha
    · exact links_pointwise l (some x) hrl a ha c hc
    · rcases hc with hc | hc
      · exact Repr_ptr_p hrl (by rw [← hl]; exact hc)
      · exact Repr_ptr_p hrr (by rw [← hr]; exact hc)
    · exact links_pointwise r (some x) hrr a ha c hc

/-- Claim C20: for every tree built from the empty tree by insertions and every new node,
`insert` attaches the node and `RBinsert_and_repair` returns, which it does only when no
missing parent, grandparent or rotation child was followed; in the tree it leaves the root has
no parent and every child's `p` is the node the child hangs from. -/
theorem C20_repair_follows_no_missing_link (cs : List (Int × Int)) (k i : Int) :
    ∃ m m1 m2 T m3 nodes, addAll Mem.empty cs = some m ∧
      m1 = { (m.set m.next ⟨none, none, none, k, Colour.RED, i⟩) with next := m.next + 1 } ∧
      insert (m1.next + 1) m1 m1.root m.next = some (m2, T) ∧
      RBinsert_and_repair (m2.next + 1) { m2 with root := T } T m.next = some m3 ∧
      addNode m k i = some m3 ∧
      inorder m3 (m3.next + 1) m3.root = some nodes ∧ nodes.length = cs.length + 1 ∧
      (∀ r, m3.root = some r → (m3.cell r).p = none) ∧
      ∀ a ∈ nodes, ∀ c, ((m3.cell a).l = some c ∨ (m3.cell a).r = some c) →
        (m3.cell c).p = some a := by
  obtain ⟨m, t, g1, g2, -, g4⟩ := addAll_spec cs Mem.empty .nil Inv_empty
  obtain ⟨m3, t3, L1, L2, e3, hinv3, _, hL, hL3, _⟩ := addNode_spec g2 k i
  have hlen : t.addrs.length = cs.length := by
    have := g4.length_eq
    simpa [pairsOf, Sh.addrs] using this
  have e3' := e3
  unfold addNode at e3'
  simp only [] at e3'
  cases hins : insert (m.next + 1 + 1)
      { (m.set m.next ⟨none, none, none, k, Colour.RED, i⟩) with next := m.next + 1 }
      (m.set m.next ⟨none, none, none, k, Colour.RED, i⟩).root m.next with
  | none =>
    rw [hins] at e3'
    exact Option.noConfusion e3'
  | some r =>
    obtain ⟨m2, T⟩ := r
    rw [hins] at e3'
    refine ⟨m, _, m2, T, m3, t3.addrs, g1, rfl, hins, e3', e3, Inv_inorder hinv3, ?_, ?_,
      links_pointwise t3 none hinv3.wf.repr⟩
    · rw [hL3, ← hlen, hL]
      simp only [List.length_append, List.length_cons]
      omega
    · intro r hr
      rw [hinv3.wf.root] at hr
      exact Repr_ptr_p hinv3.wf.repr hr

theorem nonzeros_bounds : ∀ (l : List Int), 0 ≤ nonzeros l ∧ nonzeros l ≤ l.length
  | [] => ⟨le_refl _, le_refl _⟩
  | i :: rest => by
    obtain ⟨a, b⟩ := nonzeros_bounds rest
    simp only [nonzeros, List.length_cons, Nat.cast_add, Nat.cast_one]
    constructor <;> split <;> omega

theorem countAfter_le (l : List Int) : countAfter l ≤ l.length := by
  cases l with
  | nil => simp [countAfter]
  | cons i rest =>
    have := (nonzeros_bounds rest).2
    simp only [countAfter, List.length_cons, Nat.cast_add, Nat.cast_one]
    omega

theorem printFold_tail_count (K : Int) (m : Mem) : ∀ (l : List Nat) (c : Int)
    (out : List Char), 0 < c →
    ∃ j, j ≤ l.length ∧
      (printFold K m l (c, out)).map Prod.snd =
        (renderTail ((l.take j).map fun a => (m.cell a).index)).map (fun s => out ++ s) ∧
      (j < l.length → ¬ c + nonzeros ((l.take j).map fun a => (m.cell a).index) < K) ∧
      ∀ t, t < j → c + nonzeros ((l.take t).map fun a => (m.cell a).index) < K := by
  intro l
  induction l with
  | nil =>
    intro c out _
    exact ⟨0, le_refl _, by simp [printFold, renderTail], fun h => absurd h (by simp),
      fun t ht => absurd ht (by omega)⟩
  | cons a rest ih =>
    intro c out hc
    have h0 : c ≠ 0 := ne_of_gt hc
    by_cases hK : c < K
    · have key : ∀ (c1 : Int) (out1 : List Char), 0 < c1 →
          c1 = c + (if (m.cell a).index = 0 then 0 else 1) →
          (∀ j, (printFold K m rest (c1, out1)).map Prod.snd =
              (renderTail ((rest.take j).map fun a => (m.cell a).index)).map
                (fun s => out1 ++ s) →
            (printFold K m (a :: rest) (c, out)).map Prod.snd =
              (renderTail (((a :: rest).take (j + 1)).map fun a => (m.cell a).index)).map
                (fun s => out ++ s)) →
          ∃ j, j ≤ (a :: rest).length ∧
            (printFold K m (a :: rest) (c, out)).map Prod.snd =
              (renderTail (((a :: rest).take j).map fun a => (m.cell a).index)).map
                (fun s => out ++ s) ∧
            (j < (a :: rest).length →
              ¬ c + nonzeros (((a :: rest).take j).map fun a => (m.cell a).index) < K) ∧
            ∀ t, t < j →
              c + nonzeros (((a :: rest).take t).map fun a => (m.cell a).index) < K := by
        intro c1 out1 hc1 hc1e hprint
        obtain ⟨j, hjl, hj, hs1, hs2⟩ := ih c1 out1 hc1
        refine ⟨j + 1, by simp only [List.length_cons]; omega, hprint j hj, ?_, ?_⟩
        · intro hlt
          simp only [List.length_cons] at hlt
          have := hs1 (by omega)
          simp only [List.take_succ_cons, List.map_cons, nonzeros]
          omega
        · intro t ht
          cases t with
          | zero => simpa [nonzeros] using hK
          | succ t =>
            have := hs2 t (by omega)
            simp only [List.take_succ_cons, List.map_cons, nonzeros]
            omega
      by_cases hi : (m.cell a).index = 0
      · refine key c (out ++ [Char.ofNat 32, Char.ofNat 48]) hc (by simp [hi]) ?_
        intro j hj
        simp only [printFold, printNode, h0, hK, hi, if_true, if_false, hj, List.take_succ_cons,
          List.map_cons, renderTail, showIndex]
        cases renderTail ((List.take j rest).map fun a => (m.cell a).index) with
        | none => rfl
        | some b => simp
      · cases hd : printDigits (m.cell a).index with
        | none =>
          refine key (c + 1) out (by omega) (by simp [hi]) ?_
          intro j _
          simp [printFold, printNode, h0, hK, hi, hd, renderTail, showIndex]
        | some ds =>
          refine key (c + 1) (out ++ Char.ofNat 32 :: ds) (by omega) (by simp [hi]) ?_
          intro j hj
          simp only [printFold, printNode, h0, hK, hi, if_true, if_false, hd, Option.map_some',
            hj, List.take_succ_cons, List.map_cons, renderTail, showIndex]
          cases renderTail ((List.take j rest).map fun a => (m.cell a).index) with
          | none => rfl
          | some b => simp
    · refine ⟨0, Nat.zero_le _, ?_, fun _ => by simpa [nonzeros] using hK,
        fun t ht => absurd ht (by omega)⟩
      rw [printFold_stop K m _ c out h0 hK]
      simp [renderTail]

theorem printFold_head_count (K : Int) (m : Mem) (l : List Nat) :
    ∃ j, j ≤ l.length ∧
      (printFold K m l (0, [])).map Prod.snd =
        render ((l.take j).map fun a => (m.cell a).index) ∧
      (j < l.length → ¬ (countAfter ((l.take j).map fun a => (m.cell a).index) = 0 ∨
        countAfter ((l.take j).map fun a => (m.cell a).index) < K)) ∧
      ∀ t, t < j → countAfter ((l.take t).map fun a => (m.cell a).index) = 0 ∨
        countAfter ((l.take t).map fun a => (m.cell a).index) < K := by
  cases l with
  | nil =>
    exact ⟨0, le_refl _, by simp [printFold, render], fun h => absurd h (by simp),
      fun t ht => absurd ht (by omega)⟩
  | cons a rest =>
    have hfin : ∀ (out1 : List Char),
        (∀ j, (printFold K m rest (1, out1)).map Prod.snd =
            (renderTail ((rest.take j).map fun a => (m.cell a).index)).map
              (fun s => out1 ++ s) →
          (printFold K m (a :: rest) (0, [])).map Prod.snd =
            render (((a :: rest).take (j + 1)).map fun a => (m.cell a).index)) →
        ∃ j, j ≤ (a :: rest).length ∧
          (printFold K m (a :: rest) (0, [])).map Prod.snd =
            render (((a :: rest).take j).map fun a => (m.cell a).index) ∧
          (j < (a :: rest).length →
            ¬ (countAfter (((a :: rest).take j).map fun a => (m.cell a).index) = 0 ∨
              countAfter (((a :: rest).take j).map fun a => (m.cell a).index) < K)) ∧
          ∀ t, t < j → countAfter (((a :: rest).take t).map fun a => (m.cell a).index) = 0 ∨
            countAfter (((a :: rest).take t).map fun a => (m.cell a).index) < K := by
      intro out1 hprint
      obtain ⟨j, hjl, hj, hs1, hs2⟩ := printFold_tail_count K m rest 1 out1 (by omega)
      refine ⟨j + 1, by simp only [List.length_cons]; omega, hprint j hj, ?_, ?_⟩
      · intro hlt
        simp only [List.length_cons] at hlt
        have h1 := hs1 (by omega)
        have h2 := (nonzeros_bounds ((rest.take j).map fun a => (m.cell a).index)).1
        simp only [List.take_succ_cons, List.map_cons, countAfter]
        omega
      · intro t ht
        cases t with
        | zero => exact Or.inl rfl
        | succ t =>
          have := hs2 t (by omega)
          simp only [List.take_succ_cons, List.map_cons, countAfter]
          exact Or.inr this
    cases hd : showIndex (m.cell a).index with
    | none =>
      refine hfin [] ?_
      intro j _
      by_cases hi : (m.cell a).index = 0
      · simp [showIndex, hi] at hd
      · simp only [showIndex, hi, if_false] at hd
        simp [printFold, printNode, hi, hd, render, showIndex]
    | some s =>
      refine hfin ([] ++ s) ?_
      intro j hj
      have hst : printNode K (m.cell a) (0, []) = some (1, [] ++ s) := by
        by_cases hi : (m.cell a).index = 0
        · simp only [showIndex, hi, if_true, Option.some.injEq] at hd
          simp [printNode, hi, ← hd]
        · simp only [showIndex, hi, if_false] at hd
          simp [printNode, hi, hd]
      simp only [printFold, hst, hj, List.take_succ_cons, List.map_cons, render, hd]
      cases renderTail ((List.take j rest).map fun a => (m.cell a).index) with
      | none => rfl
      | some b => simp

theorem example_pairs : ((stream [10, 5, 20, 2, 8]).insertionSort lexLE).take 3 =
    [(2, 3), (5, 1), (8, 4)] := by decide

theorem example_print : printedAfter 3 [10, 5, 20, 2, 8] =
    some [Char.ofNat 51, Char.ofNat 32, Char.ofNat 49, Char.ofNat 32, Char.ofNat 52] := by
  obtain ⟨st, h1, t, hinv, _, _, _, htake, hlen, _⟩ :=
    queries_spec 3 (by decide) [10, 5, 20, 2, 8] [] State.init (MInv_init 3 (by decide))
  simp only [List.nil_append] at h1 htake hlen
  rw [example_pairs] at htake
  have hsplit : t.addrs = t.addrs.take 3 ++ t.addrs.drop 3 := (List.take_append_drop 3 _).symm
  have hp3 : pairsOf st.mem (t.addrs.take 3) = [(2, 3), (5, 1), (8, 4)] := by
    rw [← htake]
    simp [pairsOf, List.map_take]
  have hfirst : printFold 3 st.mem (t.addrs.take 3) (0, []) =
      some (3, [Char.ofNat 51, Char.ofNat 32, Char.ofNat 49, Char.ofNat 32, Char.ofNat 52]) := by
    have hl : (t.addrs.take 3).length = 3 := by
      have := congrArg List.length hp3
      simpa [pairsOf] using this
    obtain ⟨a1, a2, a3, h3⟩ := List.length_eq_three.1 hl
    rw [h3] at hp3 ⊢
    simp only [pairsOf, List.map_cons, List.map_nil, List.cons.injEq, Prod.mk.injEq,
      and_true] at hp3
    obtain ⟨⟨_, i1⟩, ⟨_, i2⟩, ⟨_, i3⟩⟩ := hp3
    have d3 : printDigits 3 = some [Char.ofNat 51] := by decide
    have d1 : printDigits 1 = some [Char.ofNat 49] := by decide
    have d4 : printDigits 4 = some [Char.ofNat 52] := by decide
    simp [printFold, printNode, i1, i2, i3, d3, d1, d4]
  have h1' : queries 3 State.init [10, 5, 20, 2, 8] = some st := h1
  unfold printedAfter
  rw [h1']
  simp only [Option.some_bind]
  rw [printCommand_eq 3 hinv, hsplit, printFold_append, hfirst]
  simp only [Option.some_bind]
  rw [printFold_stop 3 st.mem _ 3 _ (by decide) (by decide)]
  rfl

/-- Claim C6: for every `K` and every tree built by insertions, one print command writes the
ids of the first `j` nodes of the in-order traversal, separated by blanks, and the costs along
the traversal are non-decreasing.  The number `j` is the one the counter `ContrStmp` fixes: a
node is written exactly while the counter is `0` or below `K`, so for `K ≥ 1` at least
`min K n` ids are written; the command returns when every id has at most ten digits.  After
the costs `10, 5, 20, 2, 8` with `K = 3` the command writes `3 1 4`. -/
theorem C6_print_is_initial_segment_in_cost_order :
    (∀ (K : Int) (cs : List (Int × Int)),
      ∃ m nodes j, addAll Mem.empty cs = some m ∧
        inorder m (m.next + 1) m.root = some nodes ∧ j ≤ nodes.length ∧
        printCommand K m = render ((nodes.take j).map fun a => (m.cell a).index) ∧
        (nodes.map fun a => (m.cell a).Key).Sorted (· ≤ ·) ∧
        (j < nodes.length →
          ¬ (countAfter ((nodes.take j).map fun a => (m.cell a).index) = 0 ∨
            countAfter ((nodes.take j).map fun a => (m.cell a).index) < K)) ∧
        (∀ t, t < j → countAfter ((nodes.take t).map fun a => (m.cell a).index) = 0 ∨
          countAfter ((nodes.take t).map fun a => (m.cell a).index) < K) ∧
        (1 ≤ K → min K.toNat nodes.length ≤ j) ∧
        ((∀ p ∈ cs, p.2 < 10 ^ 10) → ∃ out, printCommand K m = some out)) ∧
    printedAfter 3 [10, 5, 20, 2, 8] =
      some [Char.ofNat 51, Char.ofNat 32, Char.ofNat 49, Char.ofNat 32, Char.ofNat 52] := by
  refine ⟨?_, example_print⟩
  intro K cs
  obtain ⟨m, t, g1, g2, -, g4⟩ := addAll_spec cs Mem.empty .nil Inv_empty
  obtain ⟨j, hjl, hj, hs1, hs2⟩ := printFold_head_count K m t.addrs
  refine ⟨m, t.addrs, j, g1, Inv_inorder g2, hjl, ?_, ?_, hs1, hs2, ?_, ?_⟩
  · rw [printCommand_eq K g2, hj]
  · have := keys_sorted_of_inv g2
    simpa [pairsOf, List.map_map] using this
  · intro hK
    by_cases hlt : j < t.addrs.length
    · have h1 := hs1 hlt
      have h2 := countAfter_le ((t.addrs.take j).map fun a => (m.cell a).index)
      simp only [List.length_map, List.length_take] at h2
      have h3 : (min j t.addrs.length : Nat) = j := by omega
      rw [h3] at h2
      omega
    · omega
  · intro hr
    obtain ⟨st1, h1⟩ := printFold_some K m t.addrs (0, []) (by
      intro a ha
      have hmem : ((m.cell a).Key, (m.cell a).index) ∈ pairsOf m t.addrs :=
        List.mem_map.2 ⟨a, ha, rfl⟩
      have := g4.subset hmem
      simp only [pairsOf, Sh.addrs, List.map_nil, List.nil_append] at this
      exact hr _ this)
    exact ⟨st1.2, by rw [printCommand_eq K g2, h1]; rfl⟩

end GraphRanker
